import Mathlib

/-!
# Crypto-Obscured Forwarder: connection multiplexer and TCP-IPv4 request bootup

A shallow embedding of

* `roles/common/transceiver/connection/channel.go` (the multiplexer `channelize`
  and its virtual `channel`), and
* `roles/proxy/request/tcp_ipv4.go` (`tcpIPv4.Bootup`).

Go channels and `select` are embedded as explicit state: a buffered channel of
capacity one is an `Option`, a signal channel is a `Bool` (fired or not), and the
case a `select` takes is an argument of the operation.  An operation returns
`none` when it does not return in the Go program from that state with that
choice (it blocks, the chosen case is not ready, it indexes out of range, or
its loop budget is exhausted).  Everything outside the repository (the codec,
the connection, the ticker, the registry, the relay, the dialer) is an argument.
-/

namespace Coward

/-! ## Errors -/

/-- The error values the embedded code returns, plus `EOF` (the `io.EOF` of the
standard library) and `collaborator` for an error that comes from outside the
embedded packages (codec, connection, ticker, registry, relay). -/
inductive Error where
  | ErrChannelShuttedDown
  | ErrChannelInitializationFailed
  | ErrChannelWriteIncomplete
  | ErrChannelDispatchChannelUnavailable
  | ErrChannelDispatchChannelInactive
  | ErrChannelVirtualConnectionTimedout
  | ErrChannelVirtualConnectionSegmentDepleted
  | ErrChannelConnectionDropped
  | ErrChannelVirtualConnectionNotAssigned
  | ErrChannelAlreadyClosing
  | ErrTCPInvalidTimeout
  | ErrDataBlockTooLarge
  | ErrInvalidSizeDataLength
  | EOF
  | collaborator (code : Nat)
  deriving DecidableEq, Repr

/-! ## The environment of the multiplexer -/

/-- What one read through the decode transform gives back: the bytes stored in
the caller's buffer (`rLen` is their number), the error, and the stream
afterwards. -/
structure ReadResult (σ : Type) where
  data : List Nat
  err : Option Error
  next : σ

/-- The read side of the connection behind the decode transform, with the stream
state `σ`: `Read s n` is `codec.Decode(conn).Read(b[:n])`, `ReadFull s n` is
`io.ReadFull(codec.Decode(conn), buf[:n])`, and `SetTimeout s t` is
`conn.SetTimeout(t)`. -/
structure Codec (σ : Type) where
  Read : σ → Nat → ReadResult σ
  ReadFull : σ → Nat → ReadResult σ
  SetTimeout : σ → Int → σ

/-- The registry `ch.Channels` handed to `Dispatch`, with machines of type `μ`. -/
structure Channels (μ : Type) where
  Get : Nat → Except Error μ
  Size : Nat

/-! ## Data model -/

/-- The value of `math.MaxUint16`. -/
def MaxUint16 : Nat := 65535

/-- The constant `maxDepleteBufSize`. -/
def maxDepleteBufSize : Nat := 256

/-- The struct `channelReader`: `Reader` and `Complete` record whether the
pointer is non-nil (when set, `Reader` is the multiplexer's connection and
`Complete` is the multiplexer's `dispatchCompleted`); `Length` is a `uint16`. -/
structure channelReader where
  Reader : Bool
  Length : Nat
  Complete : Bool
  deriving DecidableEq, Repr

/-- The struct `channel`.  `connReader` is a channel of capacity one; the fields
that alias the multiplexer (`Connection`, `codec`, `connClosed`, `downSignal`,
`writeLock`) live in `channelize`; `timeoutTicker` records whether the ticker is
non-nil. -/
structure channel where
  id : Nat
  timeout : Int
  timeoutTicker : Bool
  connReader : Option channelReader
  currentReader : channelReader
  deriving DecidableEq, Repr

/-- The states of `dispatchCompleted`, a channel of capacity one: open and empty,
open and holding the token, or closed with the field set to nil. -/
inductive Gate where
  | free
  | held
  | closed
  deriving DecidableEq, Repr

/-- The struct `channelize` over a stream state `σ`.  `connClosed` and
`downSignal` tell whether `conn.Closed()` and `downSignal` have fired.
`segPending` is instrumentation, not a field of the Go struct: the number of
bytes of the segment declared by the last decoded header that are still in the
stream. -/
structure channelize (σ : Type) where
  conn : σ
  connClosed : Bool
  timeout : Int
  timeoutTicker : Bool
  buf : List Nat
  channels : List (Option channel)
  dispatchCompleted : Gate
  downSignal : Bool
  downed : Bool
  segPending : Int

/-- The function `Channelize`, with `ch.MaxChannels` slots. -/
def Channelize {σ : Type} (MaxChannels : Nat) (c : σ) (timeoutTicker : Bool) :
    channelize σ :=
  { conn := c
    connClosed := false
    timeout := 0
    timeoutTicker := timeoutTicker
    buf := [0, 0, 0]
    channels := List.replicate MaxChannels none
    dispatchCompleted := Gate.free
    downSignal := false
    downed := false
    segPending := 0 }

/-! ## Channel operations -/

/-- The method `channel.Timeout`. -/
def channel.Timeout (c : channel) (t : Int) : channel :=
  { c with timeout := t }

/-- The method `channel.Depleted`. -/
def channel.Depleted (c : channel) : Bool :=
  decide (c.currentReader.Length ≤ 0)

/-- The case the `select` of `channel.Read` takes. -/
inductive ReadSelect where
  | frame
  | closed
  | down
  | timeout
  deriving DecidableEq, Repr

/-- The part of the environment a `channel.Read` sees while it waits: the error
of `timeoutTicker.Request` and the case the `select` takes. -/
structure ReadEnv where
  tickerErr : Option Error
  pick : ReadSelect

/-- What `channel.Read` returns and leaves behind: `n` and `err` are the Go
results, `data` the bytes stored in `b`, `armed` the timeout a deadline was
requested with, if one was. -/
structure ReadOut (σ : Type) where
  n : Nat
  err : Option Error
  data : List Nat
  armed : Option Int
  c : channel
  m : channelize σ

/-- The tail of `channel.Read` (from `bufLen := len(b)`): one read of at most
`min(len(b), Length)` bytes through the decoder, then `Length -= uint16(rLen)`. -/
def channel.readSegment {σ : Type} (cd : Codec σ) (c : channel) (m : channelize σ)
    (bLen : Nat) (armed : Option Int) : ReadOut σ :=
  let bufLen := if bLen > MaxUint16 then MaxUint16 else bLen
  let maxBufLen := bufLen % 65536
  let maxReadLen :=
    if c.currentReader.Length > maxBufLen then maxBufLen else c.currentReader.Length
  let r := cd.Read m.conn maxReadLen
  let rLen := r.data.length
  { n := rLen
    err := r.err
    data := r.data
    armed := armed
    c := { c with currentReader :=
            { c.currentReader with
              Length := (c.currentReader.Length + 65536 - rLen % 65536) % 65536 } }
    m := { m with conn := r.next, segPending := m.segPending - rLen } }

/-- The method `channel.Read` on a buffer of length `bLen`. -/
def channel.Read {σ : Type} (cd : Codec σ) (env : ReadEnv) (c : channel)
    (m : channelize σ) (bLen : Nat) : Option (ReadOut σ) :=
  if c.currentReader.Reader = false then
    let useTicker := decide (c.timeout > 0) && c.timeoutTicker
    let armed := if useTicker then some c.timeout else none
    if useTicker && env.tickerErr.isSome then
      some { n := 0, err := env.tickerErr, data := [], armed := armed, c := c, m := m }
    else
      match env.pick with
      | ReadSelect.frame =>
        match c.connReader with
        | some reader =>
          channel.readSegment cd
            { c with
              connReader := none
              currentReader :=
                { Reader := reader.Reader, Length := reader.Length,
                  Complete := reader.Complete } } m bLen armed
        | none => none
      | ReadSelect.closed =>
        if m.connClosed then
          some { n := 0, err := some Error.ErrChannelConnectionDropped, data := [],
                 armed := armed, c := c, m := m }
        else none
      | ReadSelect.down =>
        if m.downSignal then
          some { n := 0, err := some Error.ErrChannelShuttedDown, data := [],
                 armed := armed, c := c, m := m }
        else none
      | ReadSelect.timeout =>
        if useTicker then
          some { n := 0, err := some Error.ErrChannelVirtualConnectionTimedout,
                 data := [], armed := armed, c := c, m := m }
        else none
  else if c.Depleted then
    some { n := 0, err := some Error.ErrChannelVirtualConnectionSegmentDepleted,
           data := [], armed := none, c := c, m := m }
  else
    some (channel.readSegment cd c m bLen none)

/-- The loop of `channel.Deplete`, with a budget of iterations: it reads into a
buffer of `dLen` bytes until a read fails or the segment is depleted. -/
def channel.depleteLoop {σ : Type} (cd : Codec σ) (env : ReadEnv) (dLen : Nat) :
    Nat → channel → channelize σ → Option (Option Error × channel × channelize σ)
  | 0, _, _ => none
  | fuel + 1, c, m =>
    match channel.Read cd env c m dLen with
    | none => none
    | some out =>
      if out.err.isSome then some (out.err, out.c, out.m)
      else if !out.c.Depleted then channel.depleteLoop cd env dLen fuel out.c out.m
      else some (none, out.c, out.m)

/-- The method `channel.Deplete`, its loop running at most `fuel` times. -/
def channel.Deplete {σ : Type} (cd : Codec σ) (env : ReadEnv) (fuel : Nat)
    (c : channel) (m : channelize σ) :
    Option (Option Error × channel × channelize σ) :=
  if c.Depleted then some (none, c, m)
  else
    let maxBufSize :=
      if c.currentReader.Length > maxDepleteBufSize then maxDepleteBufSize
      else c.currentReader.Length
    channel.depleteLoop cd env maxBufSize fuel c m

/-- The method `channel.Done`.  The receive `<-c.currentReader.Complete` takes the
token of a held gate, returns at once on a closed one, and blocks on a free one
and on a nil channel. -/
def channel.Done {σ : Type} (cd : Codec σ) (env : ReadEnv) (fuel : Nat)
    (c : channel) (m : channelize σ) :
    Option (Option Error × channel × channelize σ) :=
  match channel.Deplete cd env fuel c m with
  | none => none
  | some (err, c1, m1) =>
    if c1.currentReader.Reader then
      let c2 := { c1 with currentReader := { c1.currentReader with Reader := false } }
      if c1.currentReader.Complete then
        match m1.dispatchCompleted with
        | Gate.held => some (err, c2, { m1 with dispatchCompleted := Gate.free })
        | Gate.closed => some (err, c2, m1)
        | Gate.free => none
      else none
    else some (err, c1, m1)

/-- What `channel.Write` returns, and `calls`: the header and the segment of every
`WriteAll` it made, in order. -/
structure WriteOut where
  n : Nat
  err : Option Error
  calls : List (List Nat × List Nat)
  deriving DecidableEq, Repr

/-- The header `channel.Write` builds for channel `id` and a segment of `segLen`
bytes: `id.Byte()`, `byte(segLen>>8)`, `byte(segLen<<8>>8)`. -/
def headBuf (id segLen : Nat) : List Nat :=
  [id % 256, (segLen >>> 8) % 256, ((segLen <<< 8) >>> 8) % 256]

/-- The loop of `channel.Write` from `startPos` and `segLen`, with a budget of
iterations; `wErr i` is the error of the `WriteAll` call number `i`. -/
def channel.writeLoop (wErr : Nat → Option Error) (c : channel) (b : List Nat) :
    Nat → Nat → Nat → List (List Nat × List Nat) → Option WriteOut
  | 0, _, _, _ => none
  | fuel + 1, startPos, segLen, sent =>
    if b.length > startPos then
      let sent1 := sent ++ [(headBuf c.id segLen, (b.drop startPos).take segLen)]
      match wErr sent.length with
      | some e => some { n := startPos, err := some e, calls := sent1 }
      | none =>
        let startPos1 := startPos + segLen
        let segLen1 := b.length - startPos1
        let segLen2 := if segLen1 > MaxUint16 then MaxUint16 else segLen1
        channel.writeLoop wErr c b fuel startPos1 segLen2 sent1
    else some { n := startPos, err := none, calls := sent }

/-- The method `channel.Write`; its loop makes at most one pass per payload byte,
so a budget of `len(b) + 1` is never exhausted. -/
def channel.Write (wErr : Nat → Option Error) (c : channel) (b : List Nat) :
    Option WriteOut :=
  let segLen := if b.length > MaxUint16 then MaxUint16 else b.length
  channel.writeLoop wErr c b (b.length + 1) 0 segLen []

/-- Successive calls of `Read` on buffers of the lengths `sizes`: the bytes each
call stored, in order, and the channel and the multiplexer after the last. -/
def channel.readAll {σ : Type} (cd : Codec σ) (env : ReadEnv) :
    List Nat → channel → channelize σ → Option (List (List Nat) × channel × channelize σ)
  | [], c, m => some ([], c, m)
  | n :: ns, c, m =>
    match channel.Read cd env c m n with
    | none => none
    | some out =>
      match channel.readAll cd env ns out.c out.m with
      | none => none
      | some (ps, c1, m1) => some (out.data :: ps, c1, m1)

/-- A decoder that hands out the bytes `pending` of its stream: a read stores at
most as many bytes as asked, they are the next bytes of the stream, and it
stores at least one when asked for one or more while bytes are pending. -/
def Codec.Streams {σ : Type} (cd : Codec σ) (pending : σ → List Nat) : Prop :=
  ∀ s n, (cd.Read s n).data.length ≤ n ∧
    (cd.Read s n).data ++ pending (cd.Read s n).next = pending s ∧
    (1 ≤ n → pending s ≠ [] → 1 ≤ (cd.Read s n).data.length)

/-! ## Multiplexer operations -/

/-- The method `channelize.Timeout`. -/
def channelize.Timeout {σ : Type} (cd : Codec σ) (t : Int) (m : channelize σ) :
    channelize σ :=
  { m with timeout := t, conn := cd.SetTimeout m.conn t }

/-- Storing read bytes at the start of a buffer, the rest of it staying. -/
def fill (buf data : List Nat) : List Nat :=
  data.take buf.length ++ buf.drop data.length

/-- The segment length `Dispatch` decodes from `buf[1]` and `buf[2]` in `uint16`
arithmetic: `segDataLen |= buf[1]; segDataLen <<= 8; segDataLen |= buf[2]`. -/
def segDataLen (buf : List Nat) : Nat :=
  let l0 : Nat := 0
  let l1 := l0 ||| (buf.getD 1 0 % 256)
  let l2 := (l1 <<< 8) % 65536
  l2 ||| (buf.getD 2 0 % 256)

/-- The case the first `select` of `Dispatch` takes. -/
inductive DispatchSelect where
  | gate
  | closed
  | down
  deriving DecidableEq, Repr

/-- The case the second `select` of `Dispatch` takes. -/
inductive DeliverSelect where
  | deliver
  | closed
  | down
  deriving DecidableEq, Repr

/-- What `Dispatch` returns and the multiplexer it leaves. -/
structure DispatchOut (σ μ : Type) where
  id : Nat
  machine : Option μ
  err : Option Error
  m : channelize σ

/-- The method `channelize.Dispatch`. -/
def channelize.Dispatch {σ μ : Type} (cd : Codec σ) (s1 : DispatchSelect)
    (s2 : DeliverSelect) (channels : Channels μ) (m : channelize σ) :
    Option (DispatchOut σ μ) :=
  match s1 with
  | DispatchSelect.closed =>
    if m.connClosed then
      some { id := 0, machine := none, err := some Error.ErrChannelConnectionDropped,
             m := { m with dispatchCompleted := Gate.closed } }
    else none
  | DispatchSelect.down =>
    if m.downSignal then
      some { id := 0, machine := none, err := some Error.ErrChannelShuttedDown,
             m := { m with dispatchCompleted := Gate.closed } }
    else none
  | DispatchSelect.gate =>
    if m.dispatchCompleted = Gate.free then
      let r := cd.ReadFull m.conn 3
      let m1 := { m with dispatchCompleted := Gate.held, conn := r.next,
                         buf := fill m.buf r.data }
      match r.err with
      | some rErr =>
        some { id := 0, machine := none, err := some rErr,
               m := { m1 with dispatchCompleted := Gate.free } }
      | none =>
        let m2 := { m1 with segPending := segDataLen m1.buf }
        let id := m2.buf.getD 0 0
        match channels.Get id with
        | Except.error fsmErr =>
          some { id := 0, machine := none, err := some fsmErr,
                 m := { m2 with dispatchCompleted := Gate.free } }
        | Except.ok machine =>
          if id % 256 ≥ channels.Size then
            some { id := 0, machine := none,
                   err := some Error.ErrChannelDispatchChannelUnavailable,
                   m := { m2 with dispatchCompleted := Gate.free } }
          else
            match m2.channels[id]? with
            | none => none
            | some none =>
              some { id := 0, machine := none,
                     err := some Error.ErrChannelDispatchChannelUnavailable,
                     m := { m2 with dispatchCompleted := Gate.free } }
            | some (some vc) =>
              match s2 with
              | DeliverSelect.deliver =>
                match vc.connReader with
                | some _ => none
                | none =>
                  let reader : channelReader :=
                    { Reader := true, Length := segDataLen m2.buf, Complete := true }
                  let vc1 := { vc with connReader := some reader }
                  some { id := id, machine := some machine, err := none,
                         m := { m2 with channels := m2.channels.set id (some vc1) } }
              | DeliverSelect.closed =>
                if m2.connClosed then
                  some { id := 0, machine := none,
                         err := some Error.ErrChannelConnectionDropped,
                         m := { m2 with dispatchCompleted := Gate.closed } }
                else none
              | DeliverSelect.down =>
                if m2.downSignal then
                  some { id := 0, machine := none,
                         err := some Error.ErrChannelShuttedDown,
                         m := { m2 with dispatchCompleted := Gate.closed } }
                else none
    else none

/-- The method `channelize.For`; it returns the channel and the multiplexer. -/
def channelize.For {σ : Type} (id : Nat) (m : channelize σ) :
    Option (channel × channelize σ) :=
  match m.channels[id]? with
  | none => none
  | some (some vc) => some (vc, m)
  | some none =>
    let vc : channel :=
      { id := id
        timeout := m.timeout
        timeoutTicker := m.timeoutTicker
        connReader := none
        currentReader := { Reader := false, Complete := false, Length := 0 } }
    some (vc, { m with channels := m.channels.set id (some vc) })

/-- The method `channelize.Shutdown`. -/
def channelize.Shutdown {σ : Type} (m : channelize σ) : Option Error × channelize σ :=
  if m.downed then (some Error.ErrChannelShuttedDown, m)
  else
    (none, { m with downed := true, downSignal := true,
                    channels := m.channels.map (fun _ => none) })

/-! ## Operations on the channel of a slot -/

/-- Writing a channel back to its slot. -/
def channelize.store {σ : Type} (m : channelize σ) (id : Nat) (c : channel) :
    channelize σ :=
  { m with channels := m.channels.set id (some c) }

/-- `Read` called on the channel that `For(id)` returns. -/
def channelize.ReadAt {σ : Type} (cd : Codec σ) (env : ReadEnv) (id bLen : Nat)
    (m : channelize σ) : Option (ReadOut σ) :=
  match m.channels[id]? with
  | some (some c) =>
    match channel.Read cd env c m bLen with
    | some out => some { out with m := out.m.store id out.c }
    | none => none
  | _ => none

/-- `Deplete` called on the channel that `For(id)` returns. -/
def channelize.DepleteAt {σ : Type} (cd : Codec σ) (env : ReadEnv) (fuel id : Nat)
    (m : channelize σ) : Option (Option Error × channelize σ) :=
  match m.channels[id]? with
  | some (some c) =>
    match channel.Deplete cd env fuel c m with
    | some (err, c1, m1) => some (err, m1.store id c1)
    | none => none
  | _ => none

/-- `Done` called on the channel that `For(id)` returns. -/
def channelize.DoneAt {σ : Type} (cd : Codec σ) (env : ReadEnv) (fuel id : Nat)
    (m : channelize σ) : Option (Option Error × channelize σ) :=
  match m.channels[id]? with
  | some (some c) =>
    match channel.Done cd env fuel c m with
    | some (err, c1, m1) => some (err, m1.store id c1)
    | none => none
  | _ => none

/-- One call of `For`, `Dispatch`, or of `Read`, `Deplete`, `Done` on a channel
of the multiplexer, taking it from one state to the next. -/
inductive Step {σ μ : Type} (cd : Codec σ) (channels : Channels μ) :
    channelize σ → channelize σ → Prop where
  | For (m : channelize σ) (id : Nat) (vc : channel) (m1 : channelize σ) :
      m.For id = some (vc, m1) → Step cd channels m m1
  | Dispatch (m : channelize σ) (s1 : DispatchSelect) (s2 : DeliverSelect)
      (out : DispatchOut σ μ) :
      m.Dispatch cd s1 s2 channels = some out → Step cd channels m out.m
  | Read (m : channelize σ) (env : ReadEnv) (id bLen : Nat) (out : ReadOut σ) :
      m.ReadAt cd env id bLen = some out → Step cd channels m out.m
  | Deplete (m : channelize σ) (env : ReadEnv) (fuel id : Nat) (err : Option Error)
      (m1 : channelize σ) :
      m.DepleteAt cd env fuel id = some (err, m1) → Step cd channels m m1
  | Done (m : channelize σ) (env : ReadEnv) (fuel id : Nat) (err : Option Error)
      (m1 : channelize σ) :
      m.DoneAt cd env fuel id = some (err, m1) → Step cd channels m m1

/-- The states a multiplexer reaches from `m0` through calls of `Step`. -/
inductive Reachable {σ μ : Type} (cd : Codec σ) (channels : Channels μ)
    (m0 : channelize σ) : channelize σ → Prop where
  | start : Reachable cd channels m0 m0
  | step (m m1 : channelize σ) :
      Reachable cd channels m0 m → Step cd channels m m1 → Reachable cd channels m0 m1

/-- Frame alignment of a state: when the dispatch gate is free, so that the next
`Dispatch` reads a header, no byte of the last decoded segment is left in the
stream. -/
def FrameAligned {σ : Type} (m : channelize σ) : Prop :=
  m.dispatchCompleted = Gate.free → m.segPending = 0

/-- The calls of `Step` except a `Dispatch` that returns an error after it read a
header with a non-zero segment length, and a `Done` that returns an error. -/
inductive CleanStep {σ μ : Type} (cd : Codec σ) (channels : Channels μ) :
    channelize σ → channelize σ → Prop where
  | For (m : channelize σ) (id : Nat) (vc : channel) (m1 : channelize σ) :
      m.For id = some (vc, m1) → CleanStep cd channels m m1
  | Dispatch (m : channelize σ) (s1 : DispatchSelect) (s2 : DeliverSelect)
      (out : DispatchOut σ μ) :
      m.Dispatch cd s1 s2 channels = some out →
      (out.err.isSome → s1 = DispatchSelect.gate → (cd.ReadFull m.conn 3).err = none →
        segDataLen (fill m.buf (cd.ReadFull m.conn 3).data) = 0) →
      CleanStep cd channels m out.m
  | Read (m : channelize σ) (env : ReadEnv) (id bLen : Nat) (out : ReadOut σ) :
      m.ReadAt cd env id bLen = some out → CleanStep cd channels m out.m
  | Deplete (m : channelize σ) (env : ReadEnv) (fuel id : Nat) (err : Option Error)
      (m1 : channelize σ) :
      m.DepleteAt cd env fuel id = some (err, m1) → CleanStep cd channels m m1
  | Done (m : channelize σ) (env : ReadEnv) (fuel id : Nat) (m1 : channelize σ) :
      m.DoneAt cd env fuel id = some (none, m1) → CleanStep cd channels m m1

/-- The states a multiplexer reaches from `m0` through calls of `CleanStep`. -/
inductive CleanReachable {σ μ : Type} (cd : Codec σ) (channels : Channels μ)
    (m0 : channelize σ) : channelize σ → Prop where
  | start : CleanReachable cd channels m0 m0
  | step (m m1 : channelize σ) :
      CleanReachable cd channels m0 m → CleanStep cd channels m m1 →
      CleanReachable cd channels m0 m1

/-- A channel that neither has a frame in its inbox nor owns one. -/
def channel.Idle (c : channel) : Prop :=
  c.connReader = none ∧ c.currentReader.Reader = false

/-- A channel that has the routed frame, in its inbox or as its owner, with `p`
bytes of the segment left. -/
def channel.Carrying (c : channel) (p : Int) : Prop :=
  (c.currentReader.Reader = false ∧
    ∃ L, c.connReader = some (channelReader.mk true L true) ∧ (L : Int) = p ∧ L < 65536) ∨
  (c.connReader = none ∧ c.currentReader.Reader = true ∧
    c.currentReader.Complete = true ∧ (c.currentReader.Length : Int) = p ∧
    c.currentReader.Length < 65536)

/-- The token discipline of the gate: while it is free no segment byte is pending
and every channel is idle; while it is held exactly one channel carries the
routed frame, whose remaining count is the number of pending segment bytes. -/
def channelize.Inv {σ : Type} (m : channelize σ) : Prop :=
  match m.dispatchCompleted with
  | Gate.free =>
    m.segPending = 0 ∧ ∀ (i : Nat) (c : channel), m.channels[i]? = some (some c) → c.Idle
  | Gate.held =>
    ∃ (i : Nat) (c : channel), m.channels[i]? = some (some c) ∧ c.Carrying m.segPending ∧
      ∀ (j : Nat) (c1 : channel), j ≠ i → m.channels[j]? = some (some c1) → c1.Idle
  | Gate.closed => True

/-- What a call on a channel keeps: the slots and the gate, an idle channel and
the pending count, and the agreement of a carrying channel with the pending
count. -/
def Pres {σ : Type} (c : channel) (m : channelize σ) (c1 : channel)
    (m1 : channelize σ) : Prop :=
  m1.channels = m.channels ∧ m1.dispatchCompleted = m.dispatchCompleted ∧
  (c.Idle → c1 = c ∧ m1.segPending = m.segPending) ∧
  (c.Carrying m.segPending → c1.Carrying m1.segPending)

/-- A decoder that makes progress: a read asked for one byte or more that does
not fail stores at least one byte. -/
def Codec.Progressive {σ : Type} (cd : Codec σ) : Prop :=
  ∀ s n, 1 ≤ n → (cd.Read s n).err = none → 1 ≤ (cd.Read s n).data.length

/-- The contract of `io.Reader` the decoder is held to: a read stores no more
bytes than the buffer it was given holds. -/
def Codec.Bounded {σ : Type} (cd : Codec σ) : Prop :=
  ∀ s n, (cd.Read s n).data.length ≤ n

/-! ## The TCP-IPv4 connect request -/

/-- The fields of the struct `tcp` that `tcpIPv4.Bootup` uses; `relay` records
whether the relay is non-nil, the durations are in nanoseconds. -/
structure tcp where
  buf : List Nat
  dialTimeout : Int
  connectionTimeout : Int
  noLocalAccess : Bool
  relay : Bool
  deriving DecidableEq, Repr

/-- The calls `tcpIPv4.Bootup` makes on its collaborators: `c.rw.Done()`,
`rw.WriteFull(c.rw, b)`, `tcpdial.New(host, port, timeout, ...)`,
`relay.New(...)` with the fields of its `tcpRelay`, and `c.relay.Bootup(...)`. -/
inductive Call where
  | Done
  | WriteFull (b : List Nat)
  | NewDialer (host : String) (port : Nat) (timeout : Int)
  | NewRelay (noLocalAccess : Bool) (dialTimeout connectionTimeout : Int)
  | RelayBootup
  deriving DecidableEq, Repr

/-- The states a `Bootup` can hand back as the next one. -/
inductive State where
  | tick
  deriving DecidableEq, Repr

/-- What the collaborators of `tcpIPv4.Bootup` answer: the bytes `io.ReadFull`
stores in `c.buf[:7]` and its error, the error code of `relay.Bootup` (an error
of the relay is a value of the relay, not one of this package), and the missing
constant `TCPRespondBadRequest`. -/
structure BootupEnv where
  request : List Nat
  rErr : Option Error
  bootErr : Option Nat
  TCPRespondBadRequest : Nat

/-- What `tcpIPv4.Bootup` returns, the calls it made in order, and the machine it
leaves. -/
structure BootupOut where
  state : Option State
  err : Option Error
  calls : List Call
  c : tcp
  deriving DecidableEq, Repr

/-- The value of `time.Second`, in nanoseconds. -/
def Second : Int := 1000000000

/-- The text of `net.IPv4(a, b, c, d).String()`. -/
def IPv4String (a b c d : Nat) : String :=
  toString a ++ "." ++ toString b ++ "." ++ toString c ++ "." ++ toString d

/-- The method `tcpIPv4.Bootup`; slicing `c.buf[:7]` needs seven bytes of buffer. -/
def tcpIPv4.Bootup (env : BootupEnv) (c : tcp) : Option BootupOut :=
  if c.buf.length < 7 then none
  else
    let c1 := { c with buf := fill c.buf (env.request.take 7) }
    match env.rErr with
    | some rErr =>
      some { state := none, err := some rErr, calls := [Call.Done], c := c1 }
    | none =>
      let host := IPv4String (c1.buf.getD 0 0) (c1.buf.getD 1 0) (c1.buf.getD 2 0)
        (c1.buf.getD 3 0)
      let p0 : Nat := 0
      let p1 := p0 ||| (c1.buf.getD 4 0 % 256)
      let p2 := (p1 <<< 8) % 65536
      let port := p2 ||| (c1.buf.getD 5 0 % 256)
      let timeout : Int := ((c1.buf.getD 6 0 % 256 : Nat) : Int) * Second
      if timeout ≤ 0 then
        some { state := none, err := some Error.ErrTCPInvalidTimeout,
               calls := [Call.Done, Call.WriteFull [env.TCPRespondBadRequest]], c := c1 }
      else
        let timeout1 := if timeout > c1.dialTimeout then c1.dialTimeout else timeout
        let calls := [Call.Done, Call.NewDialer host port timeout1,
          Call.NewRelay c1.noLocalAccess c1.dialTimeout c1.connectionTimeout,
          Call.RelayBootup]
        let c2 := { c1 with relay := true }
        match env.bootErr with
        | some code =>
          some { state := none, err := some (Error.collaborator code), calls := calls,
                 c := c2 }
        | none => some { state := some State.tick, err := none, calls := calls, c := c2 }

/-! ## Example environments -/

/-- A decoder over a list of bytes that hands out at most `chunk` bytes per read
and fails only at the end of the stream; its `ReadFull` fails on a stream that
is too short. -/
def chunkCodec (chunk : Nat) : Codec (List Nat) where
  Read s n :=
    { data := s.take (min n chunk)
      err := if s.isEmpty && decide (0 < n) then some (Error.collaborator 0) else none
      next := s.drop (min n chunk) }
  ReadFull s n :=
    if n ≤ s.length then { data := s.take n, err := none, next := s.drop n }
    else { data := s, err := some (Error.collaborator 0), next := [] }
  SetTimeout s _ := s

/-- A stream of bytes with a schedule of faults: the head of `faults` tells
whether the next read fails. -/
structure Wire where
  bytes : List Nat
  faults : List Bool
  deriving DecidableEq, Repr

/-- A decoder over `Wire` whose reads fail, storing nothing, where the schedule
says so. -/
def faultyCodec : Codec Wire where
  Read s n :=
    match s.faults with
    | true :: rest => { data := [], err := some (Error.collaborator 1),
                        next := { s with faults := rest } }
    | _ => { data := s.bytes.take n, err := none,
             next := { bytes := s.bytes.drop n, faults := s.faults.tail } }
  ReadFull s n :=
    if n ≤ s.bytes.length then
      { data := s.bytes.take n, err := none, next := { s with bytes := s.bytes.drop n } }
    else { data := s.bytes, err := some (Error.collaborator 0),
           next := { s with bytes := [] } }
  SetTimeout s _ := s

/-- A registry that knows every channel ID below `size`. -/
def plainChannels (size : Nat) : Channels Nat where
  Get id := if id < size then Except.ok id else Except.error (Error.collaborator 2)
  Size := size

/-- The environment of a `Read` that finds its frame in the inbox. -/
def frameEnv : ReadEnv := { tickerErr := none, pick := ReadSelect.frame }

/-- A channel that owns a frame with `len` bytes of its segment left. -/
def ownerOf (id len : Nat) : channel :=
  { id := id
    timeout := 0
    timeoutTicker := false
    connReader := none
    currentReader := { Reader := true, Length := len, Complete := true } }

/-- A multiplexer of four slots over the stream `bytes`, with the channels of
`ids` created by `For`. -/
def muxWith {σ : Type} (conn : σ) (ids : List Nat) : channelize σ :=
  ids.foldl (fun m id => match m.For id with
    | some (_, m1) => m1
    | none => m) (Channelize 4 conn false)

/-- The channel `For(id)` creates on a multiplexer without timeout and ticker. -/
def idleChannel (id : Nat) : channel :=
  { id := id
    timeout := 0
    timeoutTicker := false
    connReader := none
    currentReader := { Reader := false, Length := 0, Complete := false } }

/-- A request machine with a 16-byte buffer and a dial timeout of ten seconds. -/
def tcpOf10s : tcp :=
  { buf := List.replicate 16 0
    dialTimeout := 10 * Second
    connectionTimeout := 60 * Second
    noLocalAccess := true
    relay := false }

/-- Collaborators that deliver the request `req` and boot the relay without
error; the bad-request byte is taken to be 2. -/
def envOf (req : List Nat) : BootupEnv :=
  { request := req, rErr := none, bootErr := none, TCPRespondBadRequest := 2 }

/-- A channel with a routed frame of `len` bytes waiting in its inbox. -/
def inboxChannel (id len : Nat) : channel :=
  { idleChannel id with connReader := some (channelReader.mk true len true) }

/-- The multiplexer over the stream `[1, 0, 2, 7, 8, 1, 0, 1, 9]` after `For(1)`,
a `Dispatch` that routes the first frame to channel 1, a `Read` of its two bytes
and `Done`. -/
def servedMux : channelize (List Nat) :=
  { conn := [1, 0, 1, 9]
    connClosed := false
    timeout := 0
    timeoutTicker := false
    buf := [1, 0, 2]
    channels := [none, some { idleChannel 1 with
      currentReader := { Reader := false, Length := 0, Complete := true } }, none, none]
    dispatchCompleted := Gate.free
    downSignal := false
    downed := false
    segPending := 0 }

/-- A multiplexer whose gate is held, over the stream `bytes`. -/
def heldMux (bytes : List Nat) : channelize (List Nat) :=
  { muxWith bytes [1] with dispatchCompleted := Gate.held }

/-- The fields of the multiplexer that no call on a channel, `For` or `Dispatch`
writes: the shutdown flag and signal, the connection-closed signal, and the
default timeout with its ticker. -/
def Keeps {σ : Type} (m m1 : channelize σ) : Prop :=
  m1.downed = m.downed ∧ m1.downSignal = m.downSignal ∧ m1.connClosed = m.connClosed ∧
  m1.timeout = m.timeout ∧ m1.timeoutTicker = m.timeoutTicker

/-- The timeout `channel.Read` requests its deadline with while it waits for a
frame: `c.timeout` when it is positive and the channel has a ticker, none
otherwise. -/
def channel.deadline (c : channel) : Option Int :=
  if (decide (c.timeout > 0) && c.timeoutTicker) = true then some c.timeout else none

/-- The result of a `Read` that delivers nothing and fails with `e`, channel and
multiplexer untouched. -/
def waitFailed {σ : Type} (e : Error) (c : channel) (m : channelize σ) : ReadOut σ :=
  { n := 0, err := some e, data := [], armed := c.deadline, c := c, m := m }

/-- A multiplexer over `bytes` with the channel 1 created after `Timeout(t)`, its
ticker present. -/
def timedMux (bytes : List Nat) (t : Int) : channelize (List Nat) :=
  match ((Channelize 4 bytes true).Timeout (chunkCodec 4) t).For 1 with
  | some (_, m1) => m1
  | none => Channelize 4 bytes true

/-- A channel without a frame that waits with a timeout of five seconds. -/
def waitingChannel : channel :=
  { idleChannel 1 with timeout := 5 * Second, timeoutTicker := true }

/-- The channel after `Done` dropped its frame: `currentReader.Reader = nil`. -/
def channel.dropped (c : channel) : channel :=
  { c with currentReader := { c.currentReader with Reader := false } }

/-- The multiplexer after the token was received from a held gate. -/
def channelize.released {σ : Type} (m : channelize σ) : channelize σ :=
  { m with dispatchCompleted := Gate.free }

/-- A multiplexer over a faulty wire of five bytes whose gate is held. -/
def heldWire (faults : List Bool) : channelize Wire :=
  { muxWith (Wire.mk [7, 8, 9, 10, 11] faults) [1] with dispatchCompleted := Gate.held }

/-- The outcome of `Dispatch` on the stream `[3, 0, 2, 7, 8]` when slot 3 is nil. -/
def refusedOut : DispatchOut (List Nat) Nat :=
  { id := 0
    machine := none
    err := some Error.ErrChannelDispatchChannelUnavailable
    m := { muxWith [7, 8] [1] with buf := [3, 0, 2], segPending := 2 } }

/-- A decoder with a journal: it behaves as `cd` and appends to its state, for
every `Read`, the number of bytes asked for and the number of bytes stored. -/
def Codec.logged {σ : Type} (cd : Codec σ) : Codec (σ × List (Nat × Nat)) where
  Read s n :=
    { data := (cd.Read s.1 n).data
      err := (cd.Read s.1 n).err
      next := ((cd.Read s.1 n).next, s.2 ++ [(n, (cd.Read s.1 n).data.length)]) }
  ReadFull s n :=
    { data := (cd.ReadFull s.1 n).data
      err := (cd.ReadFull s.1 n).err
      next := ((cd.ReadFull s.1 n).next, s.2) }
  SetTimeout s t := (cd.SetTimeout s.1 t, s.2)

/-- A decoder over an endless stream of zero bytes, the state counting the bytes
handed out, at most `chunk` per read; it never fails. -/
def endlessCodec (chunk : Nat) : Codec Nat where
  Read s n := { data := List.replicate (min n chunk) 0, err := none, next := s + min n chunk }
  ReadFull s n := { data := List.replicate n 0, err := none, next := s + n }
  SetTimeout s _ := s

/-- A decoder that never fails and stores, when asked for one byte or more, at
least one byte and at most what was asked. -/
def Codec.Reliable {σ : Type} (cd : Codec σ) : Prop :=
  ∀ s n, 1 ≤ n → (cd.Read s n).err = none ∧ 1 ≤ (cd.Read s n).data.length ∧
    (cd.Read s n).data.length ≤ n

/-! ## The AES-GCM codec -/

/-- The constant `nonceSize`. -/
def nonceSize : Nat := 12

/-- The constant `maxDataBlockSize`. -/
def maxDataBlockSize : Nat := 4096

/-- The `cipher.AEAD` of the codec, taken abstractly: `Seal nonce x` and
`Open nonce y` with no additional data, and `Overhead`. -/
structure AEAD where
  Overhead : Nat
  Seal : List Nat → List Nat → List Nat
  Open : List Nat → List Nat → Except Error (List Nat)

/-- An AEAD that opens what it sealed and whose ciphertext is `Overhead` bytes
longer than the plaintext. -/
def AEAD.Sound (g : AEAD) : Prop :=
  ∀ nonce x, g.Open nonce (g.Seal nonce x) = Except.ok x ∧
    (g.Seal nonce x).length = x.length + g.Overhead

/-- The read side of the `io.ReadWriter` under the codec, with the stream state
`ρ`: `ReadFull s n` is `io.ReadFull(a.rw, buf[:n])`. -/
structure Source (ρ : Type) where
  ReadFull : ρ → Nat → ReadResult ρ

/-- The struct `aesgcm`, without its collaborators (`rw`, the AEADs, the marker
and its lock): `decryptCipherTextBuf` is the length of that scratch buffer,
`decryptReader` the bytes the `bytes.Reader` has not handed out yet. -/
structure aesgcm where
  decrypterInited : Bool
  decryptCipherTextBuf : Nat
  decryptReader : List Nat
  decryptNonceBuf : List Nat
  encrypterInited : Bool
  encrypterNonceBuf : List Nat
  deriving DecidableEq, Repr

/-- The codec the function `AESGCM` returns. -/
def AESGCM : aesgcm :=
  { decrypterInited := false
    decryptCipherTextBuf := 0
    decryptReader := []
    decryptNonceBuf := List.replicate nonceSize 0
    encrypterInited := false
    encrypterNonceBuf := List.replicate nonceSize 0 }

/-- What `aesgcm.Read` returns (`n`, `err`), the bytes it stored in `b`, and the
codec and the stream it leaves. -/
structure AesReadOut (ρ : Type) where
  n : Nat
  err : Option Error
  data : List Nat
  a : aesgcm
  s : ρ

/-- The call `a.decryptReader.Read(b)` of `bytes.Reader`: end of file on an
exhausted reader, else as many of the unread bytes as `b` holds. -/
def aesgcm.readerRead {ρ : Type} (a : aesgcm) (s : ρ) (bLen : Nat) : AesReadOut ρ :=
  if a.decryptReader.length = 0 then
    { n := 0, err := some Error.EOF, data := [], a := a, s := s }
  else
    { n := (a.decryptReader.take bLen).length
      err := none
      data := a.decryptReader.take bLen
      a := { a with decryptReader := a.decryptReader.drop bLen }
      s := s }

/-- A return of `aesgcm.Read` with 0 bytes and the error `e`. -/
def aesgcm.failed {ρ : Type} (e : Error) (a : aesgcm) (s : ρ) : AesReadOut ρ :=
  { n := 0, err := some e, data := [], a := a, s := s }

/-- The part of `aesgcm.Read` from `sizeCipherTextReadLen` on: it reads and opens
the size header, refuses a size above `maxDataBlockSize`, reads and opens the
block and hands out its first bytes. -/
def aesgcm.readBlock {ρ : Type} (g : AEAD) (src : Source ρ) (a : aesgcm) (s : ρ)
    (bLen : Nat) : AesReadOut ρ :=
  let sizeCipherTextReadLen := g.Overhead + 2
  let a1 :=
    if a.decryptCipherTextBuf < sizeCipherTextReadLen then
      { a with decryptCipherTextBuf := sizeCipherTextReadLen }
    else a
  let r := src.ReadFull s sizeCipherTextReadLen
  match r.err with
  | some rErr => aesgcm.failed rErr a1 r.next
  | none =>
    match g.Open a1.decryptNonceBuf r.data with
    | Except.error sizeDataOpenErr => aesgcm.failed sizeDataOpenErr a1 r.next
    | Except.ok sizeData =>
      if sizeData.length ≠ 2 then aesgcm.failed Error.ErrInvalidSizeDataLength a1 r.next
      else
        let size0 : Nat := 0
        let size1 := size0 ||| (sizeData.getD 0 0 % 256)
        let size2 := (size1 <<< 8) % 65536
        let size := size2 ||| (sizeData.getD 1 0 % 256)
        if size > maxDataBlockSize then aesgcm.failed Error.ErrDataBlockTooLarge a1 r.next
        else
          let actualCipherTextReadLen := g.Overhead + size
          let a2 :=
            if a1.decryptCipherTextBuf < actualCipherTextReadLen then
              { a1 with decryptCipherTextBuf := actualCipherTextReadLen }
            else a1
          let r2 := src.ReadFull r.next actualCipherTextReadLen
          match r2.err with
          | some rErr => aesgcm.failed rErr a2 r2.next
          | none =>
            match g.Open a2.decryptNonceBuf r2.data with
            | Except.error dataOpenErr => aesgcm.failed dataOpenErr a2 r2.next
            | Except.ok dataData =>
              aesgcm.readerRead { a2 with decryptReader := dataData } r2.next bLen

/-- The method `aesgcm.Read` on a buffer of `bLen` bytes; `mark` is
`decryptMarker.Mark` on the nonce. -/
def aesgcm.Read {ρ : Type} (g : AEAD) (src : Source ρ) (mark : List Nat → Option Error)
    (a : aesgcm) (s : ρ) (bLen : Nat) : AesReadOut ρ :=
  if a.decryptReader.length > 0 then aesgcm.readerRead a s bLen
  else if !a.decrypterInited then
    let r := src.ReadFull s nonceSize
    let a1 := { a with decryptNonceBuf := fill a.decryptNonceBuf r.data }
    match r.err with
    | some rErr => aesgcm.failed rErr a1 r.next
    | none =>
      match mark a1.decryptNonceBuf with
      | some markErr => aesgcm.failed markErr a1 r.next
      | none => aesgcm.readBlock g src { a1 with decrypterInited := true } r.next bLen
  else aesgcm.readBlock g src a s bLen

/-- The two bytes `aesgcm.Write` puts in `sizeBuf` for a block of `writeLen`
bytes, in `uint16` arithmetic. -/
def sizeBuf (writeLen : Nat) : List Nat :=
  [(writeLen >>> 8) % 256, (((writeLen <<< 8) % 65536) >>> 8) % 256]

/-- What `aesgcm.Write` returns, and `sent`: the argument of every `WriteFull` it
made, in order. -/
structure AesWriteOut where
  n : Nat
  err : Option Error
  sent : List (List Nat)
  a : aesgcm
  deriving DecidableEq, Repr

/-- The loop of `aesgcm.Write` from `start`, with a budget of iterations; `wErr i`
is the error of the `WriteFull` call number `i` of this `Write`. -/
def aesgcm.writeLoop (g : AEAD) (wErr : Nat → Option Error) (a : aesgcm) (b : List Nat) :
    Nat → Nat → List (List Nat) → Option AesWriteOut
  | 0, _, _ => none
  | fuel + 1, start, sent =>
    if start < b.length then
      let end0 := start + maxDataBlockSize
      let end1 := if end0 > b.length then b.length else end0
      let writeLen := (end1 - start) % 65536
      let sealedSize := g.Seal a.encrypterNonceBuf (sizeBuf writeLen)
      match wErr sent.length with
      | some rErr => some { n := start, err := some rErr, sent := sent ++ [sealedSize], a := a }
      | none =>
        let sealedData := g.Seal a.encrypterNonceBuf ((b.drop start).take (end1 - start))
        match wErr (sent.length + 1) with
        | some rErr =>
          some { n := start, err := some rErr, sent := sent ++ [sealedSize, sealedData],
                 a := a }
        | none => aesgcm.writeLoop g wErr a b fuel end1 (sent ++ [sealedSize, sealedData])
    else some { n := start, err := none, sent := sent, a := a }

/-- The method `aesgcm.Write`; `rand` is what `rand.Read` stores in the nonce
buffer and its error.  The loop makes at most one pass per payload byte. -/
def aesgcm.Write (g : AEAD) (rand : List Nat × Option Error) (wErr : Nat → Option Error)
    (a : aesgcm) (b : List Nat) : Option AesWriteOut :=
  if !a.encrypterInited then
    let a1 := { a with encrypterNonceBuf := fill a.encrypterNonceBuf rand.1 }
    match rand.2 with
    | some rErr => some { n := 0, err := some rErr, sent := [], a := a1 }
    | none =>
      match wErr 0 with
      | some wErr0 =>
        some { n := 0, err := some wErr0, sent := [a1.encrypterNonceBuf], a := a1 }
      | none =>
        aesgcm.writeLoop g wErr { a1 with encrypterInited := true } b (b.length + 1) 0
          [a1.encrypterNonceBuf]
  else aesgcm.writeLoop g wErr a b (b.length + 1) 0 []

/-- Successive calls of `Write` with the payloads `bs`, every `WriteFull`
succeeding: what was written in order, and the codec afterwards. -/
def aesgcm.writeAll (g : AEAD) (rand : List Nat × Option Error) :
    List (List Nat) → aesgcm → Option (List (List Nat) × aesgcm)
  | [], a => some ([], a)
  | b :: bs, a =>
    match aesgcm.Write g rand (fun _ => none) a b with
    | none => none
    | some out =>
      match aesgcm.writeAll g rand bs out.a with
      | none => none
      | some (sent, a1) => some (out.sent ++ sent, a1)

/-- Successive calls of `Read` on buffers of the lengths `sizes`: the bytes and
the error of each call, in order. -/
def aesgcm.readAll {ρ : Type} (g : AEAD) (src : Source ρ) (mark : List Nat → Option Error) :
    List Nat → aesgcm → ρ → List (List Nat × Option Error)
  | [], _, _ => []
  | n :: ns, a, s =>
    ((aesgcm.Read g src mark a s n).data, (aesgcm.Read g src mark a s n).err) ::
      aesgcm.readAll g src mark ns (aesgcm.Read g src mark a s n).a
        (aesgcm.Read g src mark a s n).s

/-- A byte stream held in a list: `ReadFull` hands out the next `n` bytes, and
fails at the end of the stream when fewer are left. -/
def listSource : Source (List Nat) where
  ReadFull s n :=
    if n ≤ s.length then { data := s.take n, err := none, next := s.drop n }
    else { data := s, err := some Error.EOF, next := [] }

/-- Reads that hand out the bytes `T` in order: each read returns the next bytes
of what is left, and while something is left it returns at least one byte and
no error. -/
def Delivers : List (List Nat × Option Error) → List Nat → Prop
  | [], _ => True
  | o :: os, T =>
    o.1 = T.take o.1.length ∧ (T ≠ [] → o.2 = none ∧ 1 ≤ o.1.length) ∧
      Delivers os (T.drop o.1.length)

/-- The blocks of at most `maxDataBlockSize` bytes a payload is cut into, with a
budget of blocks. -/
def chunks : Nat → List Nat → List (List Nat)
  | 0, _ => []
  | k + 1, b =>
    if b.length = 0 then []
    else b.take maxDataBlockSize :: chunks k (b.drop maxDataBlockSize)

/-- The bytes on the wire for the blocks `chs` under the nonce `N`: for each block
its sealed size and then the sealed block. -/
def wireOf (g : AEAD) (N : List Nat) (chs : List (List Nat)) : List Nat :=
  (chs.map (fun ch => g.Seal N (sizeBuf ch.length) ++ g.Seal N ch)).flatten

/-- An AEAD for examples: sealing appends one byte, opening removes it. -/
def tagAEAD : AEAD where
  Overhead := 1
  Seal _ x := x ++ [0]
  Open _ y := Except.ok y.dropLast

/-! ## The worker pool -/

/-- The errors of the worker pool's guards. -/
inductive PoolError where
  | alreadyServing
  | alreadyClosed
  deriving DecidableEq, Repr

/-- Modelled from the spec: the worker pool of `common/worker`, whose source is
not among the embedded files (only its test `TestJobServeClose` is).  Section
4.2 gives the pool a single active session; `serving` tells whether one is
active. -/
structure Pool where
  serving : Bool
  deriving DecidableEq, Repr

/-- Modelled from the spec: the handle `Serve` returns (`common/worker` is not
among the embedded files); `closed` tells whether `Close` was called on it. -/
structure Handle where
  closed : Bool
  deriving DecidableEq, Repr

/-- Modelled from the spec: `Serve() -> Handle, error` of `common/worker`, which
is not among the embedded files: it "begins accepting jobs; fails if already
serving (single active session; guard, not capacity reset)". -/
def Pool.Serve (p : Pool) : Except PoolError Handle × Pool :=
  if p.serving then (Except.error PoolError.alreadyServing, p)
  else (Except.ok { closed := false }, { serving := true })

/-- Modelled from the spec: `Handle.Close() -> error` of `common/worker`, which is
not among the embedded files: it "stops intake, drains in-flight jobs, releases
workers; a second `Close` errors". -/
def Handle.Close (h : Handle) (p : Pool) : Option PoolError × Handle × Pool :=
  if h.closed then (some PoolError.alreadyClosed, h, p)
  else (none, { closed := true }, { serving := false })

/-- The body of the loop of `TestJobServeClose`: `none` when one of its four checks
reports a failure, the pool after the pass otherwise. -/
def serveClosePass (c : Pool) : Option Pool :=
  match c.Serve with
  | (Except.error _, _) => none
  | (Except.ok serving, c1) =>
    match c1.Serve with
    | (Except.ok _, _) => none
    | (Except.error _, c2) =>
      match serving.Close c2 with
      | (some _, _, _) => none
      | (none, serving1, c3) =>
        match serving1.Close c3 with
        | (none, _, _) => none
        | (some _, _, c4) => some c4

/-- The test `TestJobServeClose` with `n` passes of its loop (the test makes
100): `none` when a check fails. -/
def TestJobServeClose : Nat → Pool → Option Pool
  | 0, c => some c
  | n + 1, c =>
    match serveClosePass c with
    | none => none
    | some c1 => TestJobServeClose n c1

/-- The blocks that successive writes of the payloads `bs` are cut into. -/
def blocksOf (bs : List (List Nat)) : List (List Nat) :=
  (bs.map (fun b => chunks b.length b)).flatten

/-- The codec after it read and marked the nonce `N`. -/
def aesgcm.withNonce (a : aesgcm) (N : List Nat) : aesgcm :=
  { a with decryptNonceBuf := N, decrypterInited := true }

/-- A nonce for examples. -/
def nonce12 : List Nat := [1, 2, 3, 4, 5, 6, 7, 8, 9, 10, 11, 12]

/-- The codec and the stream with which `aesgcm.Read` arrives at the size header,
the part `readBlock`: none when it returns before (bytes of the last block are
left to hand out, the nonce cannot be read, or the marker rejects it). -/
def aesgcm.atHeader {ρ : Type} (src : Source ρ) (mark : List Nat → Option Error)
    (a : aesgcm) (s : ρ) : Option (aesgcm × ρ) :=
  if a.decryptReader.length > 0 then none
  else if !a.decrypterInited then
    match (src.ReadFull s nonceSize).err with
    | some _ => none
    | none =>
      match mark (fill a.decryptNonceBuf (src.ReadFull s nonceSize).data) with
      | some _ => none
      | none =>
        some ((a.withNonce (fill a.decryptNonceBuf (src.ReadFull s nonceSize).data)),
          (src.ReadFull s nonceSize).next)
  else some (a, s)

/-- A connection with a journal: it behaves as `src` and appends to its state,
for every `ReadFull`, the number of bytes asked for. -/
def Source.logged {ρ : Type} (src : Source ρ) : Source (ρ × List Nat) where
  ReadFull s n :=
    { data := (src.ReadFull s.1 n).data
      err := (src.ReadFull s.1 n).err
      next := ((src.ReadFull s.1 n).next, s.2 ++ [n]) }

/-- What `aesgcm.Write` hands to `WriteFull` for the blocks `chs` under the nonce
`N`, in order: for every block the sealed `sizeBuf`, then the sealed bytes. -/
def sealedBlocks (g : AEAD) (N : List Nat) (chs : List (List Nat)) : List (List Nat) :=
  (chs.map (fun ch => [g.Seal N (sizeBuf ch.length), g.Seal N ch])).flatten

/-! ## Arithmetic of the frame header -/

theorem headBuf_eq (id n : Nat) (hn : n ≤ 65535) :
    headBuf id n = [id % 256, n / 256, n % 256] := by
  unfold headBuf
  have h1 : (n >>> 8) % 256 = n / 256 := by
    rw [Nat.shiftRight_eq_div_pow]
    apply Nat.mod_eq_of_lt
    omega
  have h2 : ((n <<< 8) >>> 8) % 256 = n % 256 := by
    rw [Nat.shiftRight_eq_div_pow, Nat.shiftLeft_eq]
    norm_num
  rw [h1, h2]

theorem or_shift_eq (hi lo : Nat) (hhi : hi < 256) (hlo : lo < 256) :
    (((0 ||| hi) <<< 8) % 65536) ||| lo = 256 * hi + lo := by
  rw [Nat.zero_or, Nat.shiftLeft_eq]
  have h3 : hi * 2 ^ 8 % 65536 = 2 ^ 8 * hi := by
    rw [Nat.mod_eq_of_lt (by omega)]
    ring
  rw [h3]
  have h4 := Nat.mul_add_lt_is_or (i := 8) (b := lo) (by omega) hi
  rw [← h4]

theorem segDataLen_lt (buf : List Nat) : segDataLen buf < 65536 := by
  unfold segDataLen
  simp only []
  rw [or_shift_eq _ _ (Nat.mod_lt _ (by norm_num)) (Nat.mod_lt _ (by norm_num))]
  have h1 : buf.getD 1 0 % 256 < 256 := Nat.mod_lt _ (by norm_num)
  have h2 : buf.getD 2 0 % 256 < 256 := Nat.mod_lt _ (by norm_num)
  omega

theorem segDataLen_headBuf (id n : Nat) (hn : n ≤ 65535) :
    segDataLen (headBuf id n) = n := by
  rw [headBuf_eq id n hn]
  unfold segDataLen
  simp only [List.getD_cons_succ, List.getD_cons_zero]
  rw [or_shift_eq _ _ (Nat.mod_lt _ (by norm_num)) (Nat.mod_lt _ (by norm_num))]
  omega

theorem fill_full (buf data : List Nat) (h : data.length = buf.length) :
    fill buf data = data := by
  unfold fill
  rw [h, List.drop_length, List.append_nil, ← h, List.take_length]

/-! ## Reading a segment -/

theorem Read_of_depleted {σ : Type} (cd : Codec σ) (env : ReadEnv) (c : channel)
    (m : channelize σ) (bLen : Nat)
    (hown : c.currentReader.Reader = true) (hzero : c.currentReader.Length = 0) :
    channel.Read cd env c m bLen =
      some { n := 0, err := some Error.ErrChannelVirtualConnectionSegmentDepleted,
             data := [], armed := none, c := c, m := m } := by
  unfold channel.Read
  simp [hown, channel.Depleted, hzero]

/-- C6: on a channel that owns a frame whose remaining count is 0, `Read` with any
buffer returns 0 bytes and `ErrChannelVirtualConnectionSegmentDepleted`, and
leaves the channel and the multiplexer, its stream included, exactly as they
were; the same therefore holds of every further `Read` until `Done`. -/
theorem Read_depleted_error {σ : Type} (cd : Codec σ) (env : ReadEnv) (c : channel)
    (m : channelize σ) (bLen : Nat)
    (hown : c.currentReader.Reader = true) (hzero : c.currentReader.Length = 0) :
    channel.Read cd env c m bLen =
      some { n := 0, err := some Error.ErrChannelVirtualConnectionSegmentDepleted,
             data := [], armed := none, c := c, m := m } :=
  Read_of_depleted cd env c m bLen hown hzero

theorem Read_depleted_error_witness :
    channel.Read (chunkCodec 4) frameEnv (ownerOf 1 0) (muxWith [7, 8, 9] [1]) 5 =
      some { n := 0, err := some Error.ErrChannelVirtualConnectionSegmentDepleted,
             data := [], armed := none, c := ownerOf 1 0, m := muxWith [7, 8, 9] [1] } :=
  Read_depleted_error (chunkCodec 4) frameEnv (ownerOf 1 0) (muxWith [7, 8, 9] [1]) 5
    rfl rfl

/-- C7: on a channel that owns a frame with `r > 0` bytes left, `Read` on a
buffer of `bLen` bytes asks the decoder for exactly `min(bLen, r, 65535)` bytes;
when the decoder stores `k` bytes, `k` at most what was asked, `Read` returns `k`
and the remaining count is `r - k`, with `k ≤ r`, so nothing wraps around. -/
theorem Read_single_step {σ : Type} (cd : Codec σ) (env : ReadEnv) (c : channel)
    (m : channelize σ) (bLen r k : Nat)
    (hown : c.currentReader.Reader = true) (hr : c.currentReader.Length = r)
    (hpos : 0 < r) (h16 : r ≤ 65535)
    (hk : (cd.Read m.conn (min bLen (min r 65535))).data.length = k)
    (hle : k ≤ min bLen (min r 65535)) :
    ∃ out, channel.Read cd env c m bLen = some out ∧
      out.n = k ∧
      out.err = (cd.Read m.conn (min bLen (min r 65535))).err ∧
      out.data = (cd.Read m.conn (min bLen (min r 65535))).data ∧
      out.m.conn = (cd.Read m.conn (min bLen (min r 65535))).next ∧
      out.c.currentReader.Length = r - k ∧ k ≤ r := by
  subst hr
  have hask : (if c.currentReader.Length >
        (if bLen > MaxUint16 then MaxUint16 else bLen) % 65536
      then (if bLen > MaxUint16 then MaxUint16 else bLen) % 65536
      else c.currentReader.Length) = min bLen (min c.currentReader.Length 65535) := by
    unfold MaxUint16
    split_ifs <;> omega
  have hdep : c.Depleted = false := by
    unfold channel.Depleted
    simp
    omega
  refine ⟨channel.readSegment cd c m bLen none, ?_, ?_, ?_, ?_, ?_, ?_, ?_⟩
  · unfold channel.Read
    simp [hown, hdep]
  · simp only [channel.readSegment, hask, hk]
  · simp only [channel.readSegment, hask]
  · simp only [channel.readSegment, hask]
  · simp only [channel.readSegment, hask]
  · simp only [channel.readSegment, hask, hk]
    omega
  · omega

theorem Read_single_step_witness :
    ∃ out, channel.Read (chunkCodec 2) frameEnv (ownerOf 1 5) (muxWith [7, 8, 9] [1]) 3
        = some out ∧
      out.n = 2 ∧
      out.err = ((chunkCodec 2).Read (muxWith [7, 8, 9] [1]).conn (min 3 (min 5 65535))).err ∧
      out.data = ((chunkCodec 2).Read (muxWith [7, 8, 9] [1]).conn (min 3 (min 5 65535))).data ∧
      out.m.conn = ((chunkCodec 2).Read (muxWith [7, 8, 9] [1]).conn (min 3 (min 5 65535))).next ∧
      out.c.currentReader.Length = 5 - 2 ∧ 2 ≤ 5 :=
  Read_single_step (chunkCodec 2) frameEnv (ownerOf 1 5) (muxWith [7, 8, 9] [1]) 3 5 2
    rfl rfl (by decide) (by decide) (by decide) (by decide)

theorem readSegment_stream {σ : Type} (cd : Codec σ) (pending : σ → List Nat)
    (hcd : cd.Streams pending) (c : channel) (m : channelize σ) (bLen : Nat)
    (armed : Option Int) (T rest : List Nat)
    (hown : c.currentReader.Reader = true) (hlen : c.currentReader.Length = T.length)
    (h16 : T.length ≤ 65535) (hstream : pending m.conn = T ++ rest) (hb : 1 ≤ bLen) :
    ∃ k, k ≤ T.length ∧ (T ≠ [] → 1 ≤ k) ∧
      (channel.readSegment cd c m bLen armed).data = T.take k ∧
      (channel.readSegment cd c m bLen armed).c.currentReader.Reader = true ∧
      (channel.readSegment cd c m bLen armed).c.currentReader.Length = (T.drop k).length ∧
      pending (channel.readSegment cd c m bLen armed).m.conn = T.drop k ++ rest := by
  have hask : (if c.currentReader.Length >
        (if bLen > MaxUint16 then MaxUint16 else bLen) % 65536
      then (if bLen > MaxUint16 then MaxUint16 else bLen) % 65536
      else c.currentReader.Length) = min bLen (min T.length 65535) := by
    rw [hlen]
    unfold MaxUint16
    split_ifs <;> omega
  obtain ⟨hle, happ, hprog⟩ := hcd m.conn (min bLen (min T.length 65535))
  rw [hstream] at happ
  have hk : (cd.Read m.conn (min bLen (min T.length 65535))).data.length ≤ T.length := by
    omega
  have hdata : (cd.Read m.conn (min bLen (min T.length 65535))).data =
      T.take (cd.Read m.conn (min bLen (min T.length 65535))).data.length := by
    have h1 := congrArg
      (List.take (cd.Read m.conn (min bLen (min T.length 65535))).data.length) happ
    rw [List.take_left, List.take_append_of_le_length hk] at h1
    exact h1
  have hrest : pending (cd.Read m.conn (min bLen (min T.length 65535))).next =
      T.drop (cd.Read m.conn (min bLen (min T.length 65535))).data.length ++ rest := by
    have h1 := congrArg
      (List.drop (cd.Read m.conn (min bLen (min T.length 65535))).data.length) happ
    rw [List.drop_left, List.drop_append_of_le_length hk] at h1
    exact h1
  refine ⟨(cd.Read m.conn (min bLen (min T.length 65535))).data.length, hk, ?_, ?_, ?_,
    ?_, ?_⟩
  · intro hT
    apply hprog
    · have : 1 ≤ T.length := List.length_pos.mpr hT
      omega
    · rw [hstream]
      simp [hT]
  · simp only [channel.readSegment, hask]
    exact hdata
  · simp only [channel.readSegment]
    exact hown
  · simp only [channel.readSegment, hask, List.length_drop]
    rw [hlen]
    omega
  · simp only [channel.readSegment, hask]
    exact hrest

theorem readAll_owned {σ : Type} (cd : Codec σ) (pending : σ → List Nat)
    (hcd : cd.Streams pending) (env : ReadEnv) :
    ∀ (ns : List Nat) (c : channel) (m : channelize σ) (T rest : List Nat),
      c.currentReader.Reader = true → c.currentReader.Length = T.length →
      T.length ≤ 65535 → pending m.conn = T ++ rest → (∀ k ∈ ns, 1 ≤ k) →
      ∃ ps c1 m1 T1, channel.readAll cd env ns c m = some (ps, c1, m1) ∧
        ps.flatten ++ T1 = T ∧ c1.currentReader.Length = T1.length ∧
        pending m1.conn = T1 ++ rest ∧ (T.length ≤ ns.length → T1 = []) := by
  intro ns
  induction ns with
  | nil =>
    intro c m T rest _ hlen _ hstream _
    refine ⟨[], c, m, T, rfl, by simp, hlen, hstream, ?_⟩
    intro h
    exact List.length_eq_zero.mp (by simpa using h)
  | cons n ns ih =>
    intro c m T rest hown hlen h16 hstream hpos
    have hn : 1 ≤ n := hpos n (List.mem_cons_self _ _)
    have hns : ∀ k ∈ ns, 1 ≤ k := fun k hk => hpos k (List.mem_cons_of_mem _ hk)
    by_cases hT : T = []
    · subst hT
      have hzero : c.currentReader.Length = 0 := by simpa using hlen
      obtain ⟨ps, c1, m1, T1, hrun, hcat, hl, hs, _⟩ :=
        ih c m [] rest hown hlen h16 hstream hns
      refine ⟨[] :: ps, c1, m1, T1, ?_, by simpa using hcat, hl, hs, ?_⟩
      · simp only [channel.readAll, Read_of_depleted cd env c m n hown hzero, hrun]
      · intro _
        have := congrArg List.length hcat
        simp at this
        exact this.2
    · obtain ⟨k, hk, hk1, hdata, hown1, hlen1, hs1⟩ :=
        readSegment_stream cd pending hcd c m n none T rest hown hlen h16 hstream hn
      have hdep : c.Depleted = false := by
        unfold channel.Depleted
        have : 1 ≤ T.length := List.length_pos.mpr hT
        simp
        omega
      have hread : channel.Read cd env c m n = some (channel.readSegment cd c m n none) := by
        unfold channel.Read
        simp [hown, hdep]
      obtain ⟨ps, c1, m1, T1, hrun, hcat, hl, hs, hdone⟩ :=
        ih (channel.readSegment cd c m n none).c (channel.readSegment cd c m n none).m
          (T.drop k) rest hown1 hlen1 (by rw [List.length_drop]; omega) hs1 hns
      refine ⟨(channel.readSegment cd c m n none).data :: ps, c1, m1, T1, ?_, ?_, hl, hs,
        ?_⟩
      · simp only [channel.readAll, hread, hrun]
      · rw [List.flatten_cons, hdata, List.append_assoc, hcat, List.take_append_drop]
      · intro h
        apply hdone
        have := hk1 hT
        rw [List.length_drop]
        simp only [List.length_cons] at h
        omega

/-- C3: a segment `S` of at most 65535 bytes sits in the inbox of a channel and is
next in the stream; the decoder hands out, per read, between one and the asked
number of the next stream bytes.  Then successive `Read` calls on non-empty
buffers of any sizes all return, their pieces in order are a prefix of `S`
(no byte beyond `S`), the remaining count is what is left of `S`, the stream
stands right after the pieces, and once the remaining count is 0, which
happens after at most `len(S)` reads, the pieces together are exactly `S`. -/
theorem Read_chunking_invariance {σ : Type} (cd : Codec σ) (pending : σ → List Nat)
    (hcd : cd.Streams pending) (env : ReadEnv) (c : channel) (m : channelize σ)
    (S rest : List Nat) (n : Nat) (ns : List Nat)
    (hpick : env.pick = ReadSelect.frame) (htick : env.tickerErr = none)
    (hidle : c.currentReader.Reader = false)
    (hinbox : c.connReader = some (channelReader.mk true S.length true))
    (h16 : S.length ≤ 65535) (hstream : pending m.conn = S ++ rest)
    (hn : 1 ≤ n) (hns : ∀ k ∈ ns, 1 ≤ k) :
    ∃ ps c1 m1, channel.readAll cd env (n :: ns) c m = some (ps, c1, m1) ∧
      ps.flatten = S.take ps.flatten.length ∧
      ps.flatten.length ≤ S.length ∧
      c1.currentReader.Length = S.length - ps.flatten.length ∧
      pending m1.conn = S.drop ps.flatten.length ++ rest ∧
      (c1.currentReader.Length = 0 → ps.flatten = S) ∧
      (S.length ≤ ns.length + 1 → c1.currentReader.Length = 0) := by
  have hread : channel.Read cd env c m n = some (channel.readSegment cd
      { c with connReader := none, currentReader := channelReader.mk true S.length true }
      m n (if (decide (c.timeout > 0) && c.timeoutTicker) = true then some c.timeout
        else none)) := by
    unfold channel.Read
    simp [hidle, htick, hpick, hinbox]
  obtain ⟨k, hk, hk1, hdata, hown1, hlen1, hs1⟩ :=
    readSegment_stream cd pending hcd
      { c with connReader := none, currentReader := channelReader.mk true S.length true }
      m n (if (decide (c.timeout > 0) && c.timeoutTicker) = true then some c.timeout
        else none) S rest rfl rfl h16 hstream hn
  obtain ⟨ps, c1, m1, T1, hrun, hcat, hl, hs, hdone⟩ :=
    readAll_owned cd pending hcd env ns _ _ (S.drop k) rest hown1 hlen1
      (by rw [List.length_drop]; omega) hs1 hns
  have hall : (S.take k ++ ps.flatten) ++ T1 = S := by
    rw [List.append_assoc, hcat, List.take_append_drop]
  have hlenS : (S.take k ++ ps.flatten).length + T1.length = S.length := by
    rw [← List.length_append, hall]
  have htake : S.take k ++ ps.flatten = S.take (S.take k ++ ps.flatten).length := by
    have h1 := congrArg (List.take (S.take k ++ ps.flatten).length) hall
    rw [List.take_left] at h1
    exact h1
  have hdrop : T1 = S.drop (S.take k ++ ps.flatten).length := by
    have h1 := congrArg (List.drop (S.take k ++ ps.flatten).length) hall
    rw [List.drop_left] at h1
    exact h1
  refine ⟨S.take k :: ps, c1, m1, ?_, ?_, ?_, ?_, ?_, ?_, ?_⟩
  · simp only [channel.readAll, hread, hrun, hdata]
  · rw [List.flatten_cons]
    exact htake
  · rw [List.flatten_cons]
    omega
  · rw [List.flatten_cons, hl]
    omega
  · rw [List.flatten_cons, hs, hdrop]
  · intro hz
    rw [List.flatten_cons]
    have hT1 : T1 = [] := List.length_eq_zero.mp (by omega)
    rw [hT1, List.append_nil] at hall
    exact hall
  · intro hshort
    have hT1 : T1 = [] := by
      apply hdone
      rw [List.length_drop]
      by_cases hS : S = []
      · subst hS
        simp
      · have := hk1 hS
        omega
    rw [hl, hT1]
    rfl

theorem chunkCodec_streams (chunk : Nat) (hchunk : 1 ≤ chunk) :
    (chunkCodec chunk).Streams id := by
  intro s n
  refine ⟨?_, ?_, ?_⟩
  · simp only [chunkCodec, List.length_take]
    omega
  · simp only [chunkCodec, id, List.take_append_drop]
  · intro hn hs
    simp only [chunkCodec, List.length_take, id] at *
    have : 1 ≤ s.length := List.length_pos.mpr hs
    omega

theorem Read_chunking_invariance_witness :
    ∃ ps c1 m1, channel.readAll (chunkCodec 2) frameEnv (2 :: [1, 5]) (inboxChannel 1 3)
        (muxWith [7, 8, 9, 1, 0, 1] [1]) = some (ps, c1, m1) ∧
      ps.flatten = [7, 8, 9].take ps.flatten.length ∧
      ps.flatten.length ≤ [7, 8, 9].length ∧
      c1.currentReader.Length = [7, 8, 9].length - ps.flatten.length ∧
      id m1.conn = [7, 8, 9].drop ps.flatten.length ++ [1, 0, 1] ∧
      (c1.currentReader.Length = 0 → ps.flatten = [7, 8, 9]) ∧
      ([7, 8, 9].length ≤ [1, 5].length + 1 → c1.currentReader.Length = 0) :=
  Read_chunking_invariance (chunkCodec 2) id (chunkCodec_streams 2 (by decide)) frameEnv
    (inboxChannel 1 3) (muxWith [7, 8, 9, 1, 0, 1] [1]) [7, 8, 9] [1, 0, 1] 2 [1, 5]
    rfl rfl rfl rfl (by decide) rfl (by decide) (by decide)

/-! ## Routing a frame -/

/-- C5: for a channel ID byte `k` and a segment length `n` in 0..65535, the header
`channel.Write` builds is `[k, n / 256, n % 256]`, so that `n` is its bytes 1 and
2 read big-endian; `Dispatch` decodes that header to channel ID `k` and segment
length `n`, and puts `n` in the inbox of channel `k` as the frame's length. -/
theorem header_round_trip {σ μ : Type} (cd : Codec σ) (channels : Channels μ)
    (m : channelize σ) (vc : channel) (machine : μ) (k n : Nat)
    (hk : k < 256) (hn : n ≤ 65535) (hbuf : m.buf.length = 3)
    (hfree : m.dispatchCompleted = Gate.free)
    (hdata : (cd.ReadFull m.conn 3).data = headBuf k n)
    (herr : (cd.ReadFull m.conn 3).err = none)
    (hget : channels.Get k = Except.ok machine) (hsize : k < channels.Size)
    (hslot : m.channels[k]? = some (some vc)) (hinbox : vc.connReader = none) :
    headBuf k n = [k, n / 256, n % 256] ∧
    n = 256 * (headBuf k n).getD 1 0 + (headBuf k n).getD 2 0 ∧
    segDataLen (headBuf k n) = n ∧
    ∃ out, m.Dispatch cd DispatchSelect.gate DeliverSelect.deliver channels = some out ∧
      out.id = k ∧ out.machine = some machine ∧ out.err = none ∧
      out.m.channels[k]? =
        some (some { vc with connReader := some (channelReader.mk true n true) }) := by
  have hhead : headBuf k n = [k, n / 256, n % 256] := by
    rw [headBuf_eq k n hn, Nat.mod_eq_of_lt hk]
  have hfill : fill m.buf (cd.ReadFull m.conn 3).data = headBuf k n := by
    rw [hdata]
    apply fill_full
    rw [hbuf]
    rfl
  have hid : (headBuf k n).getD 0 0 = k := by
    rw [hhead]
    rfl
  have hklt : k < m.channels.length := by
    rcases Nat.lt_or_ge k m.channels.length with h | h
    · exact h
    · rw [List.getElem?_eq_none h] at hslot
      cases hslot
  refine ⟨hhead, ?_, segDataLen_headBuf k n hn, ?_⟩
  · rw [hhead]
    simp only [List.getD_cons_succ, List.getD_cons_zero]
    omega
  · unfold channelize.Dispatch
    simp only [hfree, if_true, herr, hfill, hid, hget, Nat.mod_eq_of_lt hk]
    rw [if_neg (by omega)]
    simp only [hslot, hinbox, segDataLen_headBuf k n hn]
    refine ⟨_, rfl, rfl, rfl, rfl, ?_⟩
    simp [hklt]

theorem header_round_trip_witness :
    headBuf 1 2 = [1, 2 / 256, 2 % 256] ∧
    2 = 256 * (headBuf 1 2).getD 1 0 + (headBuf 1 2).getD 2 0 ∧
    segDataLen (headBuf 1 2) = 2 ∧
    ∃ out, (muxWith [1, 0, 2, 7, 8] [1]).Dispatch (chunkCodec 4) DispatchSelect.gate
        DeliverSelect.deliver (plainChannels 4) = some out ∧
      out.id = 1 ∧ out.machine = some 1 ∧ out.err = none ∧
      out.m.channels[1]? =
        some (some { idleChannel 1 with connReader := some (channelReader.mk true 2 true) }) :=
  header_round_trip (chunkCodec 4) (plainChannels 4) (muxWith [1, 0, 2, 7, 8] [1])
    (idleChannel 1) 1 1 2 (by decide) (by decide) rfl rfl rfl rfl rfl (by decide) rfl rfl

/-- C8: when the header that `Dispatch` read names a channel ID whose slot is nil,
`Dispatch` returns an error and no state machine and leaves every slot, hence
every inbox, as it was; when the registry lookup for that ID succeeds the error
is `ErrChannelDispatchChannelUnavailable`. -/
theorem Dispatch_nil_slot {σ μ : Type} (cd : Codec σ) (channels : Channels μ)
    (m : channelize σ) (s2 : DeliverSelect)
    (hfree : m.dispatchCompleted = Gate.free)
    (herr : (cd.ReadFull m.conn 3).err = none)
    (hslot : m.channels[(fill m.buf (cd.ReadFull m.conn 3).data).getD 0 0]? = some none) :
    ∃ out, m.Dispatch cd DispatchSelect.gate s2 channels = some out ∧
      out.err.isSome = true ∧ out.machine = none ∧ out.m.channels = m.channels ∧
      ∀ machine,
        channels.Get ((fill m.buf (cd.ReadFull m.conn 3).data).getD 0 0) = Except.ok machine →
        out.err = some Error.ErrChannelDispatchChannelUnavailable := by
  unfold channelize.Dispatch
  simp only [hfree, if_true, herr]
  cases hget : channels.Get ((fill m.buf (cd.ReadFull m.conn 3).data).getD 0 0) with
  | error e =>
    refine ⟨_, rfl, rfl, rfl, rfl, ?_⟩
    intro machine h
    cases h
  | ok machine =>
    simp only []
    by_cases hsz : (fill m.buf (cd.ReadFull m.conn 3).data).getD 0 0 % 256 ≥ channels.Size
    · rw [if_pos hsz]
      exact ⟨_, rfl, rfl, rfl, rfl, fun _ _ => rfl⟩
    · rw [if_neg hsz]
      simp only [hslot]
      exact ⟨_, rfl, rfl, rfl, rfl, fun _ _ => rfl⟩

theorem Dispatch_nil_slot_witness :
    ∃ out, (muxWith [3, 0, 2, 7, 8] [1]).Dispatch (chunkCodec 4) DispatchSelect.gate
        DeliverSelect.deliver (plainChannels 4) = some out ∧
      out.err.isSome = true ∧ out.machine = none ∧
      out.m.channels = (muxWith [3, 0, 2, 7, 8] [1]).channels ∧
      ∀ machine,
        (plainChannels 4).Get ((fill (muxWith [3, 0, 2, 7, 8] [1]).buf
          ((chunkCodec 4).ReadFull (muxWith [3, 0, 2, 7, 8] [1]).conn 3).data).getD 0 0)
          = Except.ok machine →
        out.err = some Error.ErrChannelDispatchChannelUnavailable :=
  Dispatch_nil_slot (chunkCodec 4) (plainChannels 4) (muxWith [3, 0, 2, 7, 8] [1])
    DeliverSelect.deliver rfl rfl rfl

/-! ## Bootup of the TCP-IPv4 request -/

theorem fill_request (buf : List Nat) (b0 b1 b2 b3 b4 b5 b6 : Nat)
    (hbuf : 7 ≤ buf.length) :
    fill buf ([b0, b1, b2, b3, b4, b5, b6].take 7) =
      b0 :: b1 :: b2 :: b3 :: b4 :: b5 :: b6 :: buf.drop 7 := by
  unfold fill
  have h : ([b0, b1, b2, b3, b4, b5, b6].take 7).take buf.length =
      [b0, b1, b2, b3, b4, b5, b6] := by
    apply List.take_of_length_le
    simpa using hbuf
  rw [h]
  rfl

theorem port_eq (hi lo : Nat) (hhi : hi < 256) (hlo : lo < 256) :
    (((0 ||| hi % 256) <<< 8) % 65536) ||| lo % 256 = 256 * hi + lo := by
  rw [Nat.mod_eq_of_lt hhi, Nat.mod_eq_of_lt hlo]
  exact or_shift_eq hi lo hhi hlo

/-- C9: for a 7-byte connect request, `Bootup` takes its rejecting path exactly
when the timeout byte is 0.  Then its calls are `Done` and the write of the one
byte `TCPRespondBadRequest`, nothing else (no dialer, no relay), and it returns
no next state and `ErrTCPInvalidTimeout`.  For a timeout byte in 1..255 it writes
nothing to the channel and does not return `ErrTCPInvalidTimeout`. -/
theorem Bootup_rejects_zero_timeout (env : BootupEnv) (c : tcp)
    (b0 b1 b2 b3 b4 b5 b6 : Nat) (hbuf : 7 ≤ c.buf.length)
    (hreq : env.request = [b0, b1, b2, b3, b4, b5, b6]) (hrerr : env.rErr = none)
    (hbyte : b6 < 256) :
    ∃ out, tcpIPv4.Bootup env c = some out ∧
      (b6 = 0 →
        out.calls = [Call.Done, Call.WriteFull [env.TCPRespondBadRequest]] ∧
        out.state = none ∧ out.err = some Error.ErrTCPInvalidTimeout ∧
        out.c.relay = c.relay) ∧
      (1 ≤ b6 →
        (∀ b, Call.WriteFull b ∉ out.calls) ∧
        out.err ≠ some Error.ErrTCPInvalidTimeout) := by
  unfold tcpIPv4.Bootup
  rw [if_neg (by omega)]
  simp only [hreq, hrerr, fill_request c.buf b0 b1 b2 b3 b4 b5 b6 hbuf]
  simp only [List.getD_cons_succ, List.getD_cons_zero, Nat.mod_eq_of_lt hbyte]
  by_cases h0 : b6 = 0
  · subst h0
    simp [Second]
  · have hpos : ¬ ((b6 : Int) * Second ≤ 0) := by
      unfold Second
      omega
    rw [if_neg hpos]
    cases env.bootErr with
    | none =>
      refine ⟨_, rfl, fun h => absurd h h0, fun _ => ⟨?_, ?_⟩⟩
      · intro b
        simp
      · simp
    | some code =>
      refine ⟨_, rfl, fun h => absurd h h0, fun _ => ⟨?_, ?_⟩⟩
      · intro b
        simp
      · simp

theorem Bootup_rejects_zero_timeout_witness :
    ∃ out, tcpIPv4.Bootup (envOf [10, 0, 0, 1, 31, 144, 0]) tcpOf10s = some out ∧
      ((0 : Nat) = 0 →
        out.calls = [Call.Done,
          Call.WriteFull [(envOf [10, 0, 0, 1, 31, 144, 0]).TCPRespondBadRequest]] ∧
        out.state = none ∧ out.err = some Error.ErrTCPInvalidTimeout ∧
        out.c.relay = tcpOf10s.relay) ∧
      (1 ≤ 0 →
        (∀ b, Call.WriteFull b ∉ out.calls) ∧
        out.err ≠ some Error.ErrTCPInvalidTimeout) :=
  Bootup_rejects_zero_timeout (envOf [10, 0, 0, 1, 31, 144, 0]) tcpOf10s 10 0 0 1 31 144 0
    (by decide) rfl rfl (by decide)

/-- C10: for a 7-byte connect request with timeout byte `t` in 1..255, `Bootup`
builds the dialer with the dotted quad of bytes 0..3 as host, `256 * byte4 +
byte5` as port and `min(t seconds, dialTimeout)` as dial timeout, which is at most
`dialTimeout`; it does so for every positive `t`, and does not return
`ErrTCPInvalidTimeout`. -/
theorem Bootup_builds_dialer (env : BootupEnv) (c : tcp)
    (b0 b1 b2 b3 b4 b5 t : Nat) (hbuf : 7 ≤ c.buf.length)
    (hreq : env.request = [b0, b1, b2, b3, b4, b5, t]) (hrerr : env.rErr = none)
    (h4 : b4 < 256) (h5 : b5 < 256) (hpos : 1 ≤ t) (hbyte : t ≤ 255) :
    ∃ out, tcpIPv4.Bootup env c = some out ∧
      out.calls =
        [Call.Done,
         Call.NewDialer
           (toString b0 ++ "." ++ toString b1 ++ "." ++ toString b2 ++ "." ++ toString b3)
           (256 * b4 + b5) (min ((t : Int) * Second) c.dialTimeout),
         Call.NewRelay c.noLocalAccess c.dialTimeout c.connectionTimeout,
         Call.RelayBootup] ∧
      min ((t : Int) * Second) c.dialTimeout ≤ c.dialTimeout ∧
      out.err ≠ some Error.ErrTCPInvalidTimeout := by
  unfold tcpIPv4.Bootup
  rw [if_neg (by omega)]
  simp only [hreq, hrerr, fill_request c.buf b0 b1 b2 b3 b4 b5 t hbuf]
  simp only [List.getD_cons_succ, List.getD_cons_zero, Nat.mod_eq_of_lt (by omega : t < 256),
    port_eq b4 b5 h4 h5]
  have hnot : ¬ ((t : Int) * Second ≤ 0) := by
    unfold Second
    omega
  rw [if_neg hnot]
  have hmin : (if (t : Int) * Second > c.dialTimeout then c.dialTimeout
      else (t : Int) * Second) = min ((t : Int) * Second) c.dialTimeout := by
    split_ifs with h
    · exact (min_eq_right (le_of_lt h)).symm
    · exact (min_eq_left (not_lt.mp h)).symm
  rw [hmin]
  cases env.bootErr with
  | none => exact ⟨_, rfl, rfl, min_le_right _ _, by simp⟩
  | some code => exact ⟨_, rfl, rfl, min_le_right _ _, by simp⟩

theorem Bootup_builds_dialer_witness :
    ∃ out, tcpIPv4.Bootup (envOf [10, 0, 0, 1, 31, 144, 30]) tcpOf10s = some out ∧
      out.calls =
        [Call.Done,
         Call.NewDialer
           (toString 10 ++ "." ++ toString 0 ++ "." ++ toString 0 ++ "." ++ toString 1)
           (256 * 31 + 144) (min (((30 : Nat) : Int) * Second) tcpOf10s.dialTimeout),
         Call.NewRelay tcpOf10s.noLocalAccess tcpOf10s.dialTimeout
           tcpOf10s.connectionTimeout,
         Call.RelayBootup] ∧
      min (((30 : Nat) : Int) * Second) tcpOf10s.dialTimeout ≤ tcpOf10s.dialTimeout ∧
      out.err ≠ some Error.ErrTCPInvalidTimeout :=
  Bootup_builds_dialer (envOf [10, 0, 0, 1, 31, 144, 30]) tcpOf10s 10 0 0 1 31 144 30
    (by decide) rfl rfl (by decide) (by decide) (by decide) (by decide)

/-! ## Writing a payload -/

theorem writeLoop_ok (wErr : Nat → Option Error) (hw : ∀ i, wErr i = none)
    (c : channel) (b : List Nat) :
    ∀ (fuel startPos segLen : Nat) (sent : List (List Nat × List Nat)),
      startPos ≤ b.length → b.length - startPos < fuel →
      segLen = min (b.length - startPos) 65535 →
      (sent.map Prod.snd).flatten = b.take startPos →
      (∀ f ∈ sent, f.1 = [c.id % 256, f.2.length / 256, f.2.length % 256] ∧
        1 ≤ f.2.length ∧ f.2.length ≤ 65535) →
      (∀ f ∈ sent.dropLast, f.2.length = 65535) →
      sent.length = (startPos + 65534) / 65535 →
      (startPos < b.length →
        startPos = 65535 * sent.length ∧ ∀ f ∈ sent, f.2.length = 65535) →
      ∃ out, channel.writeLoop wErr c b fuel startPos segLen sent = some out ∧
        out.n = b.length ∧ out.err = none ∧
        (out.calls.map Prod.snd).flatten = b ∧
        (∀ f ∈ out.calls, f.1 = [c.id % 256, f.2.length / 256, f.2.length % 256] ∧
          1 ≤ f.2.length ∧ f.2.length ≤ 65535) ∧
        (∀ f ∈ out.calls.dropLast, f.2.length = 65535) ∧
        out.calls.length = (b.length + 65534) / 65535 := by
  intro fuel
  induction fuel with
  | zero =>
    intro startPos segLen sent _ hfuel
    omega
  | succ fuel ih =>
    intro startPos segLen sent hle hfuel hseg hcat hhead hfull hcount hmid
    unfold channel.writeLoop
    by_cases hmore : b.length > startPos
    · rw [if_pos hmore]
      simp only [hw]
      obtain ⟨hstart, hall⟩ := hmid hmore
      have hseglen : ((b.drop startPos).take segLen).length = segLen := by
        rw [List.length_take, List.length_drop]
        omega
      have hsegpos : 1 ≤ segLen := by omega
      have hseg16 : segLen ≤ 65535 := by omega
      apply ih
      · omega
      · omega
      · unfold MaxUint16
        split_ifs <;> omega
      · rw [List.map_append, List.flatten_append, hcat, List.take_add]
        simp
      · intro f hf
        rcases List.mem_append.mp hf with h | h
        · exact hhead f h
        · rw [List.mem_singleton] at h
          subst h
          simp only [hseglen]
          exact ⟨headBuf_eq c.id segLen hseg16, hsegpos, hseg16⟩
      · rw [List.dropLast_concat]
        exact hall
      · rw [List.length_append, List.length_singleton]
        omega
      · intro hlt
        have hfullseg : segLen = 65535 := by omega
        refine ⟨?_, ?_⟩
        · rw [List.length_append, List.length_singleton]
          omega
        · intro f hf
          rcases List.mem_append.mp hf with h | h
          · exact hall f h
          · rw [List.mem_singleton] at h
            subst h
            simp only [hseglen]
            exact hfullseg
    · rw [if_neg hmore]
      have heq : startPos = b.length := by omega
      subst heq
      refine ⟨_, rfl, rfl, rfl, ?_, hhead, hfull, hcount⟩
      simpa using hcat

/-- C4: when every encode-and-write succeeds, `Write` of a payload `b` on channel
`id` returns `(len(b), nil)` after exactly `ceil(len(b) / 65535)` calls of
`WriteAll` (none for an empty payload); each call carries the header `[id, n /
256, n % 256]` and a segment of `n` bytes with `1 ≤ n ≤ 65535`; every segment but
the last has 65535 bytes; and the segments in order make up `b`. -/
theorem Write_framing (wErr : Nat → Option Error) (hw : ∀ i, wErr i = none)
    (c : channel) (b : List Nat) :
    ∃ out, channel.Write wErr c b = some out ∧
      out.n = b.length ∧ out.err = none ∧
      out.calls.length = (b.length + 65534) / 65535 ∧
      (∀ f ∈ out.calls, f.1 = [c.id % 256, f.2.length / 256, f.2.length % 256] ∧
        1 ≤ f.2.length ∧ f.2.length ≤ 65535) ∧
      (∀ f ∈ out.calls.dropLast, f.2.length = 65535) ∧
      (out.calls.map Prod.snd).flatten = b := by
  unfold channel.Write
  obtain ⟨out, h1, h2, h3, h4, h5, h6, h7⟩ :=
    writeLoop_ok wErr hw c b (b.length + 1) 0
      (if b.length > MaxUint16 then MaxUint16 else b.length) []
      (Nat.zero_le _) (by omega)
      (by unfold MaxUint16; split_ifs <;> omega)
      (by simp) (by simp) (by simp) (by simp) (by simp)
  exact ⟨out, h1, h2, h3, h7, h5, h6, h4⟩

theorem Write_framing_witness :
    ∃ out, channel.Write (fun _ => none) (idleChannel 3) [5, 6, 7] = some out ∧
      out.n = [5, 6, 7].length ∧ out.err = none ∧
      out.calls.length = ([5, 6, 7].length + 65534) / 65535 ∧
      (∀ f ∈ out.calls,
        f.1 = [(idleChannel 3).id % 256, f.2.length / 256, f.2.length % 256] ∧
        1 ≤ f.2.length ∧ f.2.length ≤ 65535) ∧
      (∀ f ∈ out.calls.dropLast, f.2.length = 65535) ∧
      (out.calls.map Prod.snd).flatten = [5, 6, 7] :=
  Write_framing (fun _ => none) (fun _ => rfl) (idleChannel 3) [5, 6, 7]

/-! ## The gate and the pending segment -/

theorem Pres_refl {σ : Type} (c : channel) (m : channelize σ) : Pres c m c m :=
  ⟨rfl, rfl, fun _ => ⟨rfl, rfl⟩, fun h => h⟩

theorem Pres_trans {σ : Type} {c c1 c2 : channel} {m m1 m2 : channelize σ}
    (h1 : Pres c m c1 m1) (h2 : Pres c1 m1 c2 m2) : Pres c m c2 m2 := by
  obtain ⟨a1, b1, i1, k1⟩ := h1
  obtain ⟨a2, b2, i2, k2⟩ := h2
  refine ⟨a2.trans a1, b2.trans b1, ?_, fun h => k2 (k1 h)⟩
  intro hidle
  obtain ⟨e1, p1⟩ := i1 hidle
  obtain ⟨e2, p2⟩ := i2 (e1 ▸ hidle)
  exact ⟨e2.trans e1, p2.trans p1⟩

theorem readSegment_carrying {σ : Type} (cd : Codec σ) (hcd : cd.Bounded) (c : channel)
    (m : channelize σ) (bLen : Nat) (armed : Option Int)
    (hinbox : c.connReader = none) (hown : c.currentReader.Reader = true)
    (hcomplete : c.currentReader.Complete = true)
    (hlen : (c.currentReader.Length : Int) = m.segPending)
    (h16 : c.currentReader.Length < 65536) :
    (channel.readSegment cd c m bLen armed).c.Carrying
      (channel.readSegment cd c m bLen armed).m.segPending := by
  right
  have hask : (if c.currentReader.Length >
        (if bLen > MaxUint16 then MaxUint16 else bLen) % 65536
      then (if bLen > MaxUint16 then MaxUint16 else bLen) % 65536
      else c.currentReader.Length) ≤ c.currentReader.Length := by
    split_ifs <;> omega
  have hk := hcd m.conn (if c.currentReader.Length >
        (if bLen > MaxUint16 then MaxUint16 else bLen) % 65536
      then (if bLen > MaxUint16 then MaxUint16 else bLen) % 65536
      else c.currentReader.Length)
  simp only [channel.readSegment]
  refine ⟨hinbox, hown, hcomplete, ?_, ?_⟩
  · rw [← hlen]
    omega
  · omega

theorem Read_pres {σ : Type} (cd : Codec σ) (hcd : cd.Bounded) (env : ReadEnv)
    (c : channel) (m : channelize σ) (bLen : Nat) (out : ReadOut σ)
    (h : channel.Read cd env c m bLen = some out) : Pres c m out.c out.m := by
  unfold channel.Read at h
  by_cases hR : c.currentReader.Reader = false
  · rw [if_pos hR] at h
    simp only [] at h
    split at h
    · cases h
      exact Pres_refl c m
    · split at h
      · split at h
        · rename_i reader hreader
          cases h
          refine ⟨rfl, rfl, ?_, ?_⟩
          · intro hidle
            rw [hidle.1] at hreader
            cases hreader
          · intro hcar
            rcases hcar with ⟨_, L, hL, hp, h16⟩ | ⟨_, hown, _⟩
            · rw [hL] at hreader
              cases hreader
              exact readSegment_carrying cd hcd _ m bLen _ rfl rfl rfl hp h16
            · rw [hR] at hown
              cases hown
        · cases h
      · split at h
        · cases h
          exact Pres_refl c m
        · cases h
      · split at h
        · cases h
          exact Pres_refl c m
        · cases h
      · split at h
        · cases h
          exact Pres_refl c m
        · cases h
  · rw [if_neg hR] at h
    have hown : c.currentReader.Reader = true := by simpa using hR
    split at h
    · cases h
      exact Pres_refl c m
    · cases h
      refine ⟨rfl, rfl, ?_, ?_⟩
      · intro hidle
        exact absurd hidle.2 hR
      · intro hcar
        rcases hcar with ⟨hfalse, _⟩ | ⟨hinbox, _, hcomplete, hp, h16⟩
        · exact absurd hfalse hR
        · exact readSegment_carrying cd hcd c m bLen none hinbox hown hcomplete hp h16

theorem depleteLoop_pres {σ : Type} (cd : Codec σ) (hcd : cd.Bounded) (env : ReadEnv)
    (dLen : Nat) :
    ∀ (fuel : Nat) (c : channel) (m : channelize σ) (e : Option Error) (c1 : channel)
      (m1 : channelize σ),
      channel.depleteLoop cd env dLen fuel c m = some (e, c1, m1) →
      Pres c m c1 m1 ∧ (e = none → c1.Depleted = true) := by
  intro fuel
  induction fuel with
  | zero =>
    intro c m e c1 m1 h
    cases h
  | succ fuel ih =>
    intro c m e c1 m1 h
    unfold channel.depleteLoop at h
    split at h
    · cases h
    · rename_i out hout
      have hp := Read_pres cd hcd env c m dLen out hout
      split_ifs at h with herr hdep
      · cases h
        refine ⟨hp, ?_⟩
        intro hnone
        rw [hnone] at herr
        cases herr
      · obtain ⟨hp2, hd⟩ := ih out.c out.m e c1 m1 h
        exact ⟨Pres_trans hp hp2, hd⟩
      · cases h
        refine ⟨hp, fun _ => ?_⟩
        simpa using hdep

theorem Deplete_pres {σ : Type} (cd : Codec σ) (hcd : cd.Bounded) (env : ReadEnv)
    (fuel : Nat) (c : channel) (m : channelize σ) (e : Option Error) (c1 : channel)
    (m1 : channelize σ) (h : channel.Deplete cd env fuel c m = some (e, c1, m1)) :
    Pres c m c1 m1 ∧ (e = none → c1.Depleted = true) := by
  unfold channel.Deplete at h
  by_cases hdep : c.Depleted = true
  · rw [if_pos hdep] at h
    cases h
    exact ⟨Pres_refl c m, fun _ => hdep⟩
  · rw [if_neg hdep] at h
    exact depleteLoop_pres cd hcd env _ fuel c m e c1 m1 h

theorem lookup_lt {α : Type} (l : List α) (i : Nat) (a : α) (h : l[i]? = some a) :
    i < l.length := by
  rcases Nat.lt_or_ge i l.length with hlt | hge
  · exact hlt
  · rw [List.getElem?_eq_none hge] at h
    cases h

theorem Inv_store {σ : Type} (m m1 : channelize σ) (id : Nat) (c c1 : channel)
    (hinv : m.Inv) (hslot : m.channels[id]? = some (some c)) (hp : Pres c m c1 m1) :
    (m1.store id c1).Inv := by
  obtain ⟨hch, hgate, hidle, hcar⟩ := hp
  have hlt := lookup_lt _ _ _ hslot
  have hg : (m1.store id c1).dispatchCompleted = m.dispatchCompleted := hgate
  have hs : (m1.store id c1).segPending = m1.segPending := rfl
  have hc : (m1.store id c1).channels = m.channels.set id (some c1) := by
    simp only [channelize.store, hch]
  unfold channelize.Inv at hinv ⊢
  rw [hg, hs, hc]
  cases hgs : m.dispatchCompleted with
  | closed => trivial
  | free =>
    rw [hgs] at hinv
    simp only [] at hinv ⊢
    obtain ⟨hzero, hall⟩ := hinv
    obtain ⟨heq, hpend⟩ := hidle (hall id c hslot)
    refine ⟨hpend.trans hzero, ?_⟩
    intro i c2 hi
    rw [List.getElem?_set] at hi
    split_ifs at hi with h1
    · cases hi
      rw [heq]
      exact hall id c hslot
    · exact hall i c2 hi
  | held =>
    rw [hgs] at hinv
    simp only [] at hinv ⊢
    obtain ⟨i, ci, hi, hci, hothers⟩ := hinv
    by_cases hid : id = i
    · subst hid
      rw [hslot] at hi
      cases hi
      refine ⟨id, c1, ?_, hcar hci, ?_⟩
      · rw [List.getElem?_set_self hlt]
      · intro j c2 hj hlook
        rw [List.getElem?_set_ne (Ne.symm hj)] at hlook
        exact hothers j c2 hj hlook
    · have hcidle := hothers id c hid hslot
      obtain ⟨heq, hpend⟩ := hidle hcidle
      refine ⟨i, ci, ?_, ?_, ?_⟩
      · rw [List.getElem?_set_ne hid]
        exact hi
      · rw [hpend]
        exact hci
      · intro j c2 hj hlook
        rw [List.getElem?_set] at hlook
        split_ifs at hlook with h1
        · cases hlook
          rw [heq]
          exact hcidle
        · exact hothers j c2 hj hlook

theorem ReadAt_inv {σ : Type} (cd : Codec σ) (hcd : cd.Bounded) (env : ReadEnv)
    (id bLen : Nat) (m : channelize σ) (out : ReadOut σ) (hinv : m.Inv)
    (h : m.ReadAt cd env id bLen = some out) : out.m.Inv := by
  unfold channelize.ReadAt at h
  split at h
  · rename_i c hslot
    split at h
    · rename_i out1 hread
      cases h
      exact Inv_store m out1.m id c out1.c hinv hslot (Read_pres cd hcd env c m bLen out1 hread)
    · cases h
  · cases h

theorem DepleteAt_inv {σ : Type} (cd : Codec σ) (hcd : cd.Bounded) (env : ReadEnv)
    (fuel id : Nat) (m : channelize σ) (e : Option Error) (m1 : channelize σ)
    (hinv : m.Inv) (h : m.DepleteAt cd env fuel id = some (e, m1)) : m1.Inv := by
  unfold channelize.DepleteAt at h
  split at h
  · rename_i c hslot
    split at h
    · rename_i e1 c1 m2 hdep
      cases h
      exact Inv_store m m2 id c c1 hinv hslot (Deplete_pres cd hcd env fuel c m e c1 m2 hdep).1
    · cases h
  · cases h

theorem DoneAt_inv {σ : Type} (cd : Codec σ) (hcd : cd.Bounded) (env : ReadEnv)
    (fuel id : Nat) (m : channelize σ) (m1 : channelize σ)
    (hinv : m.Inv) (h : m.DoneAt cd env fuel id = some (none, m1)) : m1.Inv := by
  unfold channelize.DoneAt at h
  split at h
  swap
  · cases h
  rename_i c hslot
  split at h
  swap
  · cases h
  rename_i e2 c2 m2 hdone
  cases h
  unfold channel.Done at hdone
  split at hdone
  · cases hdone
  rename_i e1 c1 m3 hdep
  obtain ⟨hp, hdepleted⟩ := Deplete_pres cd hcd env fuel c m e1 c1 m3 hdep
  by_cases hR : c1.currentReader.Reader = true
  · rw [if_pos hR] at hdone
    by_cases hC : c1.currentReader.Complete = true
    · rw [if_pos hC] at hdone
      simp only [] at hdone
      have hlt := lookup_lt _ _ _ hslot
      obtain ⟨hch, hgate, hidle, hcar⟩ := hp
      split at hdone
      · rename_i hheld
        cases hdone
        have hmheld : m.dispatchCompleted = Gate.held := hgate ▸ hheld
        unfold channelize.Inv at hinv
        rw [hmheld] at hinv
        simp only [] at hinv
        obtain ⟨i, ci, hi, hci, hothers⟩ := hinv
        have hid : id = i := by
          by_contra hne
          obtain ⟨heq, _⟩ := hidle (hothers id c hne hslot)
          rw [heq, (hothers id c hne hslot).2] at hR
          cases hR
        subst hid
        rw [hslot] at hi
        cases hi
        have hc1 := hcar hci
        rcases hc1 with ⟨hfalse, _⟩ | ⟨hinbox, _, _, hlen, _⟩
        · rw [hfalse] at hR
          cases hR
        · have hzero : c1.currentReader.Length = 0 := by
            have := hdepleted rfl
            unfold channel.Depleted at this
            simpa using this
          unfold channelize.Inv
          simp only [channelize.store]
          refine ⟨?_, ?_⟩
          · rw [← hlen, hzero]
            rfl
          · intro j c3 hj
            rw [hch, List.getElem?_set] at hj
            split_ifs at hj with h1
            · cases hj
              exact ⟨hinbox, rfl⟩
            · exact hothers j c3 (fun h2 => h1 h2.symm) hj
      · rename_i hclosed
        cases hdone
        unfold channelize.Inv
        simp only [channelize.store, hclosed]
      · cases hdone
    · rw [if_neg hC] at hdone
      cases hdone
  · rw [if_neg hR] at hdone
    cases hdone
    exact Inv_store m _ id c _ hinv hslot hp

theorem For_inv {σ : Type} (id : Nat) (m : channelize σ) (vc : channel)
    (m1 : channelize σ) (hinv : m.Inv) (h : m.For id = some (vc, m1)) : m1.Inv := by
  unfold channelize.For at h
  split at h
  · cases h
  · cases h
    exact hinv
  · rename_i hnil
    cases h
    unfold channelize.Inv at hinv ⊢
    simp only []
    cases hgs : m.dispatchCompleted with
    | closed => trivial
    | free =>
      rw [hgs] at hinv
      simp only [] at hinv ⊢
      refine ⟨hinv.1, ?_⟩
      intro i c2 hi
      rw [List.getElem?_set] at hi
      split_ifs at hi with h1
      · cases hi
        exact ⟨rfl, rfl⟩
      · exact hinv.2 i c2 hi
    | held =>
      rw [hgs] at hinv
      simp only [] at hinv ⊢
      obtain ⟨i, ci, hi, hci, hothers⟩ := hinv
      have hne : id ≠ i := by
        intro heq
        subst heq
        rw [hnil] at hi
        cases hi
      refine ⟨i, ci, ?_, hci, ?_⟩
      · rw [List.getElem?_set_ne hne]
        exact hi
      · intro j c2 hj hlook
        rw [List.getElem?_set] at hlook
        split_ifs at hlook with h1
        · cases hlook
          exact ⟨rfl, rfl⟩
        · exact hothers j c2 hj hlook

theorem Channelize_inv {σ : Type} (MaxChannels : Nat) (conn : σ) (timeoutTicker : Bool) :
    (Channelize MaxChannels conn timeoutTicker).Inv := by
  unfold channelize.Inv Channelize
  simp only []
  refine ⟨trivial, ?_⟩
  intro i c h
  rw [List.getElem?_replicate] at h
  split_ifs at h
  cases h

theorem Inv_released {σ : Type} (m m1 : channelize σ) (hinv : m.Inv)
    (hfree : m.dispatchCompleted = Gate.free) (hgate : m1.dispatchCompleted = Gate.free)
    (hch : m1.channels = m.channels) (hzero : m1.segPending = 0) : m1.Inv := by
  unfold channelize.Inv at hinv ⊢
  rw [hfree] at hinv
  rw [hgate]
  simp only [] at hinv ⊢
  rw [hch]
  exact ⟨hzero, hinv.2⟩

theorem Inv_closed {σ : Type} (m1 : channelize σ)
    (hgate : m1.dispatchCompleted = Gate.closed) : m1.Inv := by
  unfold channelize.Inv
  rw [hgate]
  trivial

theorem Dispatch_inv {σ μ : Type} (cd : Codec σ) (channels : Channels μ)
    (s1 : DispatchSelect) (s2 : DeliverSelect) (m : channelize σ) (out : DispatchOut σ μ)
    (hinv : m.Inv) (h : m.Dispatch cd s1 s2 channels = some out)
    (hclean : out.err.isSome → s1 = DispatchSelect.gate →
      (cd.ReadFull m.conn 3).err = none →
      segDataLen (fill m.buf (cd.ReadFull m.conn 3).data) = 0) : out.m.Inv := by
  unfold channelize.Dispatch at h
  cases s1 with
  | closed =>
    simp only [] at h
    split_ifs at h
    cases h
    exact Inv_closed _ rfl
  | down =>
    simp only [] at h
    split_ifs at h
    cases h
    exact Inv_closed _ rfl
  | gate =>
    simp only [] at h
    by_cases hfree : m.dispatchCompleted = Gate.free
    swap
    · rw [if_neg hfree] at h
      cases h
    rw [if_pos hfree] at h
    have hpend : m.segPending = 0 := by
      unfold channelize.Inv at hinv
      rw [hfree] at hinv
      exact hinv.1
    split at h
    · cases h
      exact Inv_released m _ hinv hfree rfl rfl hpend
    · rename_i herr
      split at h
      · cases h
        refine Inv_released m _ hinv hfree rfl rfl ?_
        simp only []
        rw [hclean rfl rfl herr]
        rfl
      · by_cases hsize :
            (fill m.buf (cd.ReadFull m.conn 3).data).getD 0 0 % 256 ≥ channels.Size
        · rw [if_pos hsize] at h
          cases h
          refine Inv_released m _ hinv hfree rfl rfl ?_
          simp only []
          rw [hclean rfl rfl herr]
          rfl
        · rw [if_neg hsize] at h
          split at h
          · cases h
          · cases h
            refine Inv_released m _ hinv hfree rfl rfl ?_
            simp only []
            rw [hclean rfl rfl herr]
            rfl
          · rename_i vc hslot
            have hlt := lookup_lt _ _ _ hslot
            have hall : ∀ (i : Nat) (c : channel),
                m.channels[i]? = some (some c) → c.Idle := by
              unfold channelize.Inv at hinv
              rw [hfree] at hinv
              exact hinv.2
            split at h
            · split at h
              · cases h
              · cases h
                unfold channelize.Inv
                simp only []
                refine ⟨_, _, List.getElem?_set_self hlt, ?_, ?_⟩
                · left
                  exact ⟨(hall _ vc hslot).2, _, rfl, rfl, segDataLen_lt _⟩
                · intro j c2 hj hlook
                  rw [List.getElem?_set_ne (Ne.symm hj)] at hlook
                  exact hall j c2 hlook
            · split_ifs at h
              cases h
              exact Inv_closed _ rfl
            · split_ifs at h
              cases h
              exact Inv_closed _ rfl

theorem faultyCodec_bounded : faultyCodec.Bounded := by
  intro s n
  unfold faultyCodec
  simp only []
  split
  · simp
  · simp only [List.length_take]
    omega

theorem chunkCodec_bounded (chunk : Nat) : (chunkCodec chunk).Bounded := by
  intro s n
  simp only [chunkCodec, List.length_take]
  omega

/-- C1 (as stated) fails.  First, with a decoder that keeps the `io.Reader`
contract: a frame of two bytes is routed to channel 1, the read of the channel
fails, and `Done`, whose `Deplete` fails too, frees the gate while both bytes of
the segment are in the stream.  Second: `Dispatch` reads a header of segment
length 3 for channel 3, whose slot is nil, and returns with the gate free while
the three bytes are in the stream. -/
theorem frame_alignment_counterexample :
    (faultyCodec.Bounded ∧
      ∃ m, Reachable faultyCodec (plainChannels 4)
          (Channelize 4 (Wire.mk [1, 0, 2, 7, 8, 1, 0, 1, 9] [true, true]) false) m ∧
        m.dispatchCompleted = Gate.free ∧ m.segPending = 2 ∧ ¬ FrameAligned m) ∧
    (∃ m, Reachable (chunkCodec 4) (plainChannels 4)
        (Channelize 4 [3, 0, 3, 1, 0, 1, 1, 0, 1, 42] false) m ∧
      m.dispatchCompleted = Gate.free ∧ m.segPending = 3 ∧ ¬ FrameAligned m) := by
  refine ⟨⟨faultyCodec_bounded, ?_⟩, ?_⟩
  · have r0 : Reachable faultyCodec (plainChannels 4)
        (Channelize 4 (Wire.mk [1, 0, 2, 7, 8, 1, 0, 1, 9] [true, true]) false)
        (Channelize 4 (Wire.mk [1, 0, 2, 7, 8, 1, 0, 1, 9] [true, true]) false) :=
      Reachable.start
    have r1 := Reachable.step _ _ r0 (Step.For _ 1 _ _ rfl)
    have r2 := Reachable.step _ _ r1
      (Step.Dispatch _ DispatchSelect.gate DeliverSelect.deliver _ rfl)
    have r3 := Reachable.step _ _ r2 (Step.Read _ frameEnv 1 1 _ rfl)
    have r4 := Reachable.step _ _ r3 (Step.Done _ frameEnv 10 1 _ _ rfl)
    refine ⟨_, r4, rfl, rfl, ?_⟩
    intro h
    have h2 := h rfl
    revert h2
    decide
  · have r0 : Reachable (chunkCodec 4) (plainChannels 4)
        (Channelize 4 [3, 0, 3, 1, 0, 1, 1, 0, 1, 42] false)
        (Channelize 4 [3, 0, 3, 1, 0, 1, 1, 0, 1, 42] false) :=
      Reachable.start
    have r1 := Reachable.step _ _ r0
      (Step.Dispatch _ DispatchSelect.gate DeliverSelect.deliver _ rfl)
    refine ⟨_, r1, rfl, rfl, ?_⟩
    intro h
    have h2 := h rfl
    revert h2
    decide

/-- C1 (as amended): with a decoder that never stores more bytes than asked, in
every state reached from a new multiplexer through `For`, `Dispatch`, channel
`Read`, `Deplete` and `Done`, leaving out a `Dispatch` that returns an error
after it read a header with a non-zero segment length and a `Done` that returns
an error, the stream is at a frame boundary whenever the dispatch gate is free:
no byte of the last decoded segment is pending. -/
theorem frame_alignment_clean {σ μ : Type} (cd : Codec σ) (hcd : cd.Bounded)
    (channels : Channels μ) (MaxChannels : Nat) (conn : σ) (timeoutTicker : Bool)
    (m : channelize σ)
    (hreach : CleanReachable cd channels (Channelize MaxChannels conn timeoutTicker) m) :
    FrameAligned m := by
  have hinv : m.Inv := by
    induction hreach with
    | start => exact Channelize_inv MaxChannels conn timeoutTicker
    | step m2 m3 _ hstep ih =>
      cases hstep with
      | For id vc _ h => exact For_inv id m2 vc m3 ih h
      | Dispatch s1 s2 out h hclean => exact Dispatch_inv cd channels s1 s2 m2 out ih h hclean
      | Read env id bLen out h => exact ReadAt_inv cd hcd env id bLen m2 out ih h
      | Deplete env fuel id err _ h => exact DepleteAt_inv cd hcd env fuel id m2 err m3 ih h
      | Done env fuel id _ h => exact DoneAt_inv cd hcd env fuel id m2 m3 ih h
  intro hfree
  unfold channelize.Inv at hinv
  rw [hfree] at hinv
  exact hinv.1

theorem servedMux_reachable :
    CleanReachable (chunkCodec 4) (plainChannels 4)
      (Channelize 4 [1, 0, 2, 7, 8, 1, 0, 1, 9] false) servedMux := by
  have r0 : CleanReachable (chunkCodec 4) (plainChannels 4)
      (Channelize 4 [1, 0, 2, 7, 8, 1, 0, 1, 9] false)
      (Channelize 4 [1, 0, 2, 7, 8, 1, 0, 1, 9] false) := CleanReachable.start
  have r1 := CleanReachable.step _ _ r0 (CleanStep.For _ 1 _ _ rfl)
  have r2 := CleanReachable.step _ _ r1
    (CleanStep.Dispatch _ DispatchSelect.gate DeliverSelect.deliver _ rfl
      (fun h => by cases h))
  have r3 := CleanReachable.step _ _ r2 (CleanStep.Read _ frameEnv 1 5 _ rfl)
  exact CleanReachable.step _ servedMux r3 (CleanStep.Done _ frameEnv 10 1 _ rfl)

theorem frame_alignment_clean_witness :
    (chunkCodec 4).Bounded ∧
    CleanReachable (chunkCodec 4) (plainChannels 4)
      (Channelize 4 [1, 0, 2, 7, 8, 1, 0, 1, 9] false) servedMux ∧
    FrameAligned servedMux :=
  ⟨chunkCodec_bounded 4, servedMux_reachable,
    frame_alignment_clean (chunkCodec 4) (chunkCodec_bounded 4) (plainChannels 4) 4
      [1, 0, 2, 7, 8, 1, 0, 1, 9] false servedMux servedMux_reachable⟩

/-! ## Deplete and Done -/

theorem Read_owner {σ : Type} (cd : Codec σ) (hb : cd.Bounded) (hp : cd.Progressive)
    (env : ReadEnv) (c : channel) (m : channelize σ) (bLen : Nat)
    (hown : c.currentReader.Reader = true) (h16 : c.currentReader.Length < 65536) :
    ∃ out, channel.Read cd env c m bLen = some out ∧
      out.c.currentReader.Reader = true ∧
      out.c.currentReader.Complete = c.currentReader.Complete ∧
      out.c.currentReader.Length ≤ c.currentReader.Length ∧
      out.m.dispatchCompleted = m.dispatchCompleted ∧
      (out.err = none → 1 ≤ bLen →
        out.c.currentReader.Length < c.currentReader.Length) := by
  by_cases hzero : c.currentReader.Length = 0
  · refine ⟨_, Read_of_depleted cd env c m bLen hown hzero, hown, rfl, le_refl _, rfl, ?_⟩
    intro h
    cases h
  · have hdep : c.Depleted = false := by
      unfold channel.Depleted
      simp
      omega
    have hread : channel.Read cd env c m bLen =
        some (channel.readSegment cd c m bLen none) := by
      unfold channel.Read
      simp [hown, hdep]
    have hk := hb m.conn (if c.currentReader.Length >
          (if bLen > MaxUint16 then MaxUint16 else bLen) % 65536
        then (if bLen > MaxUint16 then MaxUint16 else bLen) % 65536
        else c.currentReader.Length)
    have hask : (if c.currentReader.Length >
          (if bLen > MaxUint16 then MaxUint16 else bLen) % 65536
        then (if bLen > MaxUint16 then MaxUint16 else bLen) % 65536
        else c.currentReader.Length) ≤ c.currentReader.Length := by
      split_ifs <;> omega
    refine ⟨_, hread, hown, rfl, ?_, rfl, ?_⟩
    · simp only [channel.readSegment]
      omega
    · intro herr hlen
      have hask1 : 1 ≤ (if c.currentReader.Length >
            (if bLen > MaxUint16 then MaxUint16 else bLen) % 65536
          then (if bLen > MaxUint16 then MaxUint16 else bLen) % 65536
          else c.currentReader.Length) := by
        unfold MaxUint16
        split_ifs <;> omega
      have hprog := hp m.conn _ hask1 herr
      simp only [channel.readSegment]
      omega

theorem depleteLoop_owner {σ : Type} (cd : Codec σ) (hb : cd.Bounded)
    (hp : cd.Progressive) (env : ReadEnv) (dLen : Nat) (hd : 1 ≤ dLen) :
    ∀ (fuel : Nat) (c : channel) (m : channelize σ),
      c.currentReader.Reader = true → c.currentReader.Length < 65536 →
      c.currentReader.Length ≤ fuel → 1 ≤ fuel →
      ∃ e c1 m1, channel.depleteLoop cd env dLen fuel c m = some (e, c1, m1) ∧
        c1.currentReader.Reader = true ∧
        c1.currentReader.Complete = c.currentReader.Complete ∧
        c1.currentReader.Length ≤ c.currentReader.Length ∧
        m1.dispatchCompleted = m.dispatchCompleted := by
  intro fuel
  induction fuel with
  | zero =>
    intro c m _ _ _ h
    omega
  | succ fuel ih =>
    intro c m hown h16 hfuel _
    obtain ⟨out, hread, hown1, hcomp1, hle1, hgate1, hless⟩ :=
      Read_owner cd hb hp env c m dLen hown h16
    unfold channel.depleteLoop
    rw [hread]
    simp only []
    by_cases herr : out.err.isSome = true
    · rw [if_pos herr]
      exact ⟨_, _, _, rfl, hown1, hcomp1, hle1, hgate1⟩
    · rw [if_neg herr]
      have hnone : out.err = none := by
        cases h : out.err with
        | none => rfl
        | some e =>
          rw [h] at herr
          exact absurd rfl herr
      by_cases hdep : (!out.c.Depleted) = true
      · rw [if_pos hdep]
        have hlt := hless hnone hd
        have hpos : 1 ≤ out.c.currentReader.Length := by
          unfold channel.Depleted at hdep
          simp at hdep
          omega
        obtain ⟨e, c1, m1, hrun, ho, hc, hl, hg⟩ :=
          ih out.c out.m hown1 (by omega) (by omega) (by omega)
        exact ⟨e, c1, m1, hrun, ho, hc.trans hcomp1, by omega, hg.trans hgate1⟩
      · rw [if_neg hdep]
        exact ⟨_, _, _, rfl, hown1, hcomp1, hle1, hgate1⟩

theorem Deplete_owner {σ : Type} (cd : Codec σ) (hb : cd.Bounded) (hp : cd.Progressive)
    (env : ReadEnv) (fuel : Nat) (c : channel) (m : channelize σ)
    (hown : c.currentReader.Reader = true) (h16 : c.currentReader.Length < 65536)
    (hfuel : c.currentReader.Length ≤ fuel) :
    ∃ e c1 m1, channel.Deplete cd env fuel c m = some (e, c1, m1) ∧
      c1.currentReader.Reader = true ∧
      c1.currentReader.Complete = c.currentReader.Complete ∧
      c1.currentReader.Length ≤ c.currentReader.Length ∧
      m1.dispatchCompleted = m.dispatchCompleted := by
  unfold channel.Deplete
  by_cases hdep : c.Depleted = true
  · rw [if_pos hdep]
    exact ⟨_, _, _, rfl, hown, rfl, le_refl _, rfl⟩
  · rw [if_neg hdep]
    have hpos : 1 ≤ c.currentReader.Length := by
      unfold channel.Depleted at hdep
      simp at hdep
      omega
    apply depleteLoop_owner cd hb hp env _ _ fuel c m hown h16 hfuel (by omega)
    unfold maxDepleteBufSize
    split_ifs <;> omega

theorem chunkCodec_progressive (chunk : Nat) (hchunk : 1 ≤ chunk) :
    (chunkCodec chunk).Progressive := by
  intro s n hn herr
  cases s with
  | nil =>
    simp only [chunkCodec] at herr
    rw [if_pos (by simp; omega)] at herr
    cases herr
  | cons a t =>
    simp only [chunkCodec, List.length_take, List.length_cons]
    omega

/-- C2 (as stated) fails: `Dispatch` routes a frame of two bytes to channel 1 and
holds the gate; no `Read` is called; `Deplete` and then `Done` on channel 1 both
return nil without reading, the frame stays in the inbox, the gate stays held,
and the next `Dispatch` cannot acquire it. -/
theorem Deplete_Done_counterexample :
    ∃ out e1 m1 e2 m2,
      (muxWith [1, 0, 2, 7, 8, 1, 0, 1, 9] [1]).Dispatch (chunkCodec 4) DispatchSelect.gate
        DeliverSelect.deliver (plainChannels 4) = some out ∧
      out.id = 1 ∧ out.err = none ∧ out.m.dispatchCompleted = Gate.held ∧
      out.m.channels[1]? = some (some (inboxChannel 1 2)) ∧
      out.m.DepleteAt (chunkCodec 4) frameEnv 10 1 = some (e1, m1) ∧
      m1.DoneAt (chunkCodec 4) frameEnv 10 1 = some (e2, m2) ∧
      e1 = none ∧ e2 = none ∧ m2.dispatchCompleted = Gate.held ∧
      m2.conn = [7, 8, 1, 0, 1, 9] ∧
      m2.Dispatch (chunkCodec 4) DispatchSelect.gate DeliverSelect.deliver (plainChannels 4)
        = none := by
  refine ⟨_, _, _, _, _, rfl, rfl, rfl, rfl, rfl, rfl, rfl, rfl, rfl, rfl, rfl, rfl⟩

/-- C2 (as amended): on a channel that owns the routed frame while the gate is
held, with a decoder whose reads store no more than asked and, unless they
fail, at least one byte, `Deplete` and then `Done` both return (a loop budget of
the remaining count suffices) and leave the gate free and the channel without
a frame, however many bytes of the segment were read before (the remaining
count is arbitrary), and whether or not a read of `Deplete` fails. -/
theorem Deplete_Done_frees_gate {σ : Type} (cd : Codec σ) (hb : cd.Bounded)
    (hp : cd.Progressive) (env1 env2 : ReadEnv) (fuel1 fuel2 : Nat) (c : channel)
    (m : channelize σ)
    (hown : c.currentReader.Reader = true) (hcomplete : c.currentReader.Complete = true)
    (h16 : c.currentReader.Length ≤ 65535) (hheld : m.dispatchCompleted = Gate.held)
    (hf1 : c.currentReader.Length ≤ fuel1) (hf2 : c.currentReader.Length ≤ fuel2) :
    ∃ e1 c1 m1, channel.Deplete cd env1 fuel1 c m = some (e1, c1, m1) ∧
      ∃ e2 c2 m2, channel.Done cd env2 fuel2 c1 m1 = some (e2, c2, m2) ∧
        m2.dispatchCompleted = Gate.free ∧ c2.currentReader.Reader = false := by
  obtain ⟨e1, c1, m1, hrun1, hown1, hcomp1, hle1, hgate1⟩ :=
    Deplete_owner cd hb hp env1 fuel1 c m hown (by omega) hf1
  refine ⟨e1, c1, m1, hrun1, ?_⟩
  obtain ⟨e2, c2, m2, hrun2, hown2, hcomp2, _, hgate2⟩ :=
    Deplete_owner cd hb hp env2 fuel2 c1 m1 hown1 (by omega) (by omega)
  have hg : m2.dispatchCompleted = Gate.held := by
    rw [hgate2, hgate1, hheld]
  have hc : c2.currentReader.Complete = true := by
    rw [hcomp2, hcomp1, hcomplete]
  unfold channel.Done
  rw [hrun2]
  simp only [hown2, hc, hg, if_true]
  exact ⟨_, _, _, rfl, rfl, rfl⟩

theorem Deplete_Done_frees_gate_witness :
    ∃ e1 c1 m1, channel.Deplete (chunkCodec 2) frameEnv 5 (ownerOf 1 5)
        (heldMux [7, 8, 9, 10, 11, 1, 0, 1, 9]) = some (e1, c1, m1) ∧
      ∃ e2 c2 m2, channel.Done (chunkCodec 2) frameEnv 5 c1 m1 = some (e2, c2, m2) ∧
        m2.dispatchCompleted = Gate.free ∧ c2.currentReader.Reader = false :=
  Deplete_Done_frees_gate (chunkCodec 2) (chunkCodec_bounded 2)
    (chunkCodec_progressive 2 (by decide)) frameEnv frameEnv 5 5 (ownerOf 1 5)
    (heldMux [7, 8, 9, 10, 11, 1, 0, 1, 9]) rfl rfl (by decide) rfl (by decide) (by decide)

/-! ## Bootup finalizes the channel -/

/-- C11: on every exit path of `tcpIPv4.Bootup` (request read failure, invalid
timeout, relay boot failure, success; which one is taken is decided by the
collaborators' answers `env`) `Done` is called on the channel exactly once, and
it is the first call made: before any response byte is written and before the
dialer and the relay are constructed. -/
theorem Bootup_done_once (env : BootupEnv) (c : tcp) (hbuf : 7 ≤ c.buf.length) :
    ∃ out, tcpIPv4.Bootup env c = some out ∧
      out.calls.count Call.Done = 1 ∧ out.calls.head? = some Call.Done ∧
      (env.rErr.isSome = true → out.calls = [Call.Done]) := by
  unfold tcpIPv4.Bootup
  rw [if_neg (by omega)]
  cases env.rErr with
  | some rErr => exact ⟨_, rfl, by simp, rfl, fun _ => rfl⟩
  | none =>
    simp only []
    split_ifs
    all_goals
      first
      | exact ⟨_, rfl, by simp, rfl, fun h => by cases h⟩
      | (cases env.bootErr <;> exact ⟨_, rfl, by simp, rfl, fun h => by cases h⟩)

theorem Bootup_done_once_witness :
    ∃ out, tcpIPv4.Bootup (envOf [10, 0, 0, 1, 31, 144, 0]) tcpOf10s = some out ∧
      out.calls.count Call.Done = 1 ∧ out.calls.head? = some Call.Done ∧
      ((envOf [10, 0, 0, 1, 31, 144, 0]).rErr.isSome = true → out.calls = [Call.Done]) :=
  Bootup_done_once (envOf [10, 0, 0, 1, 31, 144, 0]) tcpOf10s (by decide)

/-! ## Shutdown, For and the waits of Read -/

theorem Keeps_refl {σ : Type} (m : channelize σ) : Keeps m m :=
  ⟨rfl, rfl, rfl, rfl, rfl⟩

theorem Keeps_trans {σ : Type} {m m1 m2 : channelize σ} (h1 : Keeps m m1)
    (h2 : Keeps m1 m2) : Keeps m m2 :=
  ⟨h2.1.trans h1.1, h2.2.1.trans h1.2.1, h2.2.2.1.trans h1.2.2.1,
    h2.2.2.2.1.trans h1.2.2.2.1, h2.2.2.2.2.trans h1.2.2.2.2⟩

theorem Read_keeps {σ : Type} (cd : Codec σ) (env : ReadEnv) (c : channel)
    (m : channelize σ) (bLen : Nat) (out : ReadOut σ)
    (h : channel.Read cd env c m bLen = some out) : Keeps m out.m := by
  unfold channel.Read at h
  by_cases hR : c.currentReader.Reader = false
  · rw [if_pos hR] at h
    simp only [] at h
    split at h
    · cases h
      exact Keeps_refl m
    · split at h
      · split at h
        · cases h
          exact ⟨rfl, rfl, rfl, rfl, rfl⟩
        · cases h
      all_goals
        split at h
        · cases h
          exact Keeps_refl m
        · cases h
  · rw [if_neg hR] at h
    split at h
    · cases h
      exact Keeps_refl m
    · cases h
      exact ⟨rfl, rfl, rfl, rfl, rfl⟩

theorem depleteLoop_keeps {σ : Type} (cd : Codec σ) (env : ReadEnv) (dLen : Nat) :
    ∀ (fuel : Nat) (c : channel) (m : channelize σ) (e : Option Error) (c1 : channel)
      (m1 : channelize σ),
      channel.depleteLoop cd env dLen fuel c m = some (e, c1, m1) → Keeps m m1 := by
  intro fuel
  induction fuel with
  | zero =>
    intro c m e c1 m1 h
    cases h
  | succ fuel ih =>
    intro c m e c1 m1 h
    unfold channel.depleteLoop at h
    split at h
    · cases h
    · rename_i out hout
      have hk := Read_keeps cd env c m dLen out hout
      split_ifs at h
      · cases h
        exact hk
      · exact Keeps_trans hk (ih out.c out.m e c1 m1 h)
      · cases h
        exact hk

theorem Deplete_keeps {σ : Type} (cd : Codec σ) (env : ReadEnv) (fuel : Nat)
    (c : channel) (m : channelize σ) (e : Option Error) (c1 : channel)
    (m1 : channelize σ) (h : channel.Deplete cd env fuel c m = some (e, c1, m1)) :
    Keeps m m1 := by
  unfold channel.Deplete at h
  by_cases hdep : c.Depleted = true
  · rw [if_pos hdep] at h
    cases h
    exact Keeps_refl m
  · rw [if_neg hdep] at h
    exact depleteLoop_keeps cd env _ fuel c m e c1 m1 h

theorem Done_keeps {σ : Type} (cd : Codec σ) (env : ReadEnv) (fuel : Nat)
    (c : channel) (m : channelize σ) (e : Option Error) (c1 : channel)
    (m1 : channelize σ) (h : channel.Done cd env fuel c m = some (e, c1, m1)) :
    Keeps m m1 := by
  unfold channel.Done at h
  split at h
  · cases h
  · rename_i e1 c2 m2 hdep
    have hk := Deplete_keeps cd env fuel c m e1 c2 m2 hdep
    split_ifs at h
    · split at h
      · cases h
        exact ⟨hk.1, hk.2.1, hk.2.2.1, hk.2.2.2.1, hk.2.2.2.2⟩
      · cases h
        exact hk
      · cases h
    · cases h
      exact hk

theorem Dispatch_keeps {σ μ : Type} (cd : Codec σ) (channels : Channels μ)
    (s1 : DispatchSelect) (s2 : DeliverSelect) (m : channelize σ) (out : DispatchOut σ μ)
    (h : m.Dispatch cd s1 s2 channels = some out) : Keeps m out.m := by
  unfold channelize.Dispatch at h
  cases s1 with
  | closed =>
    simp only [] at h
    split_ifs at h
    cases h
    exact ⟨rfl, rfl, rfl, rfl, rfl⟩
  | down =>
    simp only [] at h
    split_ifs at h
    cases h
    exact ⟨rfl, rfl, rfl, rfl, rfl⟩
  | gate =>
    simp only [] at h
    by_cases hfree : m.dispatchCompleted = Gate.free
    swap
    · rw [if_neg hfree] at h
      cases h
    rw [if_pos hfree] at h
    split at h
    · cases h
      exact ⟨rfl, rfl, rfl, rfl, rfl⟩
    · split at h
      · cases h
        exact ⟨rfl, rfl, rfl, rfl, rfl⟩
      · by_cases hsize :
            (fill m.buf (cd.ReadFull m.conn 3).data).getD 0 0 % 256 ≥ channels.Size
        · rw [if_pos hsize] at h
          cases h
          exact ⟨rfl, rfl, rfl, rfl, rfl⟩
        · rw [if_neg hsize] at h
          split at h
          · cases h
          · cases h
            exact ⟨rfl, rfl, rfl, rfl, rfl⟩
          · split at h
            · split at h
              · cases h
              · cases h
                exact ⟨rfl, rfl, rfl, rfl, rfl⟩
            · split_ifs at h
              cases h
              exact ⟨rfl, rfl, rfl, rfl, rfl⟩
            · split_ifs at h
              cases h
              exact ⟨rfl, rfl, rfl, rfl, rfl⟩

theorem Step_keeps {σ μ : Type} (cd : Codec σ) (channels : Channels μ)
    (m m1 : channelize σ) (h : Step cd channels m m1) : Keeps m m1 := by
  cases h with
  | For id vc _ h =>
    unfold channelize.For at h
    split at h
    · cases h
    · cases h
      exact Keeps_refl m
    · cases h
      exact ⟨rfl, rfl, rfl, rfl, rfl⟩
  | Dispatch s1 s2 out h => exact Dispatch_keeps cd channels s1 s2 m out h
  | Read env id bLen out h =>
    unfold channelize.ReadAt at h
    split at h
    · rename_i c hslot
      split at h
      · rename_i out1 hread
        cases h
        exact Read_keeps cd env c m bLen out1 hread
      · cases h
    · cases h
  | Deplete env fuel id err _ h =>
    unfold channelize.DepleteAt at h
    split at h
    · rename_i c hslot
      split at h
      · rename_i e1 c1 m2 hdep
        cases h
        exact Deplete_keeps cd env fuel c m _ c1 m2 hdep
      · cases h
    · cases h
  | Done env fuel id err _ h =>
    unfold channelize.DoneAt at h
    split at h
    · rename_i c hslot
      split at h
      · rename_i e1 c1 m2 hdone
        cases h
        exact Done_keeps cd env fuel c m _ c1 m2 hdone
      · cases h
    · cases h

theorem Reachable_keeps {σ μ : Type} (cd : Codec σ) (channels : Channels μ)
    (m0 m : channelize σ) (h : Reachable cd channels m0 m) : Keeps m0 m := by
  induction h with
  | start => exact Keeps_refl m0
  | step m1 m2 _ hstep ih => exact Keeps_trans ih (Step_keeps cd channels m1 m2 hstep)

theorem map_none_eq {α β : Type} (l : List α) (b : β) :
    l.map (fun _ => b) = List.replicate l.length b := by
  induction l with
  | nil => rfl
  | cons a t ih => simp [List.replicate_succ, ih]

/-- C12: on a multiplexer that has not been shut down, `Shutdown` returns no
error, fires the shutdown signal and sets every slot to nil (as many slots as
before, all of them empty); in every state reached afterwards through `For`,
`Dispatch`, `Read`, `Deplete` and `Done`, and so also right away, `Shutdown`
returns `ErrChannelShuttedDown` and changes nothing. -/
theorem Shutdown_one_shot {σ μ : Type} (cd : Codec σ) (channels : Channels μ)
    (m : channelize σ) (hlive : m.downed = false) :
    m.Shutdown.1 = none ∧ m.Shutdown.2.downSignal = true ∧ m.Shutdown.2.downed = true ∧
    m.Shutdown.2.channels = List.replicate m.channels.length none ∧
    (∀ s ∈ m.Shutdown.2.channels, s = none) ∧
    ∀ m2, Reachable cd channels m.Shutdown.2 m2 →
      m2.Shutdown = (some Error.ErrChannelShuttedDown, m2) := by
  have hch : m.Shutdown.2.channels = List.replicate m.channels.length none := by
    unfold channelize.Shutdown
    rw [hlive]
    exact map_none_eq _ _
  have hdowned : m.Shutdown.2.downed = true := by
    unfold channelize.Shutdown
    rw [hlive]
    rfl
  refine ⟨?_, ?_, hdowned, hch, ?_, ?_⟩
  · unfold channelize.Shutdown
    rw [hlive]
    rfl
  · unfold channelize.Shutdown
    rw [hlive]
    rfl
  · intro s hs
    rw [hch] at hs
    exact (List.mem_replicate.mp hs).2
  · intro m2 hreach
    have hk := Reachable_keeps cd channels _ m2 hreach
    have hdown : m2.downed = true := by
      rw [hk.1, hdowned]
    unfold channelize.Shutdown
    rw [hdown]
    rfl

theorem Shutdown_one_shot_witness :
    (muxWith [7, 8, 9] [1]).Shutdown.1 = none ∧
    (muxWith [7, 8, 9] [1]).Shutdown.2.downSignal = true ∧
    (muxWith [7, 8, 9] [1]).Shutdown.2.downed = true ∧
    (muxWith [7, 8, 9] [1]).Shutdown.2.channels =
      List.replicate (muxWith [7, 8, 9] [1]).channels.length none ∧
    (∀ s ∈ (muxWith [7, 8, 9] [1]).Shutdown.2.channels, s = none) ∧
    ∀ m2, Reachable (chunkCodec 4) (plainChannels 4) (muxWith [7, 8, 9] [1]).Shutdown.2 m2 →
      m2.Shutdown = (some Error.ErrChannelShuttedDown, m2) :=
  Shutdown_one_shot (chunkCodec 4) (plainChannels 4) (muxWith [7, 8, 9] [1]) rfl

/-- C13: for a channel ID `id` below the number of slots, `For(id)` returns a
channel that afterwards sits in slot `id`.  On a nil slot it is a new channel
carrying `id`, with no frame, and only slot `id` changes.  On a filled slot it
is the channel of the slot and the multiplexer is unchanged; so every further
`For(id)` returns the same channel and changes nothing. -/
theorem For_create_or_fetch {σ : Type} (m : channelize σ) (id : Nat)
    (hid : id < m.channels.length) :
    ∃ vc m1, m.For id = some (vc, m1) ∧ m1.channels[id]? = some (some vc) ∧
      (m.channels[id]? = some none →
        vc.id = id ∧ vc.connReader = none ∧ vc.currentReader.Reader = false ∧
        m1.channels = m.channels.set id (some vc) ∧
        (∀ j, j ≠ id → m1.channels[j]? = m.channels[j]?) ∧
        Keeps m m1 ∧ m1.dispatchCompleted = m.dispatchCompleted) ∧
      (∀ vc0, m.channels[id]? = some (some vc0) → vc = vc0 ∧ m1 = m) ∧
      m1.For id = some (vc, m1) := by
  unfold channelize.For
  cases hslot : m.channels[id]? with
  | none =>
    rw [List.getElem?_eq_none_iff] at hslot
    omega
  | some slot =>
    cases slot with
    | some vc0 =>
      refine ⟨vc0, m, rfl, hslot, ?_, ?_, ?_⟩
      · intro h
        cases h
      · intro vc1 h
        cases h
        exact ⟨rfl, rfl⟩
      · simp only [hslot]
    | none =>
      simp only []
      refine ⟨_, _, rfl, List.getElem?_set_self hid, ?_, ?_, ?_⟩
      · intro _
        refine ⟨rfl, rfl, rfl, rfl, ?_, ⟨rfl, rfl, rfl, rfl, rfl⟩, rfl⟩
        intro j hj
        exact List.getElem?_set_ne (Ne.symm hj)
      · intro vc1 h
        cases h
      · simp only [List.getElem?_set_self hid]

theorem For_create_or_fetch_witness :
    ∃ vc m1, (Channelize 4 [7, 8, 9] false).For 1 = some (vc, m1) ∧
      m1.channels[1]? = some (some vc) ∧
      ((Channelize 4 [7, 8, 9] false).channels[1]? = some none →
        vc.id = 1 ∧ vc.connReader = none ∧ vc.currentReader.Reader = false ∧
        m1.channels = (Channelize 4 [7, 8, 9] false).channels.set 1 (some vc) ∧
        (∀ j, j ≠ 1 → m1.channels[j]? = (Channelize 4 [7, 8, 9] false).channels[j]?) ∧
        Keeps (Channelize 4 [7, 8, 9] false) m1 ∧
        m1.dispatchCompleted = (Channelize 4 [7, 8, 9] false).dispatchCompleted) ∧
      (∀ vc0, (Channelize 4 [7, 8, 9] false).channels[1]? = some (some vc0) →
        vc = vc0 ∧ m1 = Channelize 4 [7, 8, 9] false) ∧
      m1.For 1 = some (vc, m1) :=
  For_create_or_fetch (Channelize 4 [7, 8, 9] false) 1 (by decide)

/-- C14: a channel that owns no frame and has none in its inbox waits in `Read`.
When only the deadline fires the `Read` returns 0 bytes and
`ErrChannelVirtualConnectionTimedout`; when only the shutdown signal has fired,
whether or not a deadline is armed, it returns `ErrChannelShuttedDown` unless the
deadline is what ends the wait; when only the connection-closed signal has
fired it returns `ErrChannelConnectionDropped` in the same way.  In each case
channel and multiplexer are left as they were, so a later `Read` waits again in
the same way. -/
theorem Read_wait_events {σ : Type} (cd : Codec σ) (c : channel) (m : channelize σ)
    (bLen : Nat) (pick : ReadSelect)
    (hfree : c.currentReader.Reader = false) (hinbox : c.connReader = none) :
    (0 < c.timeout → c.timeoutTicker = true → m.connClosed = false →
      m.downSignal = false →
      channel.Read cd ⟨none, ReadSelect.timeout⟩ c m bLen =
        some (waitFailed Error.ErrChannelVirtualConnectionTimedout c m) ∧
      ∀ out, channel.Read cd ⟨none, pick⟩ c m bLen = some out →
        out = waitFailed Error.ErrChannelVirtualConnectionTimedout c m) ∧
    (m.downSignal = true → m.connClosed = false →
      channel.Read cd ⟨none, ReadSelect.down⟩ c m bLen =
        some (waitFailed Error.ErrChannelShuttedDown c m) ∧
      ∀ out, pick ≠ ReadSelect.timeout →
        channel.Read cd ⟨none, pick⟩ c m bLen = some out →
        out = waitFailed Error.ErrChannelShuttedDown c m) ∧
    (m.connClosed = true → m.downSignal = false →
      channel.Read cd ⟨none, ReadSelect.closed⟩ c m bLen =
        some (waitFailed Error.ErrChannelConnectionDropped c m) ∧
      ∀ out, pick ≠ ReadSelect.timeout →
        channel.Read cd ⟨none, pick⟩ c m bLen = some out →
        out = waitFailed Error.ErrChannelConnectionDropped c m) := by
  refine ⟨?_, ?_, ?_⟩
  · intro hpos htk hclosed hdown
    have hpos2 : c.timeout > 0 := hpos
    refine ⟨?_, ?_⟩
    · unfold channel.Read
      simp [hfree, hpos2, htk, waitFailed, channel.deadline]
    · intro out h
      unfold channel.Read at h
      cases pick <;>
        simp [hfree, hpos2, htk, hinbox, hclosed, hdown, waitFailed, channel.deadline] at h ⊢
      exact h.symm
  · intro hdown hclosed
    refine ⟨?_, ?_⟩
    · unfold channel.Read
      simp [hfree, hdown, waitFailed, channel.deadline]
    · intro out hne h
      unfold channel.Read at h
      cases pick <;>
        simp [hfree, hinbox, hclosed, hdown, waitFailed, channel.deadline] at h ⊢
      · exact h.symm
      · exact absurd rfl hne
  · intro hclosed hdown
    refine ⟨?_, ?_⟩
    · unfold channel.Read
      simp [hfree, hclosed, waitFailed, channel.deadline]
    · intro out hne h
      unfold channel.Read at h
      cases pick <;>
        simp [hfree, hinbox, hclosed, hdown, waitFailed, channel.deadline] at h ⊢
      · exact h.symm
      · exact absurd rfl hne

theorem Read_wait_events_witness :
    (0 < waitingChannel.timeout → waitingChannel.timeoutTicker = true →
      (muxWith [7, 8, 9] [1]).connClosed = false →
      (muxWith [7, 8, 9] [1]).downSignal = false →
      channel.Read (chunkCodec 4) ⟨none, ReadSelect.timeout⟩ waitingChannel
          (muxWith [7, 8, 9] [1]) 5 =
        some (waitFailed Error.ErrChannelVirtualConnectionTimedout waitingChannel
          (muxWith [7, 8, 9] [1])) ∧
      ∀ out, channel.Read (chunkCodec 4) ⟨none, ReadSelect.frame⟩ waitingChannel
          (muxWith [7, 8, 9] [1]) 5 = some out →
        out = waitFailed Error.ErrChannelVirtualConnectionTimedout waitingChannel
          (muxWith [7, 8, 9] [1])) ∧
    ((muxWith [7, 8, 9] [1]).downSignal = true →
      (muxWith [7, 8, 9] [1]).connClosed = false →
      channel.Read (chunkCodec 4) ⟨none, ReadSelect.down⟩ waitingChannel
          (muxWith [7, 8, 9] [1]) 5 =
        some (waitFailed Error.ErrChannelShuttedDown waitingChannel
          (muxWith [7, 8, 9] [1])) ∧
      ∀ out, ReadSelect.frame ≠ ReadSelect.timeout →
        channel.Read (chunkCodec 4) ⟨none, ReadSelect.frame⟩ waitingChannel
          (muxWith [7, 8, 9] [1]) 5 = some out →
        out = waitFailed Error.ErrChannelShuttedDown waitingChannel
          (muxWith [7, 8, 9] [1])) ∧
    ((muxWith [7, 8, 9] [1]).connClosed = true →
      (muxWith [7, 8, 9] [1]).downSignal = false →
      channel.Read (chunkCodec 4) ⟨none, ReadSelect.closed⟩ waitingChannel
          (muxWith [7, 8, 9] [1]) 5 =
        some (waitFailed Error.ErrChannelConnectionDropped waitingChannel
          (muxWith [7, 8, 9] [1])) ∧
      ∀ out, ReadSelect.frame ≠ ReadSelect.timeout →
        channel.Read (chunkCodec 4) ⟨none, ReadSelect.frame⟩ waitingChannel
          (muxWith [7, 8, 9] [1]) 5 = some out →
        out = waitFailed Error.ErrChannelConnectionDropped waitingChannel
          (muxWith [7, 8, 9] [1])) :=
  Read_wait_events (chunkCodec 4) waitingChannel (muxWith [7, 8, 9] [1]) 5
    ReadSelect.frame rfl rfl

/-! ## The default timeout -/

theorem Read_armed_waiting {σ : Type} (cd : Codec σ) (env : ReadEnv) (c : channel)
    (m : channelize σ) (bLen : Nat) (out : ReadOut σ)
    (hfree : c.currentReader.Reader = false)
    (h : channel.Read cd env c m bLen = some out) : out.armed = c.deadline := by
  unfold channel.Read at h
  rw [if_pos hfree] at h
  simp only [] at h
  split at h
  · cases h
    rfl
  · split at h
    · split at h
      · cases h
        rfl
      · cases h
    all_goals
      split at h
      · rename_i hh
        cases h
        first
        | rfl
        | simp [channel.deadline, hh]
      · cases h

/-- C15 (as stated) fails for a channel created before the call: channel 1 is
created by `For` on a new multiplexer with a ticker, then `Timeout` sets five
seconds; `For(1)` still returns the channel with timeout 0, a frame is routed
to it, and its `Read` returns the two bytes having requested no deadline at
all; a `Read` of it that waits can never end by the deadline. -/
theorem Timeout_counterexample :
    ∃ vc m1 dout rout,
      (Channelize 4 [1, 0, 2, 7, 8] true).For 1 = some (vc, m1) ∧
      (m1.Timeout (chunkCodec 4) (5 * Second)).timeout = 5 * Second ∧
      (m1.Timeout (chunkCodec 4) (5 * Second)).For 1 =
        some (vc, m1.Timeout (chunkCodec 4) (5 * Second)) ∧
      vc.timeout = 0 ∧
      channel.Read (chunkCodec 4) ⟨none, ReadSelect.timeout⟩ vc
        (m1.Timeout (chunkCodec 4) (5 * Second)) 5 = none ∧
      (m1.Timeout (chunkCodec 4) (5 * Second)).Dispatch (chunkCodec 4) DispatchSelect.gate
        DeliverSelect.deliver (plainChannels 4) = some dout ∧
      dout.m.ReadAt (chunkCodec 4) frameEnv 1 5 = some rout ∧
      rout.data = [7, 8] ∧ rout.armed = none :=
  ⟨_, _, _, _, rfl, rfl, rfl, rfl, rfl, rfl, rfl, rfl, rfl⟩

/-- C15 (as amended): after `Timeout(d)` on the multiplexer, a channel that `For`
creates carries `d` as its timeout, and as long as it keeps that timeout (it
has not set its own) every `Read` of it that waits for a frame requests its
deadline with `d` when `d` is positive and the multiplexer has a ticker, and
requests none otherwise. -/
theorem Timeout_default_for_new_channels {σ : Type} (cd : Codec σ) (m : channelize σ)
    (d : Int) (id : Nat) (hslot : (m.Timeout cd d).channels[id]? = some none) :
    ∃ vc m1, (m.Timeout cd d).For id = some (vc, m1) ∧
      vc.timeout = d ∧ vc.timeoutTicker = m.timeoutTicker ∧
      ∀ (c : channel) (m2 : channelize σ) (env : ReadEnv) (bLen : Nat) (out : ReadOut σ),
        c.timeout = vc.timeout → c.timeoutTicker = vc.timeoutTicker →
        c.currentReader.Reader = false →
        channel.Read cd env c m2 bLen = some out →
        out.armed = if 0 < d ∧ m.timeoutTicker = true then some d else none := by
  unfold channelize.For
  simp only [hslot]
  refine ⟨_, _, rfl, rfl, rfl, ?_⟩
  intro c m2 env bLen out ht htk hfree hread
  rw [Read_armed_waiting cd env c m2 bLen out hfree hread]
  unfold channel.deadline
  rw [ht, htk]
  simp only [channelize.Timeout]
  by_cases hd : 0 < d <;> cases m.timeoutTicker <;> simp [hd]

theorem Timeout_default_for_new_channels_witness :
    ∃ vc m1, ((Channelize 4 [1, 0, 2, 7, 8] true).Timeout (chunkCodec 4) (5 * Second)).For 1
        = some (vc, m1) ∧
      vc.timeout = 5 * Second ∧
      vc.timeoutTicker = (Channelize 4 [1, 0, 2, 7, 8] true).timeoutTicker ∧
      ∀ (c : channel) (m2 : channelize (List Nat)) (env : ReadEnv) (bLen : Nat)
        (out : ReadOut (List Nat)),
        c.timeout = vc.timeout → c.timeoutTicker = vc.timeoutTicker →
        c.currentReader.Reader = false →
        channel.Read (chunkCodec 4) env c m2 bLen = some out →
        out.armed = if 0 < 5 * Second ∧
            (Channelize 4 [1, 0, 2, 7, 8] true).timeoutTicker = true
          then some (5 * Second) else none :=
  Timeout_default_for_new_channels (chunkCodec 4) (Channelize 4 [1, 0, 2, 7, 8] true)
    (5 * Second) 1 rfl

/-! ## Done and the error of Deplete -/

theorem Read_owner_stays {σ : Type} (cd : Codec σ) (env : ReadEnv) (c : channel)
    (m : channelize σ) (bLen : Nat) (out : ReadOut σ)
    (hown : c.currentReader.Reader = true)
    (h : channel.Read cd env c m bLen = some out) :
    out.c.currentReader.Reader = true := by
  unfold channel.Read at h
  rw [if_neg (by simp [hown])] at h
  split at h
  · cases h
    exact hown
  · cases h
    exact hown

theorem depleteLoop_owner_stays {σ : Type} (cd : Codec σ) (env : ReadEnv) (dLen : Nat) :
    ∀ (fuel : Nat) (c : channel) (m : channelize σ) (e : Option Error) (c1 : channel)
      (m1 : channelize σ),
      c.currentReader.Reader = true →
      channel.depleteLoop cd env dLen fuel c m = some (e, c1, m1) →
      c1.currentReader.Reader = true := by
  intro fuel
  induction fuel with
  | zero =>
    intro c m e c1 m1 _ h
    cases h
  | succ fuel ih =>
    intro c m e c1 m1 hown h
    unfold channel.depleteLoop at h
    split at h
    · cases h
    · rename_i out hout
      have ho := Read_owner_stays cd env c m dLen out hown hout
      split_ifs at h
      · cases h
        exact ho
      · exact ih out.c out.m e c1 m1 ho h
      · cases h
        exact ho

theorem Read_idle {σ : Type} (cd : Codec σ) (env : ReadEnv) (c : channel)
    (m : channelize σ) (bLen : Nat) (out : ReadOut σ)
    (hfree : c.currentReader.Reader = false) (hinbox : c.connReader = none)
    (h : channel.Read cd env c m bLen = some out) : out.c = c ∧ out.m = m := by
  unfold channel.Read at h
  rw [if_pos hfree] at h
  simp only [] at h
  split at h
  · cases h
    exact ⟨rfl, rfl⟩
  · split at h
    · rw [hinbox] at h
      cases h
    all_goals
      split at h
      · cases h
        exact ⟨rfl, rfl⟩
      · cases h

theorem depleteLoop_idle {σ : Type} (cd : Codec σ) (env : ReadEnv) (dLen : Nat) :
    ∀ (fuel : Nat) (c : channel) (m : channelize σ) (e : Option Error) (c1 : channel)
      (m1 : channelize σ),
      c.currentReader.Reader = false → c.connReader = none →
      channel.depleteLoop cd env dLen fuel c m = some (e, c1, m1) → c1 = c ∧ m1 = m := by
  intro fuel
  induction fuel with
  | zero =>
    intro c m e c1 m1 _ _ h
    cases h
  | succ fuel ih =>
    intro c m e c1 m1 hfree hinbox h
    unfold channel.depleteLoop at h
    split at h
    · cases h
    · rename_i out hout
      obtain ⟨hc, hm⟩ := Read_idle cd env c m dLen out hfree hinbox hout
      split_ifs at h
      · cases h
        exact ⟨hc, hm⟩
      · obtain ⟨h1, h2⟩ := ih out.c out.m e c1 m1 (hc ▸ hfree) (hc ▸ hinbox) h
        exact ⟨h1.trans hc, h2.trans hm⟩
      · cases h
        exact ⟨hc, hm⟩

/-- C17: let the `Deplete` step of `Done` return the error `e` (nil or not).  Then
`Done` returns exactly `e` whenever it returns.  If the channel owns a frame
when `Done` checks it, which is so whenever it owned one at the call, `Done`
drops the ownership and receives the completion token: a held gate becomes
free, for `e` nil and non-nil alike.  If it owns none, which is so whenever it
owned none at the call and its remaining count was 0 or its inbox was empty,
`Done` returns `e` and leaves channel, gate and multiplexer as they were. -/
theorem Done_surfaces_Deplete {σ : Type} (cd : Codec σ) (env : ReadEnv) (fuel : Nat)
    (c : channel) (m : channelize σ) (e : Option Error) (c1 : channel)
    (m1 : channelize σ) (hdep : channel.Deplete cd env fuel c m = some (e, c1, m1)) :
    (∀ e2 c2 m2, channel.Done cd env fuel c m = some (e2, c2, m2) →
      e2 = e ∧ c2.currentReader.Reader = false) ∧
    (c1.currentReader.Reader = true → c1.currentReader.Complete = true →
      m1.dispatchCompleted = Gate.held →
      channel.Done cd env fuel c m = some (e, c1.dropped, m1.released)) ∧
    (c1.currentReader.Reader = true → c1.currentReader.Complete = true →
      m1.dispatchCompleted = Gate.closed →
      channel.Done cd env fuel c m = some (e, c1.dropped, m1)) ∧
    (c1.currentReader.Reader = false →
      channel.Done cd env fuel c m = some (e, c1, m1)) ∧
    (c.currentReader.Reader = true → c1.currentReader.Reader = true) ∧
    (c.currentReader.Reader = false → c.currentReader.Length = 0 →
      e = none ∧ c1 = c ∧ m1 = m) ∧
    (c.currentReader.Reader = false → c.connReader = none → c1 = c ∧ m1 = m) := by
  refine ⟨?_, ?_, ?_, ?_, ?_, ?_, ?_⟩
  · intro e2 c2 m2 h
    unfold channel.Done at h
    rw [hdep] at h
    simp only [] at h
    split_ifs at h with hR hC
    · split at h
      · cases h
        exact ⟨rfl, rfl⟩
      · cases h
        exact ⟨rfl, rfl⟩
      · cases h
    · cases h
      exact ⟨rfl, by simpa using hR⟩
  · intro hR hC hheld
    unfold channel.Done
    rw [hdep]
    simp only []
    rw [if_pos hR, if_pos hC]
    simp only [hheld]
    rfl
  · intro hR hC hclosed
    unfold channel.Done
    rw [hdep]
    simp only []
    rw [if_pos hR, if_pos hC]
    simp only [hclosed]
    rfl
  · intro hR
    unfold channel.Done
    rw [hdep]
    simp [hR]
  · intro hown
    unfold channel.Deplete at hdep
    by_cases hd : c.Depleted = true
    · rw [if_pos hd] at hdep
      cases hdep
      exact hown
    · rw [if_neg hd] at hdep
      exact depleteLoop_owner_stays cd env _ fuel c m e c1 m1 hown hdep
  · intro _ hzero
    unfold channel.Deplete at hdep
    have hd : c.Depleted = true := by
      unfold channel.Depleted
      simp [hzero]
    rw [if_pos hd] at hdep
    cases hdep
    exact ⟨rfl, rfl, rfl⟩
  · intro hfree hinbox
    unfold channel.Deplete at hdep
    by_cases hd : c.Depleted = true
    · rw [if_pos hd] at hdep
      cases hdep
      exact ⟨rfl, rfl⟩
    · rw [if_neg hd] at hdep
      exact depleteLoop_idle cd env _ fuel c m e c1 m1 hfree hinbox hdep

theorem Done_surfaces_Deplete_witness :
    (∀ e2 c2 m2, channel.Done faultyCodec frameEnv 5 (ownerOf 1 5) (heldWire [true])
        = some (e2, c2, m2) →
      e2 = some (Error.collaborator 1) ∧ c2.currentReader.Reader = false) ∧
    ((ownerOf 1 5).currentReader.Reader = true →
      (ownerOf 1 5).currentReader.Complete = true →
      (heldWire []).dispatchCompleted = Gate.held →
      channel.Done faultyCodec frameEnv 5 (ownerOf 1 5) (heldWire [true]) =
        some (some (Error.collaborator 1), (ownerOf 1 5).dropped, (heldWire []).released)) ∧
    ((ownerOf 1 5).currentReader.Reader = true →
      (ownerOf 1 5).currentReader.Complete = true →
      (heldWire []).dispatchCompleted = Gate.closed →
      channel.Done faultyCodec frameEnv 5 (ownerOf 1 5) (heldWire [true]) =
        some (some (Error.collaborator 1), (ownerOf 1 5).dropped, heldWire [])) ∧
    ((ownerOf 1 5).currentReader.Reader = false →
      channel.Done faultyCodec frameEnv 5 (ownerOf 1 5) (heldWire [true]) =
        some (some (Error.collaborator 1), ownerOf 1 5, heldWire [])) ∧
    ((ownerOf 1 5).currentReader.Reader = true →
      (ownerOf 1 5).currentReader.Reader = true) ∧
    ((ownerOf 1 5).currentReader.Reader = false →
      (ownerOf 1 5).currentReader.Length = 0 →
      some (Error.collaborator 1) = none ∧ ownerOf 1 5 = ownerOf 1 5 ∧
        heldWire [] = heldWire [true]) ∧
    ((ownerOf 1 5).currentReader.Reader = false → (ownerOf 1 5).connReader = none →
      ownerOf 1 5 = ownerOf 1 5 ∧ heldWire [] = heldWire [true]) :=
  Done_surfaces_Deplete faultyCodec frameEnv 5 (ownerOf 1 5) (heldWire [true])
    (some (Error.collaborator 1)) (ownerOf 1 5) (heldWire []) rfl

/-! ## The balance of the dispatch gate -/

/-- C20: a `Dispatch` that starts with the gate free and returns leaves the gate
held exactly when it returns no error.  On every error return the gate is not
held: it is free again (header read failure, registry lookup failure,
unavailable channel), or it is closed while the signal that caused the return
(connection dropped, shutdown) stays fired, and then the following `Dispatch`
returns as well instead of blocking on the gate. -/
theorem Dispatch_gate_balance {σ μ : Type} (cd : Codec σ) (channels : Channels μ)
    (s1 : DispatchSelect) (s2 : DeliverSelect) (m : channelize σ) (out : DispatchOut σ μ)
    (hfree : m.dispatchCompleted = Gate.free)
    (h : m.Dispatch cd s1 s2 channels = some out) :
    (out.err = none ↔ out.m.dispatchCompleted = Gate.held) ∧
    (out.err.isSome = true →
      out.m.dispatchCompleted = Gate.free ∨
      (out.m.dispatchCompleted = Gate.closed ∧
        (out.m.connClosed = true ∨ out.m.downSignal = true))) ∧
    (out.m.dispatchCompleted = Gate.closed →
      ∃ s3 out2, out.m.Dispatch cd s3 s2 channels = some out2 ∧ out2.err.isSome = true) := by
  have hmain : (out.err = none ↔ out.m.dispatchCompleted = Gate.held) ∧
      (out.err.isSome = true →
        out.m.dispatchCompleted = Gate.free ∨
        (out.m.dispatchCompleted = Gate.closed ∧
          (out.m.connClosed = true ∨ out.m.downSignal = true))) := by
    unfold channelize.Dispatch at h
    cases s1 with
    | closed =>
      simp only [] at h
      split_ifs at h with hc
      cases h
      simp [hc]
    | down =>
      simp only [] at h
      split_ifs at h with hd
      cases h
      simp [hd]
    | gate =>
      simp only [] at h
      rw [if_pos hfree] at h
      split at h
      · cases h
        simp
      · split at h
        · cases h
          simp
        · by_cases hsize :
              (fill m.buf (cd.ReadFull m.conn 3).data).getD 0 0 % 256 ≥ channels.Size
          · rw [if_pos hsize] at h
            cases h
            simp
          · rw [if_neg hsize] at h
            split at h
            · cases h
            · cases h
              simp
            · split at h
              · split at h
                · cases h
                · cases h
                  simp
              · split_ifs at h with hc
                cases h
                simp [hc]
              · split_ifs at h with hd
                cases h
                simp [hd]
  refine ⟨hmain.1, hmain.2, ?_⟩
  intro hclosed
  have herr : out.err.isSome = true := by
    cases herr : out.err with
    | some e => rfl
    | none =>
      have := hmain.1.mp herr
      rw [hclosed] at this
      cases this
  rcases hmain.2 herr with hf | ⟨_, hc | hd⟩
  · rw [hclosed] at hf
    cases hf
  · refine ⟨DispatchSelect.closed, ?_⟩
    unfold channelize.Dispatch
    simp only [hc, if_true]
    exact ⟨_, rfl, rfl⟩
  · refine ⟨DispatchSelect.down, ?_⟩
    unfold channelize.Dispatch
    simp only [hd, if_true]
    exact ⟨_, rfl, rfl⟩

theorem Dispatch_gate_balance_witness :
    (refusedOut.err = none ↔ refusedOut.m.dispatchCompleted = Gate.held) ∧
    (refusedOut.err.isSome = true →
      refusedOut.m.dispatchCompleted = Gate.free ∨
      (refusedOut.m.dispatchCompleted = Gate.closed ∧
        (refusedOut.m.connClosed = true ∨ refusedOut.m.downSignal = true))) ∧
    (refusedOut.m.dispatchCompleted = Gate.closed →
      ∃ s3 out2, refusedOut.m.Dispatch (chunkCodec 4) s3 DeliverSelect.deliver
        (plainChannels 4) = some out2 ∧ out2.err.isSome = true) :=
  Dispatch_gate_balance (chunkCodec 4) (plainChannels 4) DispatchSelect.gate
    DeliverSelect.deliver (muxWith [3, 0, 2, 7, 8] [1]) refusedOut rfl rfl

/-! ## Deplete reads in bounded chunks -/

theorem readSegment_asks (c : channel) (bLen : Nat) :
    (if c.currentReader.Length > (if bLen > MaxUint16 then MaxUint16 else bLen) % 65536
      then (if bLen > MaxUint16 then MaxUint16 else bLen) % 65536
      else c.currentReader.Length) ≤ bLen := by
  unfold MaxUint16
  split_ifs <;> omega

theorem Read_journal {σ : Type} (cd : Codec σ) (env : ReadEnv) (c : channel)
    (m : channelize (σ × List (Nat × Nat))) (bLen : Nat)
    (out : ReadOut (σ × List (Nat × Nat)))
    (h : channel.Read cd.logged env c m bLen = some out) :
    ∃ reqs, out.m.conn.2 = m.conn.2 ++ reqs ∧ ∀ q ∈ reqs, q.1 ≤ bLen := by
  have hseg : ∀ (c1 : channel) (armed : Option Int),
      ∃ reqs, (channel.readSegment cd.logged c1 m bLen armed).m.conn.2 = m.conn.2 ++ reqs ∧
        ∀ q ∈ reqs, q.1 ≤ bLen := by
    intro c1 armed
    refine ⟨[(_, _)], rfl, ?_⟩
    intro q hq
    rw [List.mem_singleton] at hq
    subst hq
    exact readSegment_asks c1 bLen
  have hsame : ∃ reqs, m.conn.2 = m.conn.2 ++ reqs ∧ ∀ q ∈ reqs, q.1 ≤ bLen :=
    ⟨[], by simp, by simp⟩
  unfold channel.Read at h
  by_cases hR : c.currentReader.Reader = false
  · rw [if_pos hR] at h
    simp only [] at h
    split at h
    · cases h
      exact hsame
    · split at h
      · split at h
        · cases h
          exact hseg _ _
        · cases h
      all_goals
        split at h
        · cases h
          exact hsame
        · cases h
  · rw [if_neg hR] at h
    split at h
    · cases h
      exact hsame
    · cases h
      exact hseg _ _

theorem depleteLoop_journal {σ : Type} (cd : Codec σ) (env : ReadEnv) (dLen : Nat) :
    ∀ (fuel : Nat) (c : channel) (m : channelize (σ × List (Nat × Nat)))
      (e : Option Error) (c1 : channel) (m1 : channelize (σ × List (Nat × Nat))),
      channel.depleteLoop cd.logged env dLen fuel c m = some (e, c1, m1) →
      ∃ reqs, m1.conn.2 = m.conn.2 ++ reqs ∧ ∀ q ∈ reqs, q.1 ≤ dLen := by
  intro fuel
  induction fuel with
  | zero =>
    intro c m e c1 m1 h
    cases h
  | succ fuel ih =>
    intro c m e c1 m1 h
    unfold channel.depleteLoop at h
    split at h
    · cases h
    · rename_i out hout
      have hj := Read_journal cd env c m dLen out hout
      split_ifs at h
      · cases h
        exact hj
      · obtain ⟨r1, h1, b1⟩ := hj
        obtain ⟨r2, h2, b2⟩ := ih out.c out.m e c1 m1 h
        refine ⟨r1 ++ r2, ?_, ?_⟩
        · rw [h2, h1, List.append_assoc]
        · intro q hq
          rcases List.mem_append.mp hq with hq1 | hq2
          · exact b1 q hq1
          · exact b2 q hq2
      · cases h
        exact hj

theorem Read_reliable {σ : Type} (cd : Codec σ) (hcd : cd.Reliable) (env : ReadEnv)
    (c : channel) (m : channelize (σ × List (Nat × Nat))) (bLen : Nat)
    (hown : c.currentReader.Reader = true) (hpos : 1 ≤ c.currentReader.Length)
    (h16 : c.currentReader.Length < 65536) (hb : 1 ≤ bLen) :
    ∃ out k a, channel.Read cd.logged env c m bLen = some out ∧ out.err = none ∧
      out.c.currentReader.Reader = true ∧ 1 ≤ k ∧ k ≤ c.currentReader.Length ∧
      out.c.currentReader.Length = c.currentReader.Length - k ∧
      out.m.conn.2 = m.conn.2 ++ [(a, k)] := by
  have hdep : c.Depleted = false := by
    unfold channel.Depleted
    simp
    omega
  have hread : channel.Read cd.logged env c m bLen =
      some (channel.readSegment cd.logged c m bLen none) := by
    unfold channel.Read
    simp [hown, hdep]
  have hask1 : 1 ≤ (if c.currentReader.Length >
        (if bLen > MaxUint16 then MaxUint16 else bLen) % 65536
      then (if bLen > MaxUint16 then MaxUint16 else bLen) % 65536
      else c.currentReader.Length) := by
    unfold MaxUint16
    split_ifs <;> omega
  have hask2 : (if c.currentReader.Length >
        (if bLen > MaxUint16 then MaxUint16 else bLen) % 65536
      then (if bLen > MaxUint16 then MaxUint16 else bLen) % 65536
      else c.currentReader.Length) ≤ c.currentReader.Length := by
    split_ifs <;> omega
  obtain ⟨hnone, hk1, hk2⟩ := hcd m.conn.1 _ hask1
  refine ⟨_, _, _, hread, ?_, hown, hk1, le_trans hk2 hask2, ?_, rfl⟩
  · exact hnone
  · simp only [channel.readSegment, Codec.logged]
    omega

theorem depleteLoop_reliable {σ : Type} (cd : Codec σ) (hcd : cd.Reliable)
    (env : ReadEnv) (dLen : Nat) (hd : 1 ≤ dLen) :
    ∀ (fuel : Nat) (c : channel) (m : channelize (σ × List (Nat × Nat))),
      c.currentReader.Reader = true → 1 ≤ c.currentReader.Length →
      c.currentReader.Length < 65536 → c.currentReader.Length ≤ fuel →
      ∃ c1 m1 reqs, channel.depleteLoop cd.logged env dLen fuel c m = some (none, c1, m1) ∧
        c1.currentReader.Length = 0 ∧ m1.conn.2 = m.conn.2 ++ reqs ∧
        (reqs.map Prod.snd).sum = c.currentReader.Length := by
  intro fuel
  induction fuel with
  | zero =>
    intro c m _ hpos _ hfuel
    omega
  | succ fuel ih =>
    intro c m hown hpos h16 hfuel
    obtain ⟨out, k, a, hread, herr, hown1, hk1, hk2, hlen, hlog⟩ :=
      Read_reliable cd hcd env c m dLen hown hpos h16 hd
    unfold channel.depleteLoop
    rw [hread]
    simp only [herr, Option.isSome_none, Bool.false_eq_true, if_false]
    by_cases hdep : out.c.Depleted = true
    · rw [if_neg (by simp [hdep])]
      have hzero : out.c.currentReader.Length = 0 := by
        unfold channel.Depleted at hdep
        simpa using hdep
      refine ⟨out.c, out.m, [(a, k)], rfl, hzero, hlog, ?_⟩
      simp only [List.map_cons, List.map_nil, List.sum_cons, List.sum_nil]
      omega
    · rw [if_pos (by simp [hdep])]
      have hpos1 : 1 ≤ out.c.currentReader.Length := by
        unfold channel.Depleted at hdep
        simp at hdep
        omega
      obtain ⟨c1, m1, reqs, hrun, hz, hl, hsum⟩ :=
        ih out.c out.m hown1 hpos1 (by omega) (by omega)
      refine ⟨c1, m1, (a, k) :: reqs, hrun, hz, ?_, ?_⟩
      · rw [hl, hlog]
        simp
      · simp only [List.map_cons, List.sum_cons, hsum]
        omega

/-- C16: `Deplete` on a channel that owns a frame with remaining count `r`, run
over a decoder that keeps a journal of its reads.  When `r = 0` it returns nil
without any read.  Whatever it returns, every read it issued asked for at most
`min(r, 256)` bytes.  With a decoder that never fails and stores at least one
byte per read, a loop budget of `r` suffices for it to return nil with the
remaining count at 0 after reads that stored exactly `r` bytes in total. -/
theorem Deplete_bounded_chunks {σ : Type} (cd : Codec σ) (env : ReadEnv) (fuel : Nat)
    (c : channel) (m : channelize (σ × List (Nat × Nat)))
    (hown : c.currentReader.Reader = true) (h16 : c.currentReader.Length ≤ 65535) :
    (c.currentReader.Length = 0 →
      channel.Deplete cd.logged env fuel c m = some (none, c, m)) ∧
    (∀ e c1 m1, channel.Deplete cd.logged env fuel c m = some (e, c1, m1) →
      ∃ reqs, m1.conn.2 = m.conn.2 ++ reqs ∧
        ∀ q ∈ reqs, q.1 ≤ min c.currentReader.Length 256) ∧
    (cd.Reliable → c.currentReader.Length ≤ fuel →
      ∃ c1 m1 reqs, channel.Deplete cd.logged env fuel c m = some (none, c1, m1) ∧
        c1.currentReader.Length = 0 ∧ m1.conn.2 = m.conn.2 ++ reqs ∧
        (reqs.map Prod.snd).sum = c.currentReader.Length) := by
  have hbuf : (if c.currentReader.Length > maxDepleteBufSize then maxDepleteBufSize
      else c.currentReader.Length) = min c.currentReader.Length 256 := by
    unfold maxDepleteBufSize
    split_ifs <;> omega
  refine ⟨?_, ?_, ?_⟩
  · intro hzero
    unfold channel.Deplete
    rw [if_pos (by simp [channel.Depleted, hzero])]
  · intro e c1 m1 h
    unfold channel.Deplete at h
    by_cases hdep : c.Depleted = true
    · rw [if_pos hdep] at h
      cases h
      exact ⟨[], by simp, by simp⟩
    · rw [if_neg hdep] at h
      simp only [hbuf] at h
      exact depleteLoop_journal cd env _ fuel c m e c1 m1 h
  · intro hcd hfuel
    unfold channel.Deplete
    by_cases hdep : c.Depleted = true
    · rw [if_pos hdep]
      have hzero : c.currentReader.Length = 0 := by
        unfold channel.Depleted at hdep
        simpa using hdep
      exact ⟨c, m, [], rfl, hzero, by simp, by simp [hzero]⟩
    · rw [if_neg hdep]
      have hpos : 1 ≤ c.currentReader.Length := by
        unfold channel.Depleted at hdep
        simp at hdep
        omega
      simp only [hbuf]
      exact depleteLoop_reliable cd hcd env _ (by omega) fuel c m hown hpos (by omega) hfuel

theorem endlessCodec_reliable (chunk : Nat) (hchunk : 1 ≤ chunk) :
    (endlessCodec chunk).Reliable := by
  intro s n hn
  simp only [endlessCodec, List.length_replicate]
  refine ⟨trivial, ?_, ?_⟩ <;> omega

theorem Deplete_bounded_chunks_witness :
    (endlessCodec 100).Reliable ∧
    ((ownerOf 1 300).currentReader.Length = 0 →
      channel.Deplete (endlessCodec 100).logged frameEnv 300 (ownerOf 1 300)
        (muxWith (0, []) [1]) = some (none, ownerOf 1 300, muxWith (0, []) [1])) ∧
    (∀ e c1 m1, channel.Deplete (endlessCodec 100).logged frameEnv 300 (ownerOf 1 300)
        (muxWith (0, []) [1]) = some (e, c1, m1) →
      ∃ reqs, m1.conn.2 = (muxWith ((0 : Nat), ([] : List (Nat × Nat))) [1]).conn.2 ++ reqs ∧
        ∀ q ∈ reqs, q.1 ≤ min (ownerOf 1 300).currentReader.Length 256) ∧
    ((endlessCodec 100).Reliable → (ownerOf 1 300).currentReader.Length ≤ 300 →
      ∃ c1 m1 reqs, channel.Deplete (endlessCodec 100).logged frameEnv 300 (ownerOf 1 300)
          (muxWith (0, []) [1]) = some (none, c1, m1) ∧
        c1.currentReader.Length = 0 ∧
        m1.conn.2 = (muxWith ((0 : Nat), ([] : List (Nat × Nat))) [1]).conn.2 ++ reqs ∧
        (reqs.map Prod.snd).sum = (ownerOf 1 300).currentReader.Length) :=
  ⟨endlessCodec_reliable 100 (by decide),
    Deplete_bounded_chunks (endlessCodec 100) frameEnv 300 (ownerOf 1 300)
      (muxWith (0, []) [1]) rfl (by decide)⟩

/-! ## The life cycle of the worker pool -/

theorem serveClosePass_ok (c : Pool) (hidle : c.serving = false) :
    serveClosePass c = some { serving := false } := by
  unfold serveClosePass Pool.Serve
  rw [hidle]
  rfl

/-- C19: on a pool that is not serving, `Serve` succeeds; a second `Serve` while
serving fails; the first `Close` of the handle succeeds; a second `Close` of it
fails; after that the pool is not serving again, so that for every number `n`
of repetitions (the test makes 100) every check of `TestJobServeClose` passes. -/
theorem Serve_Close_cycle (n : Nat) (c : Pool) (hidle : c.serving = false) :
    (∃ serving c1, c.Serve = (Except.ok serving, c1) ∧
      c1.Serve = (Except.error PoolError.alreadyServing, c1) ∧
      ∃ serving1 c2, serving.Close c1 = (none, serving1, c2) ∧
        serving1.Close c2 = (some PoolError.alreadyClosed, serving1, c2) ∧
        c2.serving = false) ∧
    ∃ c3, TestJobServeClose n c = some c3 ∧ c3.serving = false := by
  constructor
  · unfold Pool.Serve
    rw [hidle]
    exact ⟨_, _, rfl, rfl, _, _, rfl, rfl, rfl⟩
  · induction n generalizing c with
    | zero => exact ⟨c, rfl, hidle⟩
    | succ n ih =>
      unfold TestJobServeClose
      rw [serveClosePass_ok c hidle]
      exact ih _ rfl

theorem Serve_Close_cycle_witness :
    (∃ serving c1, (Pool.mk false).Serve = (Except.ok serving, c1) ∧
      c1.Serve = (Except.error PoolError.alreadyServing, c1) ∧
      ∃ serving1 c2, serving.Close c1 = (none, serving1, c2) ∧
        serving1.Close c2 = (some PoolError.alreadyClosed, serving1, c2) ∧
        c2.serving = false) ∧
    ∃ c3, TestJobServeClose 100 (Pool.mk false) = some c3 ∧ c3.serving = false :=
  Serve_Close_cycle 100 (Pool.mk false) rfl

/-! ## The AES-GCM codec: what Write puts on the wire -/

theorem sizeBuf_eq (n : Nat) (hn : n ≤ 65535) : sizeBuf n = [n / 256, n % 256] := by
  unfold sizeBuf
  rw [Nat.shiftRight_eq_div_pow, Nat.shiftRight_eq_div_pow, Nat.shiftLeft_eq]
  have h1 : n / 2 ^ 8 % 256 = n / 256 := by omega
  have h2 : n * 2 ^ 8 % 65536 / 2 ^ 8 % 256 = n % 256 := by omega
  rw [h1, h2]

theorem size_decode (n : Nat) (hn : n ≤ 65535) :
    (((0 ||| (sizeBuf n).getD 0 0 % 256) <<< 8) % 65536) ||| (sizeBuf n).getD 1 0 % 256 = n := by
  rw [sizeBuf_eq n hn]
  simp only [List.getD_cons_succ, List.getD_cons_zero]
  rw [port_eq (n / 256) (n % 256) (by omega) (by omega)]
  omega

theorem chunks_valid : ∀ (k : Nat) (b ch : List Nat), ch ∈ chunks k b →
    1 ≤ ch.length ∧ ch.length ≤ maxDataBlockSize := by
  intro k
  induction k with
  | zero =>
    intro b ch h
    simp [chunks] at h
  | succ k ih =>
    intro b ch h
    unfold chunks at h
    split_ifs at h with hb
    · simp at h
    · rcases List.mem_cons.mp h with h1 | h1
      · subst h1
        rw [List.length_take]
        unfold maxDataBlockSize
        omega
      · exact ih _ ch h1

theorem chunks_flatten : ∀ (k : Nat) (b : List Nat), b.length ≤ k →
    (chunks k b).flatten = b := by
  intro k
  induction k with
  | zero =>
    intro b h
    have : b = [] := List.length_eq_zero.mp (by omega)
    subst this
    rfl
  | succ k ih =>
    intro b h
    unfold chunks
    split_ifs with hb
    · have : b = [] := List.length_eq_zero.mp hb
      subst this
      rfl
    · rw [List.flatten_cons, ih _ (by rw [List.length_drop]; unfold maxDataBlockSize; omega),
        List.take_append_drop]

theorem wireOf_append (g : AEAD) (N : List Nat) (xs ys : List (List Nat)) :
    wireOf g N (xs ++ ys) = wireOf g N xs ++ wireOf g N ys := by
  unfold wireOf
  rw [List.map_append, List.flatten_append]

theorem writeLoop_wire (g : AEAD) (a : aesgcm) (b : List Nat) :
    ∀ (f start : Nat) (sent : List (List Nat)),
      start ≤ b.length → b.length - start ≤ f →
      ∃ out, aesgcm.writeLoop g (fun _ => none) a b (f + 1) start sent = some out ∧
        out.n = b.length ∧ out.err = none ∧ out.a = a ∧
        out.sent.flatten =
          sent.flatten ++ wireOf g a.encrypterNonceBuf (chunks f (b.drop start)) := by
  intro f
  induction f with
  | zero =>
    intro start sent hle hf
    have hs : start = b.length := by omega
    subst hs
    unfold aesgcm.writeLoop
    rw [if_neg (by omega)]
    exact ⟨_, rfl, rfl, rfl, rfl, by simp [chunks, wireOf]⟩
  | succ f ih =>
    intro start sent hle hf
    unfold aesgcm.writeLoop
    by_cases hlt : start < b.length
    · rw [if_pos hlt]
      simp only []
      have hend : (if start + maxDataBlockSize > b.length then b.length
          else start + maxDataBlockSize) = min (start + maxDataBlockSize) b.length := by
        split_ifs <;> omega
      rw [hend]
      have hlen : (b.drop start).length = b.length - start := List.length_drop _ _
      have htake : (b.drop start).take (min (start + maxDataBlockSize) b.length - start) =
          (b.drop start).take maxDataBlockSize := by
        by_cases hbig : start + maxDataBlockSize ≤ b.length
        · rw [min_eq_left hbig]
          congr 1
          omega
        · rw [min_eq_right (by omega), List.take_of_length_le (by omega),
            List.take_of_length_le (by omega)]
      have hwl : (min (start + maxDataBlockSize) b.length - start) % 65536 =
          ((b.drop start).take maxDataBlockSize).length := by
        rw [List.length_take, hlen]
        unfold maxDataBlockSize
        omega
      have hdrop : b.drop (min (start + maxDataBlockSize) b.length) =
          (b.drop start).drop maxDataBlockSize := by
        rw [List.drop_drop]
        by_cases hbig : start + maxDataBlockSize ≤ b.length
        · rw [min_eq_left hbig]
        · rw [min_eq_right (by omega), List.drop_of_length_le (le_refl _),
            List.drop_of_length_le (by omega)]
      obtain ⟨out, hrun, hn, herr, ha, hsent⟩ :=
        ih (min (start + maxDataBlockSize) b.length)
          (sent ++ [g.Seal a.encrypterNonceBuf
              (sizeBuf ((min (start + maxDataBlockSize) b.length - start) % 65536)),
            g.Seal a.encrypterNonceBuf
              ((b.drop start).take (min (start + maxDataBlockSize) b.length - start))])
          (by omega) (by unfold maxDataBlockSize; omega)
      refine ⟨out, hrun, hn, herr, ha, ?_⟩
      rw [hsent, hdrop, htake, hwl]
      have hne : ¬ (b.drop start).length = 0 := by omega
      conv_rhs => rw [chunks, if_neg hne]
      simp [wireOf]
    · rw [if_neg hlt]
      have hs : start = b.length := by omega
      subst hs
      exact ⟨_, rfl, rfl, rfl, rfl, by simp [chunks, wireOf]⟩

theorem Write_inited (g : AEAD) (rand : List Nat × Option Error) (a : aesgcm)
    (b : List Nat) (hinit : a.encrypterInited = true) :
    ∃ out, aesgcm.Write g rand (fun _ => none) a b = some out ∧
      out.n = b.length ∧ out.err = none ∧ out.a = a ∧
      out.sent.flatten = wireOf g a.encrypterNonceBuf (chunks b.length b) := by
  unfold aesgcm.Write
  rw [if_neg (by simp [hinit])]
  obtain ⟨out, hrun, hn, herr, ha, hsent⟩ :=
    writeLoop_wire g a b b.length 0 [] (Nat.zero_le _) (by omega)
  exact ⟨out, hrun, hn, herr, ha, by simpa using hsent⟩

theorem Write_fresh (g : AEAD) (nonce : List Nat) (a : aesgcm) (b : List Nat)
    (hinit : a.encrypterInited = false)
    (hlen : nonce.length = a.encrypterNonceBuf.length) :
    ∃ out, aesgcm.Write g (nonce, none) (fun _ => none) a b = some out ∧
      out.n = b.length ∧ out.err = none ∧
      out.a.encrypterInited = true ∧ out.a.encrypterNonceBuf = nonce ∧
      out.sent.flatten = nonce ++ wireOf g nonce (chunks b.length b) := by
  unfold aesgcm.Write
  rw [if_pos (by simp [hinit])]
  simp only [fill_full a.encrypterNonceBuf nonce hlen]
  obtain ⟨out, hrun, hn, herr, ha, hsent⟩ :=
    writeLoop_wire g { a with encrypterNonceBuf := nonce, encrypterInited := true } b
      b.length 0 [nonce] (Nat.zero_le _) (by omega)
  refine ⟨out, hrun, hn, herr, ?_, ?_, ?_⟩
  · rw [ha]
  · rw [ha]
  · simpa using hsent

theorem writeAll_inited (g : AEAD) (rand : List Nat × Option Error) :
    ∀ (bs : List (List Nat)) (a : aesgcm), a.encrypterInited = true →
      ∃ sent, aesgcm.writeAll g rand bs a = some (sent, a) ∧
        sent.flatten = wireOf g a.encrypterNonceBuf (blocksOf bs) := by
  intro bs
  induction bs with
  | nil =>
    intro a _
    exact ⟨[], rfl, rfl⟩
  | cons b bs ih =>
    intro a hinit
    obtain ⟨out, hrun, _, _, ha, hsent⟩ := Write_inited g rand a b hinit
    obtain ⟨sent, hall, hflat⟩ := ih a hinit
    refine ⟨out.sent ++ sent, ?_, ?_⟩
    · unfold aesgcm.writeAll
      rw [hrun]
      simp only [ha, hall]
    · rw [List.flatten_append, hsent, hflat, ← wireOf_append]
      rfl

theorem writeAll_fresh (g : AEAD) (nonce : List Nat) (b : List Nat)
    (bs : List (List Nat)) (a : aesgcm) (hinit : a.encrypterInited = false)
    (hlen : nonce.length = a.encrypterNonceBuf.length) :
    ∃ sent a1, aesgcm.writeAll g (nonce, none) (b :: bs) a = some (sent, a1) ∧
      sent.flatten = nonce ++ wireOf g nonce (blocksOf (b :: bs)) := by
  obtain ⟨out, hrun, _, _, hi, hnonce, hsent⟩ := Write_fresh g nonce a b hinit hlen
  obtain ⟨sent, hall, hflat⟩ := writeAll_inited g (nonce, none) bs out.a hi
  refine ⟨out.sent ++ sent, out.a, ?_, ?_⟩
  · unfold aesgcm.writeAll
    rw [hrun]
    simp only [hall]
  · rw [List.flatten_append, hsent, hflat, hnonce, List.append_assoc, ← wireOf_append]
    rfl

theorem blocksOf_valid (bs : List (List Nat)) :
    ∀ ch ∈ blocksOf bs, 1 ≤ ch.length ∧ ch.length ≤ maxDataBlockSize := by
  intro ch h
  unfold blocksOf at h
  rw [List.mem_flatten] at h
  obtain ⟨l, hl, hch⟩ := h
  rw [List.mem_map] at hl
  obtain ⟨b, _, hb⟩ := hl
  subst hb
  exact chunks_valid _ b ch hch

theorem blocksOf_flatten (bs : List (List Nat)) : (blocksOf bs).flatten = bs.flatten := by
  induction bs with
  | nil => rfl
  | cons b bs ih =>
    unfold blocksOf at ih ⊢
    rw [List.map_cons, List.flatten_cons, List.flatten_append, ih,
      chunks_flatten _ b (le_refl _), List.flatten_cons]

/-! ## The AES-GCM codec: what Read takes from the wire -/

theorem listSource_read (X Y : List Nat) (n : Nat) (hX : X.length = n) :
    listSource.ReadFull (X ++ Y) n = { data := X, err := none, next := Y } := by
  unfold listSource
  simp only []
  rw [if_pos (by rw [List.length_append]; omega)]
  subst hX
  rw [List.take_left, List.drop_left]

theorem listSource_read_empty (n : Nat) (hn : 1 ≤ n) :
    listSource.ReadFull [] n = { data := [], err := some Error.EOF, next := [] } := by
  unfold listSource
  simp only []
  rw [if_neg (by simp; omega)]

theorem readBlock_empty (g : AEAD) (a : aesgcm) (bLen : Nat) :
    (aesgcm.readBlock g listSource a [] bLen).data = [] ∧
    (aesgcm.readBlock g listSource a [] bLen).s = [] ∧
    (aesgcm.readBlock g listSource a [] bLen).a.decryptReader = a.decryptReader ∧
    (aesgcm.readBlock g listSource a [] bLen).a.decryptNonceBuf = a.decryptNonceBuf ∧
    (aesgcm.readBlock g listSource a [] bLen).a.decrypterInited = a.decrypterInited := by
  unfold aesgcm.readBlock
  simp only [listSource_read_empty (g.Overhead + 2) (by omega), aesgcm.failed]
  split_ifs <;> simp

theorem readBlock_ok (g : AEAD) (hg : g.Sound) (a : aesgcm) (ch rest : List Nat)
    (bLen : Nat) (hpos : 1 ≤ ch.length) (hmax : ch.length ≤ maxDataBlockSize) :
    (aesgcm.readBlock g listSource a
        (g.Seal a.decryptNonceBuf (sizeBuf ch.length) ++
          (g.Seal a.decryptNonceBuf ch ++ rest)) bLen).data = ch.take bLen ∧
    (aesgcm.readBlock g listSource a
        (g.Seal a.decryptNonceBuf (sizeBuf ch.length) ++
          (g.Seal a.decryptNonceBuf ch ++ rest)) bLen).err = none ∧
    (aesgcm.readBlock g listSource a
        (g.Seal a.decryptNonceBuf (sizeBuf ch.length) ++
          (g.Seal a.decryptNonceBuf ch ++ rest)) bLen).s = rest ∧
    (aesgcm.readBlock g listSource a
        (g.Seal a.decryptNonceBuf (sizeBuf ch.length) ++
          (g.Seal a.decryptNonceBuf ch ++ rest)) bLen).a.decryptReader = ch.drop bLen ∧
    (aesgcm.readBlock g listSource a
        (g.Seal a.decryptNonceBuf (sizeBuf ch.length) ++
          (g.Seal a.decryptNonceBuf ch ++ rest)) bLen).a.decryptNonceBuf
      = a.decryptNonceBuf ∧
    (aesgcm.readBlock g listSource a
        (g.Seal a.decryptNonceBuf (sizeBuf ch.length) ++
          (g.Seal a.decryptNonceBuf ch ++ rest)) bLen).a.decrypterInited
      = a.decrypterInited := by
  have hmax2 : ch.length ≤ 4096 := hmax
  have hX : (g.Seal a.decryptNonceBuf (sizeBuf ch.length)).length = g.Overhead + 2 := by
    rw [(hg _ _).2]
    unfold sizeBuf
    simp
    omega
  have hY : (g.Seal a.decryptNonceBuf ch).length = g.Overhead + ch.length := by
    rw [(hg _ _).2]
    omega
  have hsize := size_decode ch.length (by omega)
  have hne : ¬ ch.length = 0 := by omega
  unfold aesgcm.readBlock
  simp only [listSource_read _ _ _ hX]
  by_cases h1 : a.decryptCipherTextBuf < g.Overhead + 2
  · simp only [if_pos h1, (hg _ _).1]
    rw [if_neg (by unfold sizeBuf; simp), hsize, if_neg (by omega)]
    simp only [listSource_read _ _ _ hY]
    by_cases h2 : g.Overhead + 2 < g.Overhead + ch.length
    · simp only [if_pos h2, (hg _ _).1, aesgcm.readerRead, if_neg hne]
      refine ⟨?_, ?_, ?_, ?_, ?_, ?_⟩ <;> trivial
    · simp only [if_neg h2, (hg _ _).1, aesgcm.readerRead, if_neg hne]
      refine ⟨?_, ?_, ?_, ?_, ?_, ?_⟩ <;> trivial
  · simp only [if_neg h1, (hg _ _).1]
    rw [if_neg (by unfold sizeBuf; simp), hsize, if_neg (by omega)]
    simp only [listSource_read _ _ _ hY]
    by_cases h2 : a.decryptCipherTextBuf < g.Overhead + ch.length
    · simp only [if_pos h2, (hg _ _).1, aesgcm.readerRead, if_neg hne]
      refine ⟨?_, ?_, ?_, ?_, ?_, ?_⟩ <;> trivial
    · simp only [if_neg h2, (hg _ _).1, aesgcm.readerRead, if_neg hne]
      refine ⟨?_, ?_, ?_, ?_, ?_, ?_⟩ <;> trivial

theorem Read_at_end (g : AEAD) (mark : List Nat → Option Error) (a : aesgcm)
    (bLen : Nat) (hempty : a.decryptReader = []) :
    (aesgcm.Read g listSource mark a [] bLen).data = [] ∧
    (aesgcm.Read g listSource mark a [] bLen).s = [] ∧
    (aesgcm.Read g listSource mark a [] bLen).a.decryptReader = [] ∧
    ((aesgcm.Read g listSource mark a [] bLen).a.decrypterInited = a.decrypterInited ∧
      (a.decrypterInited = true →
        (aesgcm.Read g listSource mark a [] bLen).a.decryptNonceBuf = a.decryptNonceBuf)) := by
  unfold aesgcm.Read
  rw [if_neg (by simp [hempty])]
  by_cases hinit : a.decrypterInited = true
  · rw [if_neg (by simp [hinit])]
    obtain ⟨h1, h2, h3, h4, h5⟩ := readBlock_empty g a bLen
    exact ⟨h1, h2, h3.trans hempty, h5, fun _ => h4⟩
  · rw [if_pos (by simpa using hinit)]
    simp only [listSource_read_empty nonceSize (by decide), aesgcm.failed]
    refine ⟨trivial, trivial, hempty, trivial, ?_⟩
    intro h
    exact absurd h hinit

theorem readAll_at_end (g : AEAD) (mark : List Nat → Option Error) :
    ∀ (sizes : List Nat) (a : aesgcm), a.decryptReader = [] →
      Delivers (aesgcm.readAll g listSource mark sizes a []) [] := by
  intro sizes
  induction sizes with
  | nil =>
    intro a _
    trivial
  | cons n ns ih =>
    intro a hempty
    obtain ⟨h1, h2, h3, _⟩ := Read_at_end g mark a n hempty
    unfold aesgcm.readAll Delivers
    simp only [h1, h2]
    refine ⟨rfl, fun h => absurd rfl h, ?_⟩
    exact ih _ h3

theorem take_append_min (P F : List Nat) (n : Nat) :
    P.take n = (P ++ F).take (P.take n).length ∧
    (P ++ F).drop (P.take n).length = P.drop n ++ F := by
  rw [List.length_take]
  by_cases h : n ≤ P.length
  · rw [min_eq_left h, List.take_append_of_le_length h, List.drop_append_of_le_length h]
    exact ⟨rfl, rfl⟩
  · have h2 : P.length ≤ n := by omega
    rw [min_eq_right h2, List.take_left, List.drop_left, List.take_of_length_le h2,
      List.drop_of_length_le h2]
    exact ⟨rfl, rfl⟩

theorem readAll_inited (g : AEAD) (hg : g.Sound) (mark : List Nat → Option Error)
    (N : List Nat) :
    ∀ (sizes : List Nat) (a : aesgcm) (P : List Nat) (chs : List (List Nat)),
      a.decrypterInited = true → a.decryptNonceBuf = N → a.decryptReader = P →
      (∀ ch ∈ chs, 1 ≤ ch.length ∧ ch.length ≤ maxDataBlockSize) →
      (∀ k ∈ sizes, 1 ≤ k) →
      Delivers (aesgcm.readAll g listSource mark sizes a (wireOf g N chs))
        (P ++ chs.flatten) := by
  intro sizes
  induction sizes with
  | nil =>
    intro a P chs _ _ _ _ _
    trivial
  | cons n ns ih =>
    intro a P chs hinit hnonce hP hvalid hsizes
    have hn : 1 ≤ n := hsizes n (List.mem_cons_self _ _)
    have hns : ∀ k ∈ ns, 1 ≤ k := fun k hk => hsizes k (List.mem_cons_of_mem _ hk)
    by_cases hPe : P = []
    · subst hPe
      cases chs with
      | nil =>
        have := readAll_at_end g mark (n :: ns) a hP
        simpa [wireOf] using this
      | cons ch rest =>
        obtain ⟨hpos, hmax⟩ := hvalid ch (List.mem_cons_self _ _)
        have hrest : ∀ c ∈ rest, 1 ≤ c.length ∧ c.length ≤ maxDataBlockSize :=
          fun c hc => hvalid c (List.mem_cons_of_mem _ hc)
        have hwire : wireOf g N (ch :: rest) =
            g.Seal a.decryptNonceBuf (sizeBuf ch.length) ++
              (g.Seal a.decryptNonceBuf ch ++ wireOf g N rest) := by
          rw [hnonce]
          simp [wireOf]
        have hread : aesgcm.Read g listSource mark a (wireOf g N (ch :: rest)) n =
            aesgcm.readBlock g listSource a (wireOf g N (ch :: rest)) n := by
          unfold aesgcm.Read
          rw [if_neg (by simp [hP]), if_neg (by simp [hinit])]
        obtain ⟨hd, he, hs, hr, hnb, hi⟩ :=
          readBlock_ok g hg a ch (wireOf g N rest) n hpos hmax
        rw [← hwire, ← hread] at hd he hs hr hnb hi
        unfold aesgcm.readAll Delivers
        simp only [hd, he, hs, List.nil_append, List.flatten_cons]
        obtain ⟨ht, hdr⟩ := take_append_min ch rest.flatten n
        refine ⟨ht, ?_, ?_⟩
        · intro _
          refine ⟨trivial, ?_⟩
          rw [List.length_take]
          omega
        · rw [hdr]
          exact ih _ (ch.drop n) rest (hi.trans hinit) (hnb.trans hnonce) hr hrest hns
    · have hlen : a.decryptReader.length > 0 := by
        rw [hP]
        exact List.length_pos.mpr hPe
      have hread : aesgcm.Read g listSource mark a (wireOf g N chs) n =
          aesgcm.readerRead a (wireOf g N chs) n := by
        unfold aesgcm.Read
        rw [if_pos hlen]
      unfold aesgcm.readAll Delivers
      have hPlen : ¬ P.length = 0 := by
        rw [hP] at hlen
        omega
      simp only [hread, aesgcm.readerRead, hP, if_neg hPlen]
      obtain ⟨ht, hdr⟩ := take_append_min P chs.flatten n
      refine ⟨ht, ?_, ?_⟩
      · intro _
        refine ⟨trivial, ?_⟩
        rw [List.length_take]
        have : 1 ≤ P.length := List.length_pos.mpr hPe
        omega
      · rw [hdr]
        exact ih _ (P.drop n) chs hinit hnonce rfl hvalid hns

theorem Read_first (g : AEAD) (mark : List Nat → Option Error) (a : aesgcm)
    (N w : List Nat) (bLen : Nat) (hinit : a.decrypterInited = false)
    (hempty : a.decryptReader = []) (hN : N.length = nonceSize)
    (hbuf : a.decryptNonceBuf.length = nonceSize) (hmark : mark N = none) :
    aesgcm.Read g listSource mark a (N ++ w) bLen =
      aesgcm.Read g listSource mark (a.withNonce N) w bLen := by
  have hfill : fill a.decryptNonceBuf N = N := fill_full _ _ (hN.trans hbuf.symm)
  have hl : aesgcm.Read g listSource mark a (N ++ w) bLen =
      aesgcm.readBlock g listSource (a.withNonce N) w bLen := by
    unfold aesgcm.Read
    rw [if_neg (by simp [hempty]), if_pos (by simp [hinit])]
    simp only [listSource_read N w nonceSize hN, hfill, hmark]
    rfl
  have hr : aesgcm.Read g listSource mark (a.withNonce N) w bLen =
      aesgcm.readBlock g listSource (a.withNonce N) w bLen := by
    unfold aesgcm.Read
    rw [if_neg (by simp [aesgcm.withNonce, hempty]), if_neg (by simp [aesgcm.withNonce])]
  rw [hl, hr]

theorem readAll_first (g : AEAD) (mark : List Nat → Option Error) (a : aesgcm)
    (N w : List Nat) (sizes : List Nat) (hinit : a.decrypterInited = false)
    (hempty : a.decryptReader = []) (hN : N.length = nonceSize)
    (hbuf : a.decryptNonceBuf.length = nonceSize) (hmark : mark N = none) :
    aesgcm.readAll g listSource mark sizes a (N ++ w) =
      aesgcm.readAll g listSource mark sizes (a.withNonce N) w := by
  cases sizes with
  | nil => rfl
  | cons n ns =>
    unfold aesgcm.readAll
    rw [Read_first g mark a N w n hinit hempty hN hbuf hmark]

theorem Delivers_flatten : ∀ (outs : List (List Nat × Option Error)) (T : List Nat),
    Delivers outs T →
    ∃ R, (outs.map Prod.fst).flatten ++ R = T ∧ (T.length ≤ outs.length → R = []) := by
  intro outs
  induction outs with
  | nil =>
    intro T _
    refine ⟨T, rfl, ?_⟩
    intro h
    exact List.length_eq_zero.mp (by simpa using h)
  | cons o os ih =>
    intro T h
    unfold Delivers at h
    obtain ⟨htake, hprog, hrest⟩ := h
    obtain ⟨R, hcat, hdone⟩ := ih _ hrest
    refine ⟨R, ?_, ?_⟩
    · rw [List.map_cons, List.flatten_cons, List.append_assoc, hcat]
      have hsplit := List.take_append_drop o.1.length T
      rw [← htake] at hsplit
      exact hsplit
    · intro hlen
      apply hdone
      rw [List.length_drop]
      simp only [List.length_cons] at hlen
      by_cases hT : T = []
      · subst hT
        simp
      · have := (hprog hT).2
        omega

theorem readAll_length {ρ : Type} (g : AEAD) (src : Source ρ)
    (mark : List Nat → Option Error) :
    ∀ (sizes : List Nat) (a : aesgcm) (s : ρ),
      (aesgcm.readAll g src mark sizes a s).length = sizes.length := by
  intro sizes
  induction sizes with
  | nil =>
    intro a s
    rfl
  | cons n ns ih =>
    intro a s
    unfold aesgcm.readAll
    rw [List.length_cons, List.length_cons, ih]

theorem round_trip_delivers (g : AEAD) (hg : g.Sound) (mark : List Nat → Option Error)
    (nonce : List Nat) (hn : nonce.length = nonceSize) (hmark : mark nonce = none)
    (bs : List (List Nat)) (sizes : List Nat) (hs : ∀ k ∈ sizes, 1 ≤ k) :
    ∃ sent a1, aesgcm.writeAll g (nonce, none) bs AESGCM = some (sent, a1) ∧
      Delivers (aesgcm.readAll g listSource mark sizes AESGCM sent.flatten) bs.flatten := by
  cases bs with
  | nil =>
    refine ⟨[], AESGCM, rfl, ?_⟩
    exact readAll_at_end g mark sizes AESGCM rfl
  | cons b bs =>
    obtain ⟨sent, a1, hall, hflat⟩ :=
      writeAll_fresh g nonce b bs AESGCM rfl (by rw [hn]; rfl)
    refine ⟨sent, a1, hall, ?_⟩
    rw [hflat, readAll_first g mark AESGCM nonce _ sizes rfl rfl hn rfl hmark]
    have hd := readAll_inited g hg mark nonce sizes (AESGCM.withNonce nonce) []
      (blocksOf (b :: bs)) rfl rfl rfl (blocksOf_valid (b :: bs)) hs
    rw [List.nil_append, blocksOf_flatten] at hd
    exact hd

/-- C18: let the AEAD open what it sealed, its ciphertext being `Overhead` bytes
longer than the plaintext, and let the nonce drawn by the writer have
`nonceSize` bytes and be accepted by the reader's marker.  The payloads `bs`
are written one after the other with `Write` on a new codec, every write to the
connection succeeding; a new peer codec reads the bytes so produced with
successive `Read`s on non-empty buffers of any sizes.  Then each `Read` returns
the next bytes of `b1 ++ ... ++ bn`, at least one and without error as long as
some are left; so what the reads return is in order a prefix of the payload
bytes, and all of them once there are as many reads as bytes. -/
theorem aesgcm_round_trip (g : AEAD) (hg : g.Sound) (mark : List Nat → Option Error)
    (nonce : List Nat) (hn : nonce.length = nonceSize) (hmark : mark nonce = none)
    (bs : List (List Nat)) (sizes : List Nat) (hs : ∀ k ∈ sizes, 1 ≤ k) :
    ∃ sent a1, aesgcm.writeAll g (nonce, none) bs AESGCM = some (sent, a1) ∧
      Delivers (aesgcm.readAll g listSource mark sizes AESGCM sent.flatten) bs.flatten ∧
      ∃ R, ((aesgcm.readAll g listSource mark sizes AESGCM sent.flatten).map
          Prod.fst).flatten ++ R = bs.flatten ∧
        (bs.flatten.length ≤ sizes.length → R = []) := by
  obtain ⟨sent, a1, hall, hd⟩ := round_trip_delivers g hg mark nonce hn hmark bs sizes hs
  obtain ⟨R, hcat, hdone⟩ := Delivers_flatten _ _ hd
  rw [readAll_length] at hdone
  exact ⟨sent, a1, hall, hd, R, hcat, hdone⟩

theorem tagAEAD_sound : tagAEAD.Sound := by
  intro nonce x
  simp [tagAEAD]

theorem aesgcm_round_trip_witness :
    ∃ sent a1, aesgcm.writeAll tagAEAD (nonce12, none) [[21, 22, 23], [24, 25]] AESGCM
        = some (sent, a1) ∧
      Delivers (aesgcm.readAll tagAEAD listSource (fun _ => none) [2, 2, 2, 2, 2] AESGCM
        sent.flatten) [[21, 22, 23], [24, 25]].flatten ∧
      ∃ R, ((aesgcm.readAll tagAEAD listSource (fun _ => none) [2, 2, 2, 2, 2] AESGCM
          sent.flatten).map Prod.fst).flatten ++ R = [[21, 22, 23], [24, 25]].flatten ∧
        ([[21, 22, 23], [24, 25]].flatten.length ≤ [2, 2, 2, 2, 2].length → R = []) :=
  aesgcm_round_trip tagAEAD tagAEAD_sound (fun _ => none) nonce12 rfl rfl
    [[21, 22, 23], [24, 25]] [2, 2, 2, 2, 2] (by decide)

/-! ## The AES-GCM codec: sizes the reader refuses -/

theorem Read_atHeader {ρ : Type} (g : AEAD) (src : Source ρ)
    (mark : List Nat → Option Error) (a : aesgcm) (s : ρ) (bLen : Nat) (a1 : aesgcm)
    (s1 : ρ) (hat : aesgcm.atHeader src mark a s = some (a1, s1)) :
    aesgcm.Read g src mark a s bLen = aesgcm.readBlock g src a1 s1 bLen := by
  unfold aesgcm.atHeader at hat
  unfold aesgcm.Read
  by_cases hlen : a.decryptReader.length > 0
  · rw [if_pos hlen] at hat
    cases hat
  · rw [if_neg hlen] at hat
    rw [if_neg hlen]
    by_cases hinit : (!a.decrypterInited) = true
    · rw [if_pos hinit] at hat
      rw [if_pos hinit]
      simp only []
      split at hat
      · cases hat
      · rename_i herr
        split at hat
        · cases hat
        · rename_i hmark
          cases hat
          rfl
    · rw [if_neg hinit] at hat
      rw [if_neg hinit]
      cases hat
      rfl

theorem readBlock_bad_length {ρ : Type} (g : AEAD) (src : Source ρ) (a : aesgcm) (s : ρ)
    (bLen : Nat) (sizeData : List Nat)
    (hread : (src.ReadFull s (g.Overhead + 2)).err = none)
    (hopen : g.Open a.decryptNonceBuf (src.ReadFull s (g.Overhead + 2)).data
      = Except.ok sizeData)
    (hlen : sizeData.length ≠ 2) :
    (aesgcm.readBlock g src a s bLen).err = some Error.ErrInvalidSizeDataLength ∧
    (aesgcm.readBlock g src a s bLen).n = 0 ∧
    (aesgcm.readBlock g src a s bLen).data = [] ∧
    (aesgcm.readBlock g src a s bLen).s = (src.ReadFull s (g.Overhead + 2)).next := by
  unfold aesgcm.readBlock
  simp only [hread]
  by_cases h1 : a.decryptCipherTextBuf < g.Overhead + 2
  · simp only [if_pos h1, hopen]
    rw [if_pos hlen]
    exact ⟨rfl, rfl, rfl, rfl⟩
  · simp only [if_neg h1, hopen]
    rw [if_pos hlen]
    exact ⟨rfl, rfl, rfl, rfl⟩

theorem readBlock_too_large {ρ : Type} (g : AEAD) (src : Source ρ) (a : aesgcm) (s : ρ)
    (bLen hi lo : Nat) (hhi : hi < 256) (hlo : lo < 256)
    (hread : (src.ReadFull s (g.Overhead + 2)).err = none)
    (hopen : g.Open a.decryptNonceBuf (src.ReadFull s (g.Overhead + 2)).data
      = Except.ok [hi, lo])
    (hbig : 256 * hi + lo > maxDataBlockSize) :
    (aesgcm.readBlock g src a s bLen).err = some Error.ErrDataBlockTooLarge ∧
    (aesgcm.readBlock g src a s bLen).n = 0 ∧
    (aesgcm.readBlock g src a s bLen).data = [] ∧
    (aesgcm.readBlock g src a s bLen).s = (src.ReadFull s (g.Overhead + 2)).next := by
  have hdec : (((0 ||| [hi, lo].getD 0 0 % 256) <<< 8) % 65536) ||| [hi, lo].getD 1 0 % 256
      = 256 * hi + lo := port_eq hi lo hhi hlo
  unfold aesgcm.readBlock
  simp only [hread]
  by_cases h1 : a.decryptCipherTextBuf < g.Overhead + 2
  · simp only [if_pos h1, hopen]
    rw [if_neg (by simp), hdec, if_pos hbig]
    exact ⟨rfl, rfl, rfl, rfl⟩
  · simp only [if_neg h1, hopen]
    rw [if_neg (by simp), hdec, if_pos hbig]
    exact ⟨rfl, rfl, rfl, rfl⟩

theorem readBlock_admitted {ρ : Type} (g : AEAD) (src : Source ρ) (a : aesgcm) (s : ρ)
    (bLen hi lo : Nat) (hhi : hi < 256) (hlo : lo < 256)
    (hread : (src.ReadFull s (g.Overhead + 2)).err = none)
    (hopen : g.Open a.decryptNonceBuf (src.ReadFull s (g.Overhead + 2)).data
      = Except.ok [hi, lo])
    (hfit : 256 * hi + lo ≤ maxDataBlockSize) :
    (aesgcm.readBlock g src a s bLen).s
      = (src.ReadFull (src.ReadFull s (g.Overhead + 2)).next
          (g.Overhead + (256 * hi + lo))).next := by
  have hdec : (((0 ||| [hi, lo].getD 0 0 % 256) <<< 8) % 65536) ||| [hi, lo].getD 1 0 % 256
      = 256 * hi + lo := port_eq hi lo hhi hlo
  have htail : ∀ a2 : aesgcm, a2.decryptNonceBuf = a.decryptNonceBuf →
      (match (src.ReadFull (src.ReadFull s (g.Overhead + 2)).next
          (g.Overhead + (256 * hi + lo))).err with
        | some rErr => aesgcm.failed rErr a2
            (src.ReadFull (src.ReadFull s (g.Overhead + 2)).next
              (g.Overhead + (256 * hi + lo))).next
        | none =>
          match g.Open a2.decryptNonceBuf
              (src.ReadFull (src.ReadFull s (g.Overhead + 2)).next
                (g.Overhead + (256 * hi + lo))).data with
          | Except.error dataOpenErr => aesgcm.failed dataOpenErr a2
              (src.ReadFull (src.ReadFull s (g.Overhead + 2)).next
                (g.Overhead + (256 * hi + lo))).next
          | Except.ok dataData =>
            aesgcm.readerRead { a2 with decryptReader := dataData }
              (src.ReadFull (src.ReadFull s (g.Overhead + 2)).next
                (g.Overhead + (256 * hi + lo))).next bLen).s
        = (src.ReadFull (src.ReadFull s (g.Overhead + 2)).next
            (g.Overhead + (256 * hi + lo))).next := by
    intro a2 _
    cases (src.ReadFull (src.ReadFull s (g.Overhead + 2)).next
        (g.Overhead + (256 * hi + lo))).err with
    | some e => rfl
    | none =>
      simp only []
      cases g.Open a2.decryptNonceBuf (src.ReadFull (src.ReadFull s (g.Overhead + 2)).next
          (g.Overhead + (256 * hi + lo))).data with
      | error e => rfl
      | ok d =>
        simp only [aesgcm.readerRead]
        split <;> rfl
  unfold aesgcm.readBlock
  simp only [hread]
  by_cases h1 : a.decryptCipherTextBuf < g.Overhead + 2
  · simp only [if_pos h1, hopen]
    rw [if_neg (by simp), hdec, if_neg (by omega)]
    exact htail _ (by split <;> rfl)
  · simp only [if_neg h1, hopen]
    rw [if_neg (by simp), hdec, if_neg (by omega)]
    exact htail _ (by split <;> rfl)

/-- C21: once `aesgcm.Read` has reached the size header (`aesgcm.atHeader`) on a
connection that journals the length of every `ReadFull`, and the header is read
and opens to `sizeData`: if `sizeData` is not 2 bytes long, `Read` returns
`ErrInvalidSizeDataLength` with 0 bytes and the header read is the last read of
the journal; if `sizeData` is the two bytes `hi`, `lo`, `Read` returns
`ErrDataBlockTooLarge` with the header read as the last read of the journal
exactly when the big-endian value `256 * hi + lo` is above 4096, it returns
0 bytes then and leaves the stream right behind the header, and for a value of
at most 4096 the journal goes on with the read of the block ciphertext. -/
theorem Read_refuses_oversized {ρ : Type} (g : AEAD) (src : Source ρ)
    (mark : List Nat → Option Error) (a : aesgcm) (s : ρ × List Nat) (bLen : Nat)
    (a1 : aesgcm) (s1 : ρ × List Nat) (sizeData : List Nat)
    (hat : aesgcm.atHeader src.logged mark a s = some (a1, s1))
    (hread : (src.logged.ReadFull s1 (g.Overhead + 2)).err = none)
    (hopen : g.Open a1.decryptNonceBuf (src.logged.ReadFull s1 (g.Overhead + 2)).data
      = Except.ok sizeData) :
    (sizeData.length ≠ 2 →
      (aesgcm.Read g src.logged mark a s bLen).err = some Error.ErrInvalidSizeDataLength ∧
      (aesgcm.Read g src.logged mark a s bLen).n = 0 ∧
      (aesgcm.Read g src.logged mark a s bLen).data = [] ∧
      (aesgcm.Read g src.logged mark a s bLen).s.1
        = (src.ReadFull s1.1 (g.Overhead + 2)).next ∧
      (aesgcm.Read g src.logged mark a s bLen).s.2 = s1.2 ++ [g.Overhead + 2]) ∧
    (∀ hi lo : Nat, sizeData = [hi, lo] → hi < 256 → lo < 256 →
      (((aesgcm.Read g src.logged mark a s bLen).err = some Error.ErrDataBlockTooLarge ∧
          (aesgcm.Read g src.logged mark a s bLen).s.2 = s1.2 ++ [g.Overhead + 2])
        ↔ 256 * hi + lo > 4096) ∧
      (256 * hi + lo > 4096 →
        (aesgcm.Read g src.logged mark a s bLen).n = 0 ∧
        (aesgcm.Read g src.logged mark a s bLen).data = [] ∧
        (aesgcm.Read g src.logged mark a s bLen).s.1
          = (src.ReadFull s1.1 (g.Overhead + 2)).next) ∧
      (256 * hi + lo ≤ 4096 →
        (aesgcm.Read g src.logged mark a s bLen).s.2
          = s1.2 ++ [g.Overhead + 2, g.Overhead + (256 * hi + lo)])) := by
  rw [Read_atHeader g src.logged mark a s bLen a1 s1 hat]
  constructor
  · intro hlen
    obtain ⟨h1, h2, h3, h4⟩ := readBlock_bad_length g src.logged a1 s1 bLen sizeData
      hread hopen hlen
    refine ⟨h1, h2, h3, ?_, ?_⟩
    · rw [h4]
      rfl
    · rw [h4]
      rfl
  · intro hi lo hsd hhi hlo
    subst hsd
    have hbigcase : 256 * hi + lo > 4096 →
        (aesgcm.readBlock g src.logged a1 s1 bLen).err = some Error.ErrDataBlockTooLarge ∧
        (aesgcm.readBlock g src.logged a1 s1 bLen).n = 0 ∧
        (aesgcm.readBlock g src.logged a1 s1 bLen).data = [] ∧
        (aesgcm.readBlock g src.logged a1 s1 bLen).s
          = (src.logged.ReadFull s1 (g.Overhead + 2)).next := fun hbig =>
      readBlock_too_large g src.logged a1 s1 bLen hi lo hhi hlo hread hopen hbig
    have hfitcase : 256 * hi + lo ≤ 4096 →
        (aesgcm.readBlock g src.logged a1 s1 bLen).s.2
          = s1.2 ++ [g.Overhead + 2, g.Overhead + (256 * hi + lo)] := by
      intro hfit
      rw [readBlock_admitted g src.logged a1 s1 bLen hi lo hhi hlo hread hopen hfit]
      show (s1.2 ++ [g.Overhead + 2]) ++ [g.Overhead + (256 * hi + lo)] = _
      simp
    refine ⟨⟨?_, ?_⟩, ?_, hfitcase⟩
    · rintro ⟨_, hj⟩
      by_contra hnot
      have hfit : 256 * hi + lo ≤ 4096 := by omega
      have h := hfitcase hfit
      rw [hj] at h
      have hl := congrArg List.length h
      simp at hl
    · intro hbig
      obtain ⟨h1, _, _, h4⟩ := hbigcase hbig
      refine ⟨h1, ?_⟩
      rw [h4]
      rfl
    · intro hbig
      obtain ⟨_, h2, h3, h4⟩ := hbigcase hbig
      refine ⟨h2, h3, ?_⟩
      rw [h4]
      rfl

theorem Read_refuses_oversized_witness :
    aesgcm.atHeader listSource.logged (fun _ => none) (AESGCM.withNonce nonce12)
        ([32, 0, 0, 9, 9], [])
      = some (AESGCM.withNonce nonce12, ([32, 0, 0, 9, 9], [])) ∧
    (listSource.logged.ReadFull ([32, 0, 0, 9, 9], []) (tagAEAD.Overhead + 2)).err = none ∧
    tagAEAD.Open (AESGCM.withNonce nonce12).decryptNonceBuf
        (listSource.logged.ReadFull ([32, 0, 0, 9, 9], []) (tagAEAD.Overhead + 2)).data
      = Except.ok [32, 0] ∧
    (aesgcm.Read tagAEAD listSource.logged (fun _ => none) (AESGCM.withNonce nonce12)
        ([32, 0, 0, 9, 9], []) 8).err = some Error.ErrDataBlockTooLarge ∧
    (aesgcm.Read tagAEAD listSource.logged (fun _ => none) (AESGCM.withNonce nonce12)
        ([32, 0, 0, 9, 9], []) 8).s.2 = [] ++ [tagAEAD.Overhead + 2] :=
  ⟨rfl, rfl, rfl,
    ((Read_refuses_oversized tagAEAD listSource (fun _ => none) (AESGCM.withNonce nonce12)
      ([32, 0, 0, 9, 9], []) 8 (AESGCM.withNonce nonce12) ([32, 0, 0, 9, 9], []) [32, 0]
      rfl rfl rfl).2 32 0 rfl (by decide) (by decide)).1.mpr (by decide)⟩

/-! ## The AES-GCM codec: the blocks Write sends -/

theorem chunks_of_nil (k : Nat) : chunks k [] = [] := by
  cases k <;> simp [chunks]

theorem chunks_length : ∀ (k : Nat) (b : List Nat), b.length ≤ k →
    (chunks k b).length = (b.length + 4095) / 4096 := by
  intro k
  induction k with
  | zero =>
    intro b h
    have : b = [] := List.length_eq_zero.mp (by omega)
    subst this
    rfl
  | succ k ih =>
    intro b h
    unfold chunks
    split_ifs with hb
    · rw [hb]
      rfl
    · have hd : (b.drop maxDataBlockSize).length = b.length - 4096 := List.length_drop _ _
      rw [List.length_cons, ih _ (by rw [hd]; omega), hd]
      omega

theorem chunks_dropLast_full : ∀ (k : Nat) (b ch : List Nat),
    ch ∈ (chunks k b).dropLast → ch.length = maxDataBlockSize := by
  intro k
  induction k with
  | zero =>
    intro b ch h
    simp [chunks] at h
  | succ k ih =>
    intro b ch h
    unfold chunks at h
    split_ifs at h with hb
    · simp at h
    · cases hrest : chunks k (b.drop maxDataBlockSize) with
      | nil =>
        rw [hrest] at h
        simp at h
      | cons y ys =>
        have hlong : maxDataBlockSize < b.length := by
          by_contra hshort
          have hnil : b.drop maxDataBlockSize = [] :=
            List.drop_of_length_le (by omega)
          rw [hnil, chunks_of_nil] at hrest
          cases hrest
        rw [hrest, List.dropLast_cons₂] at h
        rcases List.mem_cons.mp h with h1 | h1
        · subst h1
          rw [List.length_take]
          omega
        · rw [← hrest] at h1
          exact ih _ ch h1

theorem sealedBlocks_append (g : AEAD) (N : List Nat) (xs ys : List (List Nat)) :
    sealedBlocks g N (xs ++ ys) = sealedBlocks g N xs ++ sealedBlocks g N ys := by
  unfold sealedBlocks
  rw [List.map_append, List.flatten_append]

theorem writeLoop_sent (g : AEAD) (a : aesgcm) (b : List Nat) :
    ∀ (f start : Nat) (sent : List (List Nat)),
      start ≤ b.length → b.length - start ≤ f →
      ∃ out, aesgcm.writeLoop g (fun _ => none) a b (f + 1) start sent = some out ∧
        out.n = b.length ∧ out.err = none ∧ out.a = a ∧
        out.sent = sent ++ sealedBlocks g a.encrypterNonceBuf (chunks f (b.drop start)) := by
  intro f
  induction f with
  | zero =>
    intro start sent hle hf
    have hs : start = b.length := by omega
    subst hs
    unfold aesgcm.writeLoop
    rw [if_neg (by omega)]
    exact ⟨_, rfl, rfl, rfl, rfl, by simp [chunks, sealedBlocks]⟩
  | succ f ih =>
    intro start sent hle hf
    unfold aesgcm.writeLoop
    by_cases hlt : start < b.length
    · rw [if_pos hlt]
      simp only []
      have hend : (if start + maxDataBlockSize > b.length then b.length
          else start + maxDataBlockSize) = min (start + maxDataBlockSize) b.length := by
        split_ifs <;> omega
      rw [hend]
      have hlen : (b.drop start).length = b.length - start := List.length_drop _ _
      have htake : (b.drop start).take (min (start + maxDataBlockSize) b.length - start) =
          (b.drop start).take maxDataBlockSize := by
        by_cases hbig : start + maxDataBlockSize ≤ b.length
        · rw [min_eq_left hbig]
          congr 1
          omega
        · rw [min_eq_right (by omega), List.take_of_length_le (by omega),
            List.take_of_length_le (by omega)]
      have hwl : (min (start + maxDataBlockSize) b.length - start) % 65536 =
          ((b.drop start).take maxDataBlockSize).length := by
        rw [List.length_take, hlen]
        unfold maxDataBlockSize
        omega
      have hdrop : b.drop (min (start + maxDataBlockSize) b.length) =
          (b.drop start).drop maxDataBlockSize := by
        rw [List.drop_drop]
        by_cases hbig : start + maxDataBlockSize ≤ b.length
        · rw [min_eq_left hbig]
        · rw [min_eq_right (by omega), List.drop_of_length_le (le_refl _),
            List.drop_of_length_le (by omega)]
      obtain ⟨out, hrun, hn, herr, ha, hsent⟩ :=
        ih (min (start + maxDataBlockSize) b.length)
          (sent ++ [g.Seal a.encrypterNonceBuf
              (sizeBuf ((min (start + maxDataBlockSize) b.length - start) % 65536)),
            g.Seal a.encrypterNonceBuf
              ((b.drop start).take (min (start + maxDataBlockSize) b.length - start))])
          (by omega) (by unfold maxDataBlockSize; omega)
      refine ⟨out, hrun, hn, herr, ha, ?_⟩
      rw [hsent, hdrop, htake, hwl]
      have hne : ¬ (b.drop start).length = 0 := by omega
      conv_rhs => rw [chunks, if_neg hne]
      simp [sealedBlocks]
    · rw [if_neg hlt]
      have hs : start = b.length := by omega
      subst hs
      exact ⟨_, rfl, rfl, rfl, rfl, by simp [chunks, sealedBlocks]⟩

theorem Write_sent_inited (g : AEAD) (rand : List Nat × Option Error) (a : aesgcm)
    (b : List Nat) (hinit : a.encrypterInited = true) :
    ∃ out, aesgcm.Write g rand (fun _ => none) a b = some out ∧
      out.n = b.length ∧ out.err = none ∧ out.a = a ∧
      out.sent = sealedBlocks g a.encrypterNonceBuf (chunks b.length b) := by
  unfold aesgcm.Write
  rw [if_neg (by simp [hinit])]
  obtain ⟨out, hrun, hn, herr, ha, hsent⟩ :=
    writeLoop_sent g a b b.length 0 [] (Nat.zero_le _) (by omega)
  exact ⟨out, hrun, hn, herr, ha, by simpa using hsent⟩

theorem Write_sent_fresh (g : AEAD) (nonce : List Nat) (a : aesgcm) (b : List Nat)
    (hinit : a.encrypterInited = false)
    (hlen : nonce.length = a.encrypterNonceBuf.length) :
    ∃ out, aesgcm.Write g (nonce, none) (fun _ => none) a b = some out ∧
      out.n = b.length ∧ out.err = none ∧
      out.a.encrypterInited = true ∧ out.a.encrypterNonceBuf = nonce ∧
      out.sent = nonce :: sealedBlocks g nonce (chunks b.length b) := by
  unfold aesgcm.Write
  rw [if_pos (by simp [hinit])]
  simp only [fill_full a.encrypterNonceBuf nonce hlen]
  obtain ⟨out, hrun, hn, herr, ha, hsent⟩ :=
    writeLoop_sent g { a with encrypterNonceBuf := nonce, encrypterInited := true } b
      b.length 0 [nonce] (Nat.zero_le _) (by omega)
  refine ⟨out, hrun, hn, herr, ?_, ?_, ?_⟩
  · rw [ha]
  · rw [ha]
  · simpa using hsent

theorem writeAll_sent_inited (g : AEAD) (rand : List Nat × Option Error) :
    ∀ (bs : List (List Nat)) (a : aesgcm), a.encrypterInited = true →
      aesgcm.writeAll g rand bs a
        = some (sealedBlocks g a.encrypterNonceBuf (blocksOf bs), a) := by
  intro bs
  induction bs with
  | nil =>
    intro a _
    rfl
  | cons b bs ih =>
    intro a hinit
    obtain ⟨out, hrun, _, _, ha, hsent⟩ := Write_sent_inited g rand a b hinit
    unfold aesgcm.writeAll
    rw [hrun]
    simp only [ha, ih a hinit, hsent, ← sealedBlocks_append]
    rfl

theorem writeAll_sent_fresh (g : AEAD) (nonce : List Nat) (b : List Nat)
    (bs : List (List Nat)) (a : aesgcm) (hinit : a.encrypterInited = false)
    (hlen : nonce.length = a.encrypterNonceBuf.length) :
    ∃ a1, aesgcm.writeAll g (nonce, none) (b :: bs) a
      = some (nonce :: sealedBlocks g nonce (blocksOf (b :: bs)), a1) := by
  obtain ⟨out, hrun, _, _, hi, hnonce, hsent⟩ := Write_sent_fresh g nonce a b hinit hlen
  refine ⟨out.a, ?_⟩
  unfold aesgcm.writeAll
  rw [hrun]
  simp only [writeAll_sent_inited g (nonce, none) bs out.a hi, hsent, hnonce,
    List.cons_append, ← sealedBlocks_append]
  rfl

/-- C22 (as stated) fails when the nonce cannot be generated: on a new codec
`rand.Read` returns an error, no `WriteFull` is made at all (so none fails), and
`Write` of the one byte payload returns 0 and that error instead of the length
of the payload and no error; the block of the payload is not sent. -/
theorem Write_chunking_counterexample :
    ∃ out, aesgcm.Write tagAEAD ([], some (Error.collaborator 1)) (fun _ => none) AESGCM [7]
        = some out ∧
      out.n = 0 ∧ out.err = some (Error.collaborator 1) ∧ out.sent = [] ∧
      out.a.encrypterInited = false ∧
      [7].length = 1 ∧ (chunks [7].length [7]).length = 1 :=
  ⟨_, rfl, rfl, rfl, rfl, rfl, rfl, rfl⟩

/-- C22 (amended): when every `WriteFull` succeeds and, on a codec that has not
sent its nonce yet, `rand.Read` succeeds with its 12 bytes, `Write` of any
payload `b` returns `len(b)` and no error and leaves the codec initialised; what
it hands to `WriteFull` is, for the blocks `chunks b.length b` in order, the
sealed `sizeBuf` and then the sealed bytes of the block, preceded by the nonce
on a codec that had not sent it and by nothing on one that had. The blocks are
`ceil(len(b) / 4096)` many, each of 1 to 4096 bytes, its `sizeBuf` the two
big-endian bytes of its length, which the reader decodes back to that length;
every block but the last has 4096 bytes and the blocks concatenate to `b`. Over
successive writes `b :: bs` of one codec the nonce is the first thing sent and
only sealed sizes and blocks follow; a codec that had sent it sends only those. -/
theorem Write_chunking (g : AEAD) (rand : List Nat × Option Error) (a : aesgcm)
    (b : List Nat) (bs : List (List Nat))
    (hbuf : a.encrypterNonceBuf.length = nonceSize)
    (hrand : a.encrypterInited = false → rand.2 = none ∧ rand.1.length = nonceSize) :
    (∃ out, aesgcm.Write g rand (fun _ => none) a b = some out ∧
      out.n = b.length ∧ out.err = none ∧
      out.a.encrypterInited = true ∧ out.a.encrypterNonceBuf.length = nonceSize ∧
      (a.encrypterInited = true →
        out.a = a ∧ out.sent = sealedBlocks g a.encrypterNonceBuf (chunks b.length b)) ∧
      (a.encrypterInited = false →
        out.a.encrypterNonceBuf = rand.1 ∧
        out.sent = rand.1 :: sealedBlocks g rand.1 (chunks b.length b))) ∧
    ((chunks b.length b).length = (b.length + 4095) / 4096 ∧
      (∀ ch ∈ chunks b.length b, 1 ≤ ch.length ∧ ch.length ≤ 4096 ∧
        sizeBuf ch.length = [ch.length / 256, ch.length % 256] ∧
        (((0 ||| (sizeBuf ch.length).getD 0 0 % 256) <<< 8) % 65536)
          ||| (sizeBuf ch.length).getD 1 0 % 256 = ch.length) ∧
      (∀ ch ∈ (chunks b.length b).dropLast, ch.length = 4096) ∧
      (chunks b.length b).flatten = b) ∧
    (a.encrypterInited = false →
      ∃ a1, aesgcm.writeAll g rand (b :: bs) a
        = some (rand.1 :: sealedBlocks g rand.1 (blocksOf (b :: bs)), a1)) ∧
    (a.encrypterInited = true →
      aesgcm.writeAll g rand (b :: bs) a
        = some (sealedBlocks g a.encrypterNonceBuf (blocksOf (b :: bs)), a)) := by
  obtain ⟨nonce, rerr⟩ := rand
  refine ⟨?_, ⟨chunks_length _ b (le_refl _), ?_, ?_, chunks_flatten _ b (le_refl _)⟩,
    ?_, ?_⟩
  · cases hinit : a.encrypterInited with
    | true =>
      obtain ⟨out, hrun, hn, herr, ha, hsent⟩ :=
        Write_sent_inited g (nonce, rerr) a b hinit
      refine ⟨out, hrun, hn, herr, ?_, ?_, ?_, ?_⟩
      · rw [ha, hinit]
      · rw [ha, hbuf]
      · intro _
        exact ⟨ha, hsent⟩
      · intro h
        cases h
    | false =>
      obtain ⟨hnone, hlen⟩ := hrand hinit
      simp only at hnone hlen
      subst hnone
      obtain ⟨out, hrun, hn, herr, hi, hnonce, hsent⟩ :=
        Write_sent_fresh g nonce a b hinit (by rw [hlen, hbuf])
      refine ⟨out, hrun, hn, herr, hi, ?_, ?_, ?_⟩
      · rw [hnonce, hlen]
      · intro h
        cases h
      · intro _
        exact ⟨hnonce, hsent⟩
  · intro ch hch
    obtain ⟨h1, h2⟩ := chunks_valid _ b ch hch
    have h3 : ch.length ≤ 4096 := h2
    exact ⟨h1, h3, sizeBuf_eq _ (by omega), size_decode _ (by omega)⟩
  · intro ch hch
    exact chunks_dropLast_full _ b ch hch
  · intro hinit
    obtain ⟨hnone, hlen⟩ := hrand hinit
    simp only at hnone hlen
    subst hnone
    exact writeAll_sent_fresh g nonce b bs a hinit (by rw [hlen, hbuf])
  · intro hinit
    exact writeAll_sent_inited g (nonce, rerr) (b :: bs) a hinit

theorem Write_chunking_witness :
    AESGCM.encrypterNonceBuf.length = nonceSize ∧
    (AESGCM.encrypterInited = false →
      (nonce12, (none : Option Error)).2 = none ∧
        (nonce12, (none : Option Error)).1.length = nonceSize) ∧
    ∃ a1, aesgcm.writeAll tagAEAD (nonce12, none) ([1, 2, 3] :: [[4]]) AESGCM
      = some ((nonce12, (none : Option Error)).1 ::
          sealedBlocks tagAEAD (nonce12, (none : Option Error)).1
            (blocksOf ([1, 2, 3] :: [[4]])), a1) :=
  ⟨rfl, fun _ => ⟨rfl, rfl⟩,
    (Write_chunking tagAEAD (nonce12, none) AESGCM [1, 2, 3] [[4]] rfl
      (fun _ => ⟨rfl, rfl⟩)).2.2.1 rfl⟩

end Coward
